import Mathlib

/-!
A shallow embedding of the gjson JSON path-query evaluator (src/gjson.go)
and proofs about it.

Conventions of the embedding:
* Go strings and byte slices are `List Nat` of byte values; all concrete
  inputs used in theorems are ASCII, so byte values and code points agree.
* Go's index loops become recursive functions, structurally recursive on
  a fuel argument so that the kernel can evaluate them; each loop's
  wrapper supplies fuel `json.length + 1`, which dominates the iteration
  count because every iteration advances the index.  Where a loop
  continues from an index produced by a sub-scanner, the Go code advances
  by at least one byte per iteration; the embedding makes that progress
  explicit with `max (i + 1) _`.  On every input the sub-scanners do
  advance, so the `max` is the identity, and with the stated fuel the
  out-of-fuel branches are unreachable.
* `Result.Num` (a Go `float64`) is modelled as an exact rational, and
  `strconv.ParseFloat` as exact decimal-to-rational parsing.  Every
  theorem that looks at `num` does so at values small enough that the
  binary64 value is exact, so the model and the float agree there.
* The `Index` field of `Result` is computed in Go by raw pointer
  subtraction (`unsafe.Pointer`); string identity does not exist in the
  embedding, so the field is omitted from `ResultT`.
* Go `int64`/`uint64` arithmetic is modelled on `ℤ`/`ℕ` with explicit
  two's-complement wrapping (`w64`) and `% 2^64`.
-/

set_option maxRecDepth 1000000

namespace GJson

/-- A Go string / byte slice: the list of its byte values. -/
abbrev Str := List Nat

/-- Byte at index `i`, `0` past the end.  Every use in the embedding is
guarded by the same `i < len` test the Go loop makes. -/
def byteAt (s : Str) (i : Nat) : Nat := s.getD i 0

/-- The Go slice `s[a:b]`. -/
def slice (s : Str) (a b : Nat) : Str := (s.take b).drop a

/-- The Go slice `s[a:]`. -/
def sliceFrom (s : Str) (a : Nat) : Str := s.drop a

/-- ASCII bytes of a Lean string literal (all inputs used are ASCII). -/
def bytes (s : String) : Str := s.data.map Char.toNat

/-- The result types of gjson (`Type` in the source). -/
inductive RType where
  | null | bfalse | number | string | btrue | json
deriving DecidableEq, Repr

/-- gjson's `Result`, minus the pointer-derived `Index` field (see the
module comment). -/
structure ResultT where
  type : RType := RType.null
  raw : Str := []
  str : Str := []
  num : ℚ := 0
deriving DecidableEq, Repr

/-- Result.Exists from the source: `t.Type != Null || len(t.Raw) != 0`. -/
def ResultT.existsRes (t : ResultT) : Bool :=
  t.type ≠ RType.null ∨ t.raw ≠ []

/-- Number of consecutive backslash bytes at positions `j, j-1, ...`,
stopping at `lo` exclusive: the source's trailing-backslash count
`for j := i - 2; j > lo; j--`. -/
def nslashAbove (json : Str) (lo : Nat) : Nat → Nat
  | 0 => 0
  | j + 1 =>
    if j + 1 ≤ lo then 0
    else if byteAt json (j + 1) = 92 then nslashAbove json lo j + 1
    else 0

/-- The in-string scan shared by the source's string readers: from `i`,
find the next quote that is not escaped (an even number of backslashes
before a quote means the quote terminates).  Returns the index of the
closing quote, or `json.length` when the string is unterminated.  `lo` is
the lower bound of the backslash-count loop (`0` in `parseString`,
`tostr` and the key scanner; the string start in the squash loops). -/
def escScanF (json : Str) (lo : Nat) : Nat → Nat → Nat
  | 0, i => i
  | fuel + 1, i =>
    if i < json.length then
      let c := byteAt json i
      if c > 92 then escScanF json lo fuel (i + 1)
      else if c = 34 then
        if byteAt json (i - 1) = 92 ∧ nslashAbove json lo (i - 2) % 2 = 0
          then escScanF json lo fuel (i + 1)
        else i
      else escScanF json lo fuel (i + 1)
    else i

/-- The in-string scan with its fuel supplied. -/
def escScan (json : Str) (lo : Nat) (i : Nat) : Nat :=
  escScanF json lo (json.length + 1) i

/-- Loop of `parseString` (gjson.go:615): scan from `i` for the closing
quote; returns `(end, vesc, ok)` where `end` is one past the closing
quote on success. -/
def psLoopF (json : Str) : Nat → Nat → Nat × Bool × Bool
  | 0, i => (i, false, false)
  | fuel + 1, i =>
    if i < json.length then
      let c := byteAt json i
      if c > 92 then psLoopF json fuel (i + 1)
      else if c = 34 then (i + 1, false, true)
      else if c = 92 then
        let e := escScan json 0 (i + 1)
        if e < json.length then (e + 1, true, true) else (e, false, false)
      else psLoopF json fuel (i + 1)
    else (i, false, false)

/-- The scan of `parseString` with its fuel supplied. -/
def psLoop (json : Str) (i : Nat) : Nat × Bool × Bool :=
  psLoopF json (json.length + 1) i

/-- gjson.go `parseString(json, i)`: `i` points one past the opening
quote; returns `(i', raw-with-quotes, vesc, ok)`. -/
def parseString (json : Str) (i : Nat) : Nat × Str × Bool × Bool :=
  match psLoop json i with
  | (e, vesc, true) => (e, slice json (i - 1) e, vesc, true)
  | (e, _, false) => (e, sliceFrom json (i - 1), false, false)

/-- Loop of `parseNumber` (gjson.go:653): stop at whitespace, comma or a
closing bracket. -/
def pnLoopF (json : Str) : Nat → Nat → Nat
  | 0, i => i
  | fuel + 1, i =>
    if i < json.length then
      let c := byteAt json i
      if c ≤ 32 ∨ c = 44 ∨ c = 93 ∨ c = 125 then i
      else pnLoopF json fuel (i + 1)
    else i

/-- The scan of `parseNumber` with its fuel supplied. -/
def pnLoop (json : Str) (i : Nat) : Nat := pnLoopF json (json.length + 1) i

/-- gjson.go `parseNumber(json, i)`. -/
def parseNumber (json : Str) (i : Nat) : Nat × Str :=
  let e := pnLoop json (i + 1)
  (e, slice json i e)

/-- Loop of `parseLiteral` (gjson.go:664): stop at the first byte outside
`a`..`z`. -/
def plLoopF (json : Str) : Nat → Nat → Nat
  | 0, i => i
  | fuel + 1, i =>
    if i < json.length then
      let c := byteAt json i
      if c < 97 ∨ c > 122 then i else plLoopF json fuel (i + 1)
    else i

/-- The scan of `parseLiteral` with its fuel supplied. -/
def plLoop (json : Str) (i : Nat) : Nat := plLoopF json (json.length + 1) i

/-- gjson.go `parseLiteral(json, i)`. -/
def parseLiteral (json : Str) (i : Nat) : Nat × Str :=
  let e := plLoop json (i + 1)
  (e, slice json i e)

/-- The loop shared verbatim by `squash` (gjson.go:436) and `parseSquash`
(gjson.go:865): skip a balanced object/array, tracking `depth`, with the
in-string scan bounded at the string's start.  Returns the index of the
bracket closing depth 1, or `none` when the input ends first. -/
def squashLoopF (json : Str) : Nat → Nat → Nat → Option Nat
  | 0, _, _ => none
  | fuel + 1, i, depth =>
    if i < json.length then
      let c := byteAt json i
      if 34 ≤ c ∧ c ≤ 125 then
        if c = 34 then
          squashLoopF json fuel (max (i + 1) (escScan json i (i + 1) + 1))
            depth
        else if c = 123 ∨ c = 91 then
          squashLoopF json fuel (i + 1) (depth + 1)
        else if c = 125 ∨ c = 93 then
          if depth = 1 then some i
          else squashLoopF json fuel (i + 1) (depth - 1)
        else squashLoopF json fuel (i + 1) depth
      else squashLoopF json fuel (i + 1) depth
    else none

/-- The squash loop with its fuel supplied. -/
def squashLoop (json : Str) (i : Nat) (depth : Nat) : Option Nat :=
  squashLoopF json (json.length + 1) i depth

/-- gjson.go `parseSquash(json, i)`: `i` is at the opening bracket. -/
def parseSquash (json : Str) (i : Nat) : Nat × Str :=
  match squashLoop json (i + 1) 1 with
  | some e => (e + 1, slice json i (e + 1))
  | none => (json.length, sliceFrom json i)

/-- gjson.go `squash(json)`: the same loop on a suffix whose first byte
is the opening bracket. -/
def squash (json : Str) : Str :=
  match squashLoop json 1 1 with
  | some e => json.take (e + 1)
  | none => json

/-- Loop of `tonum` (gjson.go:481). -/
def tonumLoopF (json : Str) : Nat → Nat → Nat
  | 0, i => i
  | fuel + 1, i =>
    if i < json.length then
      let c := byteAt json i
      if c ≤ 45 then
        if c ≤ 32 ∨ c = 44 then i else tonumLoopF json fuel (i + 1)
      else if c < 93 then tonumLoopF json fuel (i + 1)
      else if c = 101 ∨ c = 69 then tonumLoopF json fuel (i + 1)
      else i
    else i

/-- The scan of `tonum` with its fuel supplied. -/
def tonumLoop (json : Str) (i : Nat) : Nat :=
  tonumLoopF json (json.length + 1) i

/-- Loop of `tolit` (gjson.go:512): note the source stops at a byte that
is `<= 'a'` or `>= 'z'`, so a literal containing `a` or `z` is cut
short (`false` scans as `f`). -/
def tolitLoopF (json : Str) : Nat → Nat → Nat
  | 0, i => i
  | fuel + 1, i =>
    if i < json.length then
      let c := byteAt json i
      if c ≤ 97 ∨ c ≥ 122 then i else tolitLoopF json fuel (i + 1)
    else i

/-- The scan of `tolit` with its fuel supplied. -/
def tolitLoop (json : Str) (i : Nat) : Nat :=
  tolitLoopF json (json.length + 1) i

/-- gjson.go `tolit(json)`: raw span of a bare literal at the head of the
suffix `json`. -/
def tolit (json : Str) : Str := json.take (tolitLoop json 1)

/-- Decimal digit value of a byte, if it is one. -/
def digitVal (c : Nat) : Option Nat :=
  if 48 ≤ c ∧ c ≤ 57 then some (c - 48) else none

/-- Split the longest digit prefix off a byte list. -/
def takeDigits : Str → List Nat × Str
  | [] => ([], [])
  | c :: rest =>
    match digitVal c with
    | some d =>
      let (ds, r) := takeDigits rest
      (d :: ds, r)
    | none => ([], c :: rest)

/-- Value of a big-endian digit list. -/
def digitsVal (ds : List Nat) : Nat := ds.foldl (fun a d => a * 10 + d) 0

/-- Modelled from the spec: `strconv.ParseFloat(s, 64)` with the error
discarded, as every caller in the source does (`num, _ = ParseFloat`).
The binary64 result is modelled as the exact decimal rational; each
theorem that inspects a `num` does so at integer values below 2^53,
where binary64 is exact and the model agrees with the Go library.
Non-decimal spellings accepted by Go (`Inf`, `NaN`, hex floats) are not
modelled and parse to 0; no theorem is stated at them.  A malformed
string parses to 0, matching the discarded-error convention. -/
def parseFloatQ (s : Str) : ℚ :=
  let (sgn, s1) :=
    match s with
    | 45 :: r => ((-1 : ℚ), r)
    | 43 :: r => ((1 : ℚ), r)
    | r => ((1 : ℚ), r)
  let (ip, s2) := takeDigits s1
  let (fp, s3) :=
    match s2 with
    | 46 :: r => takeDigits r
    | r => ([], r)
  if ip.length + fp.length = 0 then 0
  else
    let mant : ℚ := (digitsVal (ip ++ fp) : ℚ)
    let fr := fp.length
    match s3 with
    | [] =>
      sgn * mant / ((10 : ℚ) ^ fr)
    | e :: r =>
      if e = 101 ∨ e = 69 then
        let (esgn, r1) :=
          match r with
          | 45 :: r' => (true, r')
          | 43 :: r' => (false, r')
          | r' => (false, r')
        let (eds, r2) := takeDigits r1
        if eds.length = 0 ∨ r2 ≠ [] then 0
        else
          let ex := digitsVal eds
          if esgn then sgn * mant / ((10 : ℚ) ^ (fr + ex))
          else sgn * mant * ((10 : ℚ) ^ ex) / ((10 : ℚ) ^ fr)
      else 0

/-- gjson.go `tonum(json)`: raw span and parsed number at the head of the
suffix `json`. -/
def tonum (json : Str) : Str × ℚ :=
  let raw := json.take (tonumLoop json 1)
  (raw, parseFloatQ raw)

/-- gjson.go `runeit(json)`: hex value of the four bytes after a `\u`
escape (`strconv.ParseUint(json[:4], 16, 64)` with the error giving 0). -/
def runeit (json : Str) : Nat :=
  let hv : Nat → Option Nat := fun c =>
    if 48 ≤ c ∧ c ≤ 57 then some (c - 48)
    else if 97 ≤ c ∧ c ≤ 102 then some (c - 87)
    else if 65 ≤ c ∧ c ≤ 70 then some (c - 55)
    else none
  match hv (byteAt json 0), hv (byteAt json 1), hv (byteAt json 2),
      hv (byteAt json 3) with
  | some a, some b, some c, some d => ((a * 16 + b) * 16 + c) * 16 + d
  | _, _, _, _ => 0

/-- Modelled from the spec: `utf16.IsSurrogate` of the Go standard
library (not under src/). -/
def isSurrogate (r : Nat) : Bool := 55296 ≤ r ∧ r < 57344

/-- Modelled from the spec: `utf16.DecodeRune` of the Go standard
library; the replacement character for an invalid pair. -/
def utf16DecodeRune (r1 r2 : Nat) : Nat :=
  if 55296 ≤ r1 ∧ r1 < 56320 ∧ 56320 ≤ r2 ∧ r2 < 57344 then
    65536 + (r1 - 55296) * 1024 + (r2 - 56320)
  else 65533

/-- Modelled from the spec: `utf8.EncodeRune` of the Go standard library;
surrogate halves and out-of-range runes encode the replacement
character. -/
def utf8Encode (r : Nat) : List Nat :=
  let r := if (55296 ≤ r ∧ r < 57344) ∨ r > 1114111 then 65533 else r
  if r < 128 then [r]
  else if r < 2048 then [192 + r / 64, 128 + r % 64]
  else if r < 65536 then [224 + r / 4096, 128 + r / 64 % 64, 128 + r % 64]
  else [240 + r / 262144, 128 + r / 4096 % 64, 128 + r / 64 % 64,
    128 + r % 64]

/-- Loop of `unescape` (gjson.go:1420), accumulating the decoded bytes. -/
def unescapeLoopF (json : Str) : Nat → Nat → Str → Str
  | 0, _, acc => acc
  | fuel + 1, i, acc =>
    if i < json.length then
    let c := byteAt json i
    if c < 32 then acc
    else if c = 92 then
      if i + 1 < json.length then
        let e := byteAt json (i + 1)
        if e = 92 then unescapeLoopF json fuel (i + 2) (acc ++ [92])
        else if e = 47 then unescapeLoopF json fuel (i + 2) (acc ++ [47])
        else if e = 98 then unescapeLoopF json fuel (i + 2) (acc ++ [8])
        else if e = 102 then unescapeLoopF json fuel (i + 2) (acc ++ [12])
        else if e = 110 then unescapeLoopF json fuel (i + 2) (acc ++ [10])
        else if e = 114 then unescapeLoopF json fuel (i + 2) (acc ++ [13])
        else if e = 116 then unescapeLoopF json fuel (i + 2) (acc ++ [9])
        else if e = 34 then unescapeLoopF json fuel (i + 2) (acc ++ [34])
        else if e = 117 then
          if i + 1 + 5 > json.length then acc
          else
            let r := runeit (sliceFrom json (i + 2))
            let j := i + 6
            if isSurrogate r then
              if json.length - j ≥ 6 ∧ byteAt json j = 92 ∧
                  byteAt json (j + 1) = 117 then
                let r2 := utf16DecodeRune r (runeit (sliceFrom json (j + 2)))
                unescapeLoopF json fuel (j + 6) (acc ++ utf8Encode r2)
              else unescapeLoopF json fuel j (acc ++ utf8Encode r)
            else unescapeLoopF json fuel j (acc ++ utf8Encode r)
        else acc
      else acc
    else unescapeLoopF json fuel (i + 1) (acc ++ [c])
  else acc

/-- gjson.go `unescape(json)`. -/
def unescape (json : Str) : Str :=
  unescapeLoopF json (json.length + 1) 0 []

/-- gjson.go `tostr(json)`: raw span (with quotes) and decoded payload of
the string at the head of the suffix `json`. -/
def tostrLoopF (json : Str) : Nat → Nat → Str × Str
  | 0, _ => (json, json.drop 1)
  | fuel + 1, i =>
    if i < json.length then
      let c := byteAt json i
      if c > 92 then tostrLoopF json fuel (i + 1)
      else if c = 34 then (json.take (i + 1), slice json 1 i)
      else if c = 92 then
        let e := escScan json 0 (i + 1)
        let ret := if e + 1 < json.length then json.take (e + 1)
          else json.take e
        (ret, unescape (slice json 1 e))
      else tostrLoopF json fuel (i + 1)
    else (json, json.drop 1)

/-- gjson.go `tostr(json)`. -/
def tostr (json : Str) : Str × Str :=
  tostrLoopF json (json.length + 1) 1

/-- gjson.go `parseUint(s)`: all-digit parse on a wrapping `uint64`. -/
def parseUintGo (s : Str) : Option Nat :=
  if s = [] then none else parseUintAux s 0
where
  parseUintAux : Str → Nat → Option Nat
    | [], n => some n
    | c :: cs, n =>
      if 48 ≤ c ∧ c ≤ 57 then
        parseUintAux cs ((n * 10 + (c - 48)) % 2 ^ 64)
      else none

/-- Two's-complement wrap of an integer into the `int64` range. -/
def w64 (z : ℤ) : ℤ := (z + 2 ^ 63) % 2 ^ 64 - 2 ^ 63

/-- gjson.go `parseInt(s)`: optional sign then all digits, accumulated on
a wrapping `int64`; the final negation also wraps. -/
def parseIntGo (s : Str) : Option ℤ :=
  let (sign, s1) :=
    match s with
    | 45 :: r => (true, r)
    | r => (false, r)
  if s1 = [] then none
  else
    match parseIntAux s1 0 with
    | none => none
    | some n => if sign then some (w64 (n * -1)) else some n
where
  parseIntAux : Str → ℤ → Option ℤ
    | [], n => some n
    | c :: cs, n =>
      if 48 ≤ c ∧ c ≤ 57 then
        parseIntAux cs (w64 (n * 10 + (c - 48 : Nat)))
      else none

/-- Truncation toward zero of a rational, the behaviour of Go's
float-to-integer conversion for in-range values. -/
def ratTrunc (q : ℚ) : ℤ := q.num / (q.den : ℤ)

/-- gjson.go `floatToInt(f)` with its `minInt53`/`maxInt53` guards. -/
def floatToInt (q : ℚ) : ℤ × Bool :=
  let n := w64 (ratTrunc q)
  if (n : ℚ) = q ∧ -2251799813685248 ≤ n ∧ n ≤ 2251799813685247 then
    (n, true)
  else (0, false)

/-- gjson.go `floatToUint(f)` with its `minUint53`/`maxUint53` guards. -/
def floatToUint (q : ℚ) : Nat × Bool :=
  let n := ((ratTrunc q).emod (2 ^ 64)).toNat
  if (n : ℚ) = q ∧ n ≤ 4503599627370495 then (n, true) else (0, false)

/-- gjson.go `Result.Int()`. -/
def ResultT.toInt (t : ResultT) : ℤ :=
  match t.type with
  | RType.btrue => 1
  | RType.string => (parseIntGo t.str).getD 0
  | RType.number =>
    match floatToInt t.num with
    | (n, true) => n
    | (_, false) =>
      match parseIntGo t.raw with
      | some n => n
      | none => ratTrunc t.num
  | _ => 0

/-- gjson.go `Result.Uint()`. -/
def ResultT.toUint (t : ResultT) : Nat :=
  match t.type with
  | RType.btrue => 1
  | RType.string => (parseUintGo t.str).getD 0
  | RType.number =>
    match floatToUint t.num with
    | (n, true) => n
    | (_, false) =>
      match parseUintGo t.raw with
      | some n => n
      | none => ((ratTrunc t.num).emod (2 ^ 64)).toNat
  | _ => 0

/-- Modelled from the spec: the glob matcher of github.com/tidwall/match
(not under src/): `*` matches zero or more bytes, `?` exactly one,
everything else itself, case-sensitively.  Argument order follows
`match.Match(value, pattern)`. -/
def globMatch : Str → Str → Bool
  | s, [] => s.isEmpty
  | s, 42 :: pt =>
    globMatch s pt ||
      (match s with
        | [] => false
        | _ :: st => globMatch st (42 :: pt))
  | [], _ :: _ => false
  | c :: st, pc :: pt =>
    if pc = 63 then globMatch st pt else pc = c && globMatch st pt
termination_by s p => (s.length, p.length)

/-- gjson.go `objectPathResult`. -/
structure ObjectPathResult where
  part : Str := []
  path : Str := []
  wild : Bool := false
  more : Bool := false
deriving DecidableEq, Repr

/-- Escape-mode loop of `parseObjectPath` (gjson.go:830): strips the
escape characters while accumulating the part. -/
def popEscF (path : Str) : Nat → Nat → Str → Bool → ObjectPathResult
  | 0, _, epart, wild => { part := epart, wild := wild }
  | fuel + 1, i, epart, wild =>
    if i < path.length then
      let c := byteAt path i
      if c = 92 then
        if i + 1 < path.length then
          popEscF path fuel (i + 2) (epart ++ [byteAt path (i + 1)]) wild
        else popEscF path fuel (i + 2) epart wild
      else if c = 46 then
        { part := epart
          path := path.drop (i + 1)
          wild := wild
          more := true }
      else if c = 42 ∨ c = 63 then
        popEscF path fuel (i + 1) (epart ++ [c]) true
      else popEscF path fuel (i + 1) (epart ++ [c]) wild
    else { part := epart, wild := wild }

/-- The escape-mode loop with its fuel supplied. -/
def popEsc (path : Str) (i : Nat) (epart : Str) (wild : Bool) :
    ObjectPathResult :=
  popEscF path (path.length + 1) i epart wild

/-- Main loop of `parseObjectPath` (gjson.go:818). -/
def popLoopF (path : Str) : Nat → Nat → Bool → ObjectPathResult
  | 0, _, wild => { part := path, wild := wild }
  | fuel + 1, i, wild =>
    if i < path.length then
      let c := byteAt path i
      if c = 46 then
        { part := path.take i
          path := path.drop (i + 1)
          wild := wild
          more := true }
      else if c = 42 ∨ c = 63 then popLoopF path fuel (i + 1) true
      else if c = 92 then
        if i + 1 < path.length then
          popEsc path (i + 2) (path.take i ++ [byteAt path (i + 1)]) wild
        else { part := path.take i, wild := wild }
      else popLoopF path fuel (i + 1) wild
    else { part := path, wild := wild }

/-- The main loop of `parseObjectPath` with its fuel supplied. -/
def popLoop (path : Str) (i : Nat) (wild : Bool) : ObjectPathResult :=
  popLoopF path (path.length + 1) i wild

/-- gjson.go `parseObjectPath(path)`. -/
def parseObjectPath (path : Str) : ObjectPathResult := popLoop path 0 false

/-- The query fields of gjson.go `arrayPathResult`. -/
structure QueryPart where
  qon : Bool := false
  path : Str := []
  op : Str := []
  value : Str := []
  all : Bool := false
deriving DecidableEq, Repr

/-- gjson.go `arrayPathResult`. -/
structure ArrayPathResult where
  part : Str := []
  path : Str := []
  more : Bool := false
  alogok : Bool := false
  arrch : Bool := false
  alogkey : Str := []
  query : QueryPart := {}
deriving DecidableEq, Repr

/-- Whitespace-skip loop used inside the query parser of
`parseArrayPath`. -/
def papWsF (path : Str) : Nat → Nat → Nat
  | 0, i => i
  | fuel + 1, i =>
    if i < path.length then
      if byteAt path i > 32 then i else papWsF path fuel (i + 1)
    else i

/-- The whitespace skip with its fuel supplied. -/
def papWs (path : Str) (i : Nat) : Nat := papWsF path (path.length + 1) i

/-- Scan of the query's sub-path: stop at whitespace or an operator or
closing-bracket byte. -/
def papQpathF (path : Str) : Nat → Nat → Nat
  | 0, i => i
  | fuel + 1, i =>
    if i < path.length then
      let c := byteAt path i
      if c ≤ 32 ∨ c = 33 ∨ c = 61 ∨ c = 60 ∨ c = 62 ∨ c = 37 ∨ c = 93
        then i
      else papQpathF path fuel (i + 1)
    else i

/-- The query sub-path scan with its fuel supplied. -/
def papQpath (path : Str) (i : Nat) : Nat :=
  papQpathF path (path.length + 1) i

/-- Scan of the query's literal value (gjson.go:760): quoted strings are
skipped with the escape-aware scan; stops at the closing `]`, reporting
whether a `#` follows it.  Returns `(i, all)`. -/
def papValueF (path : Str) : Nat → Nat → Nat × Bool
  | 0, i => (i, false)
  | fuel + 1, i =>
    if i < path.length then
      let c := byteAt path i
      if c = 34 then
        papValueF path fuel (max (i + 1) (escScan path i (i + 1) + 1))
      else if c = 93 then
        (i, decide (i + 1 < path.length ∧ byteAt path (i + 1) = 35))
      else papValueF path fuel (i + 1)
    else (i, false)

/-- The query value scan with its fuel supplied. -/
def papValue (path : Str) (i : Nat) : Nat × Bool :=
  papValueF path (path.length + 1) i

/-- Trim trailing whitespace bytes. -/
def trimRightWs (v : Str) : Str :=
  (v.reverse.dropWhile (fun c => c ≤ 32)).reverse

/-- The bracket-query parser inside `parseArrayPath` (gjson.go:707),
entered at `#[`; returns the resting index (at the closing `]`, or the
path's end) together with the parsed query.  This version of the source
recognises only the `#[` form, not `#(`. -/
def papQuery (path : Str) : Nat × QueryPart :=
  let i := papWs path 2
  let s := i
  let i := papQpath path i
  let qpath := slice path s i
  let i := papWs path i
  if _h : i < path.length then
    let c := byteAt path i
    let (s2, i2) :=
      if c = 33 then
        if i < path.length - 1 ∧ byteAt path (i + 1) = 61 then (i, i + 1)
        else (i, i)
      else if c = 60 ∨ c = 62 then
        if i < path.length - 1 ∧ byteAt path (i + 1) = 61 then (i, i + 1)
        else (i, i)
      else if c = 61 then
        if i < path.length - 1 ∧ byteAt path (i + 1) = 61 then
          (i + 1, i + 1)
        else (i, i)
      else (i, i)
    let op := slice path s2 (i2 + 1)
    let i3 := papWs path (i2 + 1)
    let (i4, all) := papValue path i3
    let i5 := min i4 path.length
    let v := trimRightWs (slice path i3 i5)
    (i5, { qon := true, path := qpath, op := op, value := v, all := all })
  else (i, { qon := true, path := qpath })

/-- Main loop of `parseArrayPath` (gjson.go:691), threading the
accumulated result. -/
def papLoopF (path : Str) : Nat → Nat → ArrayPathResult →
    ArrayPathResult
  | 0, _, r => { r with part := path, path := [] }
  | fuel + 1, i, r =>
    if i < path.length then
      let c := byteAt path i
      if c = 46 then
        { r with
          part := path.take i
          path := path.drop (i + 1)
          more := true }
      else if c = 35 then
        let r := { r with arrch := true }
        if i = 0 ∧ 1 < path.length then
          if byteAt path 1 = 46 then
            papLoopF path fuel (i + 1)
              { r with
                alogok := true
                alogkey := path.drop 2
                path := path.take 1 }
          else if byteAt path 1 = 91 then
            let (i2, q) := papQuery path
            papLoopF path fuel (max (i + 1) (i2 + 1)) { r with query := q }
          else papLoopF path fuel (i + 1) r
        else papLoopF path fuel (i + 1) r
      else papLoopF path fuel (i + 1) r
    else { r with part := path, path := [] }

/-- The main loop of `parseArrayPath` with its fuel supplied. -/
def papLoop (path : Str) (i : Nat) (r : ArrayPathResult) :
    ArrayPathResult :=
  papLoopF path (path.length + 1) i r

/-- gjson.go `parseArrayPath(path)`. -/
def parseArrayPath (path : Str) : ArrayPathResult := papLoop path 0 {}

/-- Go byte-string `<`: lexicographic order on byte values. -/
def strLt : Str → Str → Bool
  | _, [] => false
  | [], _ :: _ => true
  | a :: as', b :: bs =>
    if a < b then true else if b < a then false else strLt as' bs

/-- gjson.go `queryMatches(rp, value)`.  Note the `Number` case of
`"!="` in the source returns `value.Num == rpvn` (gjson.go:1089), the
same test as `"="`; the embedding reproduces it as written. -/
def queryMatches (rp : ArrayPathResult) (value : ResultT) : Bool :=
  let rpv0 := rp.query.value
  let rpv :=
    if rpv0.length > 2 ∧ byteAt rpv0 0 = 34 ∧
        byteAt rpv0 (rpv0.length - 1) = 34 then
      slice rpv0 1 (rpv0.length - 1)
    else rpv0
  match value.type with
  | RType.string =>
    if rp.query.op = [61] then value.str = rpv
    else if rp.query.op = [33, 61] then value.str ≠ rpv
    else if rp.query.op = [60] then strLt value.str rpv
    else if rp.query.op = [60, 61] then !strLt rpv value.str
    else if rp.query.op = [62] then strLt rpv value.str
    else if rp.query.op = [62, 61] then !strLt value.str rpv
    else if rp.query.op = [37] then globMatch value.str rpv
    else false
  | RType.number =>
    let rpvn := parseFloatQ rpv
    if rp.query.op = [61] then value.num = rpvn
    else if rp.query.op = [33, 61] then value.num = rpvn
    else if rp.query.op = [60] then value.num < rpvn
    else if rp.query.op = [60, 61] then value.num ≤ rpvn
    else if rp.query.op = [62] then value.num > rpvn
    else if rp.query.op = [62, 61] then value.num ≥ rpvn
    else false
  | RType.btrue =>
    if rp.query.op = [61] then rpv = bytes "true"
    else if rp.query.op = [33, 61] then rpv ≠ bytes "true"
    else if rp.query.op = [62] then rpv = bytes "false"
    else if rp.query.op = [62, 61] then true
    else false
  | RType.bfalse =>
    if rp.query.op = [61] then rpv = bytes "false"
    else if rp.query.op = [33, 61] then rpv ≠ bytes "false"
    else if rp.query.op = [60] then rpv = bytes "true"
    else if rp.query.op = [60, 61] then true
    else false
  | _ => false


/-- Scan of `Get` (gjson.go:1341) for the first `{` or `[`; `true` means
an object was found. -/
def getStartF (json : Str) : Nat → Nat → Option (Nat × Bool)
  | 0, _ => none
  | fuel + 1, i =>
    if i < json.length then
      if byteAt json i = 123 then some (i, true)
      else if byteAt json i = 91 then some (i, false)
      else getStartF json fuel (i + 1)
    else none

/-- The opening scan of `Get` with its fuel supplied. -/
def getStart (json : Str) (i : Nat) : Option (Nat × Bool) :=
  getStartF json (json.length + 1) i

/-- Outcome of the key-seeking loop at the head of `parseObject`
(gjson.go:918). -/
inductive KScan where
  | quote (q : Nat)
  | close (q : Nat)
  | eof

/-- Key-seeking loop of `parseObject`: find the next `"` or `}`. -/
def kscanF (json : Str) : Nat → Nat → KScan
  | 0, _ => KScan.eof
  | fuel + 1, i =>
    if i < json.length then
      if byteAt json i = 34 then KScan.quote i
      else if byteAt json i = 125 then KScan.close i
      else kscanF json fuel (i + 1)
    else KScan.eof

/-- The key-seeking loop with its fuel supplied. -/
def kscan (json : Str) (i : Nat) : KScan := kscanF json (json.length + 1) i

/-- The inline key reader of `parseObject` (`parse_key_string`,
gjson.go:920): `s` is one past the opening quote; returns
`(i, key-without-quotes, kesc, ok)`. -/
def pksLoopF (json : Str) (s : Nat) : Nat → Nat → Nat × Str × Bool × Bool
  | 0, i => (i, sliceFrom json s, false, false)
  | fuel + 1, i =>
    if i < json.length then
      let c := byteAt json i
      if c > 92 then pksLoopF json s fuel (i + 1)
      else if c = 34 then (i + 1, slice json s i, false, true)
      else if c = 92 then
        let e := escScan json 0 (i + 1)
        if e < json.length then (e + 1, slice json s e, true, true)
        else (e, sliceFrom json s, false, false)
      else pksLoopF json s fuel (i + 1)
    else (i, sliceFrom json s, false, false)

/-- The key reader with its fuel supplied. -/
def pksLoop (json : Str) (s i : Nat) : Nat × Str × Bool × Bool :=
  pksLoopF json s (json.length + 1) i

/-- Signal of the value loop of `parseArray`: `ret` is a `return` from
the function, `cont` resumes the outer element loop with the threaded
`multires` and `val` locals. -/
inductive PAStep where
  | ret (ok : Bool)
  | cont (multires val : Str)

/-- Signal of the value loop of `parseObject`. -/
inductive POStep where
  | ret (ok : Bool)
  | cont

/-- The evaluator threads the two mutable fields of the source's
`parseContext` (`value` and `calcd`) explicitly; `json` never changes
inside one evaluation, so it is a fixed parameter of every loop.  The
string-value update in `parseObject`/`parseArray`. -/
def setStrVal (v : ResultT) (val : Str) (vesc : Bool) : ResultT :=
  let sv := if vesc then unescape (slice val 1 (val.length - 1))
    else slice val 1 (val.length - 1)
  { v with str := sv
           raw := val
           type := RType.string }

mutual

/-- The builder of the `#.path` collection (`]` case of `parseArray`,
gjson.go:1261): for each recorded element start, evaluate `alogkey`
against the suffix and append existing results. -/
def alogLoop : Nat → Str → Str → List Nat → Str → Nat → Str
  | 0, _, _, _, acc, _ => acc
  | fuel + 1, json, alogkey, alog, acc, k =>
    match alog with
    | [] => acc
    | j :: rest =>
      let res := getF fuel (sliceFrom json j) alogkey
      if res.existsRes then
        alogLoop fuel json alogkey rest
          ((if k > 0 then acc ++ [44] else acc) ++ res.raw) (k + 1)
      else alogLoop fuel json alogkey rest acc k
termination_by structural fuel => fuel

/-- gjson.go `parseObject(c, i, path)` with an explicit fuel for the
nesting of the mutual recursion (the Go recursion is bounded by the
nesting of the document and the path; `GetE` supplies more than enough
fuel).  Returns the threaded `(value, calcd)` with the resting index and
the hit flag. -/
def parseObjectF : Nat → Str → ResultT → Bool → Nat → Str →
    ResultT × Bool × Nat × Bool
  | 0, _, v, calcd, i, _ => (v, calcd, i, false)
  | fuel + 1, json, v, calcd, i, path =>
    poLoop fuel json v calcd i (parseObjectPath path)
termination_by structural fuel => fuel

/-- Outer key loop of `parseObject`.  When the key-seeking loop runs off
the end of the buffer the source either returns at `if !ok` (on the
first iteration, `ok` still false) or falls through both loops (later
iterations, `ok` stale true, the value loop vacuous); both paths produce
`(len, false)` with `c.value` untouched, which is what the `eof` branch
returns. -/
def poLoop : Nat → Str → ResultT → Bool → Nat → ObjectPathResult →
    ResultT × Bool × Nat × Bool
  | 0, _, v, calcd, i, _ => (v, calcd, i, false)
  | fuel + 1, json, v, calcd, i, rp =>
    if i < json.length then
    match kscan json i with
    | KScan.close q => (v, calcd, q + 1, false)
    | KScan.eof => (v, calcd, json.length, false)
    | KScan.quote q =>
      let (i1, key, kesc, ok) := pksLoop json (q + 1) (q + 1)
      if !ok then (v, calcd, i1, false)
      else
        let keyv := if kesc then unescape key else key
        let pmatch :=
          if rp.wild then globMatch keyv rp.part
          else decide (rp.part = keyv)
        let hit := pmatch && !rp.more
        match poValLoop fuel json v calcd (max (i + 1) i1) rp pmatch hit
          with
        | (v', calcd', i2, POStep.ret b) => (v', calcd', i2, b)
        | (v', calcd', i2, POStep.cont) =>
          poLoop fuel json v' calcd' (max (i + 1) i2) rp
    else (v, calcd, i, false)
termination_by structural fuel => fuel

/-- Value loop of `parseObject` (the `switch` at gjson.go:985). -/
def poValLoop : Nat → Str → ResultT → Bool → Nat → ObjectPathResult →
    Bool → Bool → ResultT × Bool × Nat × POStep
  | 0, _, v, calcd, i, _, _, _ => (v, calcd, i, POStep.ret false)
  | fuel + 1, json, v, calcd, i, rp, pmatch, hit =>
    if i < json.length then
    let ch := byteAt json i
    if ch = 34 then
      let (i1, val, vesc, ok) := parseString json (i + 1)
      if !ok then (v, calcd, i1, POStep.ret false)
      else if hit then (setStrVal v val vesc, calcd, i1, POStep.ret true)
      else (v, calcd, i1, POStep.cont)
    else if ch = 123 then
      if pmatch && !hit then
        let (v', calcd', i1, hit') :=
          parseObjectF fuel json v calcd (i + 1) rp.path
        if hit' then (v', calcd', i1, POStep.ret true)
        else (v', calcd', i1, POStep.cont)
      else
        let (i1, val) := parseSquash json i
        if hit then
          ({ v with raw := val, type := RType.json }, calcd, i1,
            POStep.ret true)
        else (v, calcd, i1, POStep.cont)
    else if ch = 91 then
      if pmatch && !hit then
        let (v', calcd', i1, hit') :=
          parseArrayF fuel json v calcd (i + 1) rp.path
        if hit' then (v', calcd', i1, POStep.ret true)
        else (v', calcd', i1, POStep.cont)
      else
        let (i1, val) := parseSquash json i
        if hit then
          ({ v with raw := val, type := RType.json }, calcd, i1,
            POStep.ret true)
        else (v, calcd, i1, POStep.cont)
    else if ch = 45 ∨ (48 ≤ ch ∧ ch ≤ 57) then
      let (i1, val) := parseNumber json i
      if hit then
        ({ v with raw := val, type := RType.number, num := parseFloatQ val },
          calcd, i1, POStep.ret true)
      else (v, calcd, i1, POStep.cont)
    else if ch = 116 ∨ ch = 102 ∨ ch = 110 then
      let (i1, val) := parseLiteral json i
      if hit then
        let ty := if ch = 116 then RType.btrue
          else if ch = 102 then RType.bfalse else v.type
        ({ v with raw := val, type := ty }, calcd, i1, POStep.ret true)
      else (v, calcd, i1, POStep.cont)
      else poValLoop fuel json v calcd (i + 1) rp pmatch hit
    else (v, calcd, i, POStep.cont)
termination_by structural fuel => fuel

/-- gjson.go `parseArray(c, i, path)`. -/
def parseArrayF : Nat → Str → ResultT → Bool → Nat → Str →
    ResultT × Bool × Nat × Bool
  | 0, _, v, calcd, i, _ => (v, calcd, i, false)
  | fuel + 1, json, v, calcd, i, path =>
    let rp := parseArrayPath path
    let partidx := if !rp.arrch then parseUintGo rp.part else none
    paLoop fuel json v calcd i rp partidx 0 [] [] []
termination_by structural fuel => fuel

/-- Outer element loop of `parseArray` (gjson.go:1140): `partidx = none`
models the source's `-1`. -/
def paLoop : Nat → Str → ResultT → Bool → Nat → ArrayPathResult →
    Option Nat → Nat → List Nat → Str → Str →
    ResultT × Bool × Nat × Bool
  | 0, _, v, calcd, i, _, _, _, _, _, _ => (v, calcd, i, false)
  | fuel + 1, json, v, calcd, i, rp, partidx, h, alog, multires, val =>
    if i < json.length then
    let pmatch := !rp.arrch && decide (partidx = some h)
    let hit := pmatch && !rp.more
    let h' := h + 1
    let alog' := if rp.alogok then alog ++ [i] else alog
    match paValLoop fuel json v calcd i rp h' alog' multires val pmatch
        hit with
    | (v', calcd', i2, PAStep.ret b) => (v', calcd', i2, b)
    | (v', calcd', i2, PAStep.cont m2 v2) =>
      paLoop fuel json v' calcd' (max (i + 1) i2) rp partidx h' alog' m2
        v2
    else (v, calcd, i, false)
termination_by structural fuel => fuel

/-- Value loop of `parseArray` (the `switch` at gjson.go:1150). -/
def paValLoop : Nat → Str → ResultT → Bool → Nat → ArrayPathResult →
    Nat → List Nat → Str → Str → Bool → Bool →
    ResultT × Bool × Nat × PAStep
  | 0, _, v, calcd, i, _, _, _, _, _, _, _ => (v, calcd, i, PAStep.ret false)
  | fuel + 1, json, v, calcd, i, rp, h, alog, multires, val, pmatch, hit =>
    if i < json.length then
    let ch := byteAt json i
    if ch = 34 then
      let (i1, sval, vesc, ok) := parseString json (i + 1)
      if !ok then (v, calcd, i1, PAStep.ret false)
      else if hit && !rp.alogok then
        (setStrVal v sval vesc, calcd, i1, PAStep.ret true)
      else (v, calcd, i1, PAStep.cont multires sval)
    else if ch = 123 then
      if pmatch && !hit then
        let (v', calcd', i1, hit') :=
          parseObjectF fuel json v calcd (i + 1) rp.path
        if hit' && !rp.alogok then (v', calcd', i1, PAStep.ret true)
        else (v', calcd', i1, PAStep.cont multires val)
      else
        let (i1, sval) := parseSquash json i
        if rp.query.qon then
          let res := getF fuel sval rp.query.path
          if queryMatches rp res then
            let res2 :=
              if rp.more then getF fuel sval rp.path
              else { type := RType.json, raw := sval : ResultT }
            if rp.query.all then
              let m2 := (if multires = [] then [91]
                else multires ++ [44]) ++ res2.raw
              (v, calcd, i1, PAStep.cont m2 sval)
            else (res2, calcd, i1, PAStep.ret true)
          else (v, calcd, i1, PAStep.cont multires sval)
        else if hit && !rp.alogok then
          ({ v with raw := sval, type := RType.json }, calcd, i1,
            PAStep.ret true)
        else (v, calcd, i1, PAStep.cont multires sval)
    else if ch = 91 then
      if pmatch && !hit then
        let (v', calcd', i1, hit') :=
          parseArrayF fuel json v calcd (i + 1) rp.path
        if hit' && !rp.alogok then (v', calcd', i1, PAStep.ret true)
        else (v', calcd', i1, PAStep.cont multires val)
      else
        let (i1, sval) := parseSquash json i
        if hit && !rp.alogok then
          ({ v with raw := sval, type := RType.json }, calcd, i1,
            PAStep.ret true)
        else (v, calcd, i1, PAStep.cont multires sval)
    else if ch = 45 ∨ (48 ≤ ch ∧ ch ≤ 57) then
      let (i1, sval) := parseNumber json i
      if hit && !rp.alogok then
        ({ v with raw := sval, type := RType.number, num := parseFloatQ sval },
          calcd, i1, PAStep.ret true)
      else (v, calcd, i1, PAStep.cont multires sval)
    else if ch = 116 ∨ ch = 102 ∨ ch = 110 then
      let (i1, sval) := parseLiteral json i
      if hit && !rp.alogok then
        let ty := if ch = 116 then RType.btrue
          else if ch = 102 then RType.bfalse else v.type
        ({ v with raw := sval, type := ty }, calcd, i1, PAStep.ret true)
      else (v, calcd, i1, PAStep.cont multires sval)
    else if ch = 93 then
      if rp.arrch && decide (rp.part = [35]) then
        if rp.alogok then
          let js := alogLoop fuel json rp.alogkey alog [91] 0
          ({ v with type := RType.json, raw := js ++ [93] }, calcd,
            i + 1, PAStep.ret true)
        else
          ({ v with raw := val, type := RType.number, num := ((h - 1 : Nat) : ℚ) },
            true, i + 1, PAStep.ret true)
      else
        let v' :=
          if multires ≠ [] ∧ ¬v.existsRes then
            ({ type := RType.json, raw := multires ++ [93] } : ResultT)
          else v
        (v', calcd, i + 1, PAStep.ret false)
      else paValLoop fuel json v calcd (i + 1) rp h alog multires val
        pmatch hit
    else (v, calcd, i, PAStep.cont multires val)
termination_by structural fuel => fuel

/-- gjson.go `Get(json, path)` minus the final pointer-derived `Index`
assignment (see the module comment). -/
def getF : Nat → Str → Str → ResultT
  | 0, _, _ => {}
  | fuel + 1, json, path =>
    match getStart json 0 with
    | some (idx, true) =>
      (parseObjectF fuel json {} false (idx + 1) path).1
    | some (idx, false) =>
      (parseArrayF fuel json {} false (idx + 1) path).1
    | none => {}
termination_by structural fuel => fuel

end

/-- `Get` with fuel that dominates the work of the evaluation: every
fuel-consuming call either advances the scan position inside one
evaluator level (at most `len + 2` steps per level) or descends a level
(each descent shortens the remaining path by a segment or moves to a
strict substring of the document, so there are fewer than
`(len + 2) * (plen + 2)` levels); the cube of `len + plen + 4` exceeds
the product comfortably. -/
def GetE (json path : Str) : ResultT :=
  getF ((json.length + path.length + 4) * (json.length + path.length + 4)
    * (json.length + path.length + 4)) json path

/-- gjson.go `parseAny(json, i, hit)` (gjson.go:1542).  Note that for a
`t`/`f`/`n` literal with `hit` false the source does not return: the
loop resumes one past the literal's end and keeps scanning for the next
token. -/
def parseAnyF (json : Str) : Nat → Nat → Bool → Nat × ResultT × Bool
  | 0, i, _ => (i, {}, false)
  | fuel + 1, i, hit =>
    if i < json.length then
    let c := byteAt json i
    if c = 123 ∨ c = 91 then
      let (i1, val) := parseSquash json i
      (i1, if hit then { type := RType.json, raw := val } else {}, true)
      else if c ≤ 32 then parseAnyF json fuel (i + 1) hit
      else if c = 34 then
      let (i1, val, vesc, ok) := parseString json (i + 1)
      if !ok then (i1, {}, false)
      else if hit then (i1, setStrVal {} val vesc, true)
      else (i1, {}, true)
    else if c = 45 ∨ (48 ≤ c ∧ c ≤ 57) then
      let (i1, val) := parseNumber json i
      (i1,
        if hit then
          { type := RType.number, raw := val, num := parseFloatQ val }
        else {}, true)
    else if c = 116 ∨ c = 102 ∨ c = 110 then
      let (i1, val) := parseLiteral json i
      if hit then
        let ty := if c = 116 then RType.btrue
          else if c = 102 then RType.bfalse else RType.null
        (i1, { type := ty, raw := val }, true)
      else parseAnyF json fuel (max (i + 1) (i1 + 1)) hit
      else parseAnyF json fuel (i + 1) hit
    else (i, {}, false)

/-- gjson.go `parseAny` with its fuel supplied. -/
def parseAny (json : Str) (i : Nat) (hit : Bool) : Nat × ResultT × Bool :=
  parseAnyF json (json.length + 1) i hit

/-- Loop of `areSimplePaths` (gjson.go:1620); `fi` is the start of the
current key segment (a digit is fine except at a segment start). -/
def simplePathLoopF (path : Str) : Nat → Nat → Nat → Bool
  | 0, _, _ => true
  | fuel + 1, i, fi =>
    if i < path.length then
      let c := byteAt path i
      if 97 ≤ c ∧ c ≤ 122 then simplePathLoopF path fuel (i + 1) fi
      else if c = 46 then simplePathLoopF path fuel (i + 1) (i + 1)
      else if 65 ≤ c ∧ c ≤ 90 then simplePathLoopF path fuel (i + 1) fi
      else if c = 95 ∨ c = 36 then simplePathLoopF path fuel (i + 1) fi
      else if i > fi ∧ 48 ≤ c ∧ c ≤ 57 then
        simplePathLoopF path fuel (i + 1) fi
      else false
    else true

/-- The per-path loop of `areSimplePaths` with its fuel supplied. -/
def simplePathLoop (path : Str) (i fi : Nat) : Bool :=
  simplePathLoopF path (path.length + 1) i fi

/-- gjson.go `areSimplePaths(paths)`. -/
def areSimplePaths (paths : List Str) : Bool :=
  paths.all (fun p => simplePathLoop p 0 0)

/-- The per-path state of `parseGetMany`: the `completed`, `matches` and
`results` arrays (`matches` is a Lean keyword, hence `masks`). -/
structure GMSt where
  completed : List Bool
  masks : List Nat
  results : List ResultT

/-- Outcome of comparing one key against one path in `parseGetMany`
(the spaghetti at gjson.go:1806): the `match_atend`, `match_not_atend`
and `nomatch` labels. -/
inductive MO where
  | atend
  | notAtEnd
  | nomatch

/-- The key-to-path comparison of `parseGetMany`.  The source's first
test is `len(paths[j])-kplen >= len(key)` on Go ints, i.e.
`kplen + len(key) <= len(paths[j])`. -/
def matchOutcome (p key : Str) (kplen : Nat) : MO :=
  if kplen + key.length ≤ p.length then
    if slice p kplen (kplen + key.length) = key then
      let i := kplen + key.length
      if i < p.length ∧ byteAt p i = 46 then MO.notAtEnd
      else if p.length ≤ key.length ∨ kplen ≠ 0 then
        if p.length ≠ i then MO.nomatch else MO.atend
      else MO.nomatch
    else MO.nomatch
  else MO.nomatch

/-- The loop over paths for one object key in `parseGetMany`
(gjson.go:1791).  `j` is the index of the first path in `rest`;
`parsed` is `some (valOrgIndex, valPathIndex)` once the value has been
parsed.  `Except` carries the early `return i, false` on a failed
`parseAny`.  Returns `(st, i, used, hasMatch, parsed)`. -/
def pgmPaths (json key : Str) (kplen level : Nat) (rest : List Str)
    (j : Nat) (st : GMSt) (i : Nat) (used : Nat) (hasMatch : Bool)
    (parsed : Option (Nat × Nat)) :
    Except Nat (GMSt × Nat × Nat × Bool × Option (Nat × Nat)) :=
  match rest with
  | [] => Except.ok (st, i, used, hasMatch, parsed)
  | p :: rest' =>
    if st.completed.getD j false then
      pgmPaths json key kplen level rest' (j + 1) st i (used + 1)
        hasMatch parsed
    else if level > 0 ∧ (st.masks.getD j 0 >>> (level - 1)) % 2 = 0 then
      pgmPaths json key kplen level rest' (j + 1) st i (used + 1)
        hasMatch parsed
    else
      match matchOutcome p key kplen with
      | MO.nomatch =>
        pgmPaths json key kplen level rest' (j + 1) st i used hasMatch
          parsed
      | MO.atend =>
        match parsed with
        | none =>
          let valOrg := i
          let (i1, res, ok) := parseAny json i true
          if !ok then Except.error i1
          else
            pgmPaths json key kplen level rest' (j + 1)
              { st with results := st.results.set j res
                        completed := st.completed.set j true }
              i1 (used + 1) hasMatch (some (valOrg, j))
        | some (valOrg, pj) =>
          pgmPaths json key kplen level rest' (j + 1)
            { st with results := st.results.set j (st.results.getD pj {})
                      completed := st.completed.set j true }
            i (used + 1) hasMatch (some (valOrg, pj))
      | MO.notAtEnd =>
        pgmPaths json key kplen level rest' (j + 1)
          { st with masks :=
              st.masks.set j (st.masks.getD j 0 ||| (1 <<< level)) }
          i (used + 1) true parsed

/-- Whitespace-and-colon skip before a matched value (gjson.go:1869). -/
def wsColonSkipF (json : Str) : Nat → Nat → Nat
  | 0, i => i
  | fuel + 1, i =>
    if i < json.length then
      if byteAt json i ≤ 32 ∨ byteAt json i = 58 then
        wsColonSkipF json fuel (i + 1)
      else i
    else i

/-- The whitespace-and-colon skip with its fuel supplied. -/
def wsColonSkip (json : Str) (i : Nat) : Nat :=
  wsColonSkipF json (json.length + 1) i

/-- Rewind scan for the already-parsed object value (gjson.go:1900). -/
def findBraceF (json : Str) : Nat → Nat → Nat
  | 0, i => i
  | fuel + 1, i =>
    if i < json.length then
      if byteAt json i = 123 then i else findBraceF json fuel (i + 1)
    else i

/-- The rewind scan with its fuel supplied. -/
def findBrace (json : Str) (i : Nat) : Nat :=
  findBraceF json (json.length + 1) i

/-- Whether a key contains a dot (such keys are skipped wholesale by
`parseGetMany`, gjson.go:1780). -/
def keyHasDot (key : Str) : Bool := key.any (fun c => c = 46)

mutual

/-- gjson.go `parseGetMany(json, i, level, kplen, paths, ...)`: the
shared single-scan of `GetMany`, with the mutated slices threaded as
`GMSt`.  The recursion-level ceiling `level > 62` is the source's guard
for the 64-bit `matches` masks. -/
def parseGetManyF (json : Str) : Nat → Nat → Nat → Nat → List Str →
    GMSt → GMSt × Nat × Bool
  | 0, i, _, _, _, st => (st, i, false)
  | fuel + 1, i, level, kplen, paths, st =>
    if level > 62 then (st, i, false)
    else pgmKeyLoop json fuel i level kplen paths st
termination_by structural fuel => fuel

/-- The `next_key` loop of `parseGetMany` (gjson.go:1761). -/
def pgmKeyLoop (json : Str) : Nat → Nat → Nat → Nat → List Str →
    GMSt → GMSt × Nat × Bool
  | 0, i, _, _, _, st => (st, i, false)
  | fuel + 1, i, level, kplen, paths, st =>
    if i < json.length then
      if byteAt json i = 34 then
        let (i1, val, vesc, ok) := parseString json (i + 1)
        if !ok then (st, i1, false)
        else
          let key := if vesc then unescape (slice val 1 (val.length - 1))
            else slice val 1 (val.length - 1)
          if keyHasDot key then
            match parseAny json i1 false with
            | (i2, _, true) => pgmKeyLoop json fuel (max (i + 1) (i2 + 1))
                level kplen paths st
            | (i2, _, false) => (st, i2, false)
          else
            match pgmPaths json key kplen level paths 0 st i1 0 false none
              with
            | Except.error ie => (st, ie, false)
            | Except.ok (st1, i2, used, hasMatch, parsed) =>
              if ¬hasMatch ∧ i2 < json.length ∧ byteAt json i2 = 125 then
                (st1, i2 + 1, true)
              else
                let next :=
                  match parsed with
                  | none =>
                    if hasMatch then
                      let i3 := wsColonSkip json i2
                      if i3 < json.length then
                        if byteAt json i3 = 123 then
                          let (st2, i4, ok2) := parseGetManyF json fuel
                            (i3 + 1) (level + 1) (kplen + key.length + 1)
                            paths st1
                          if ok2 then Except.ok (st2, i4)
                          else Except.error (st2, i4)
                        else
                          match parseAny json i3 false with
                          | (i4, _, true) => Except.ok (st1, i4)
                          | (i4, _, false) => Except.error (st1, i4)
                      else Except.ok (st1, i3)
                    else
                      match parseAny json i2 false with
                      | (i4, _, true) => Except.ok (st1, i4)
                      | (i4, _, false) => Except.error (st1, i4)
                  | some (valOrg, pj) =>
                    if hasMatch ∧
                        byteAt ((st1.results.getD pj {}).raw) 0 = 123 ∧
                        (st1.results.getD pj {}).raw ≠ [] then
                      let i3 := findBrace json valOrg
                      let (st2, i4, ok2) := parseGetManyF json fuel
                        (i3 + 1) (level + 1) (kplen + key.length + 1)
                        paths st1
                      if ok2 then Except.ok (st2, i4)
                      else Except.error (st2, i4)
                    else Except.ok (st1, i2)
                match next with
                | Except.error (st2, i4) => (st2, i4, false)
                | Except.ok (st2, i4) =>
                  if used = paths.length then
                    if level > 0 ∧ i4 < json.length then
                      (st2, (parseSquash json i4).1, true)
                    else (st2, i4, true)
                  else pgmKeyLoop json fuel (max (i + 1) (i4 + 1)) level
                    kplen paths st2
      else if byteAt json i = 125 then (st, i + 1, true)
      else pgmKeyLoop json fuel (i + 1) level kplen paths st
    else (st, i, true)
termination_by structural fuel => fuel

end

/-- Locator loop of `GetMany` (gjson.go:1680): the index after the
top-level `{`, through leading whitespace only; `none` means a non-brace
byte was hit and the caller falls back.  When the buffer is exhausted the
Go code falls out of the loop and still runs the shared scan at
`i = len`, which is what `some json.length` reproduces. -/
def gmStartF (json : Str) : Nat → Nat → Option Nat
  | 0, _ => some json.length
  | fuel + 1, i =>
    if i < json.length then
      if byteAt json i = 123 then some (i + 1)
      else if byteAt json i ≤ 32 then gmStartF json fuel (i + 1)
      else none
    else some json.length

/-- The locator loop of `GetMany` with its fuel supplied. -/
def gmStart (json : Str) (i : Nat) : Option Nat :=
  gmStartF json (json.length + 1) i

/-- gjson.go `GetMany(json, paths...)` (gjson.go:1650).  Fewer than four
paths evaluate per-path directly; more than 512, non-simple paths, a
non-object top level or a fault in the shared scan fall back to per-path
evaluation.  The `getMany8..512` call-table variants differ only in
slice capacity and are one function here. -/
def GetManyE (json : Str) (paths : List Str) : List ResultT :=
  if paths.length < 4 then paths.map (GetE json)
  else if paths.length > 512 then paths.map (GetE json)
  else if ¬areSimplePaths paths then paths.map (GetE json)
  else
    match gmStart json 0 with
    | none => paths.map (GetE json)
    | some idx =>
      let st0 : GMSt :=
        { completed := List.replicate paths.length false
          masks := List.replicate paths.length 0
          results := List.replicate paths.length {} }
      let (st, _, ok) :=
        parseGetManyF json (64 * (2 * json.length + 4)) idx 0 0 paths st0
      if ok then st.results else paths.map (GetE json)

/-- Replace-or-append update of an association list: the model of an
assignment to the Go map built by `arrayOrMap`. -/
def upsert (o : List (Str × ResultT)) (k : Str) (v : ResultT) :
    List (Str × ResultT) :=
  match o with
  | [] => [(k, v)]
  | (k', v') :: rest =>
    if k' = k then (k, v) :: rest else (k', v') :: upsert rest k v

/-- Lookup in the association list modelling the Go map. -/
def lookupA (o : List (Str × ResultT)) (k : Str) : Option ResultT :=
  match o with
  | [] => none
  | (k', v') :: rest => if k' = k then some v' else lookupA rest k

/-- The opening-bracket locator of `arrayOrMap` (gjson.go:299): `vc = 0`
accepts either bracket.  `none` is the source's `goto end` on a stray
byte; at exhaustion the source falls through to an empty result, which
scanning from `json.length` reproduces. -/
def aomStartF (json : Str) (vc : Nat) : Nat → Nat → Option (Nat × Nat)
  | 0, _ => some (json.length, vc)
  | fuel + 1, i =>
    if i < json.length then
      let c := byteAt json i
      if vc = 0 then
        if c = 123 ∨ c = 91 then some (i + 1, c)
        else if c > 32 then none
        else aomStartF json vc fuel (i + 1)
      else
        if c = vc then some (i + 1, vc)
        else if c > 32 then none
        else aomStartF json vc fuel (i + 1)
    else some (json.length, vc)

/-- The opening-bracket locator with its fuel supplied. -/
def aomStart (json : Str) (i : Nat) (vc : Nat) : Option (Nat × Nat) :=
  aomStartF json vc (json.length + 1) i

/-- Element loop of `arrayOrMap` (gjson.go:335).  The `value` record is
a single variable in the source, so fields not set by a token's case
keep their previous content (a number token after a string keeps the
stale `Str`, and every key token passes through `value` as well); the
loop threads it for that reason.  In object mode even-count tokens are
keys and odd-count tokens are values; map assignment is
replace-or-append.  The source advances with `i += len(value.Raw) - 1`
plus the loop increment; raw spans are never empty, which `max 1` makes
explicit for termination. -/
def aomLoopF (json : Str) (isObj : Bool) : Nat → Nat → Nat →
    ResultT → ResultT → List ResultT → List (Str × ResultT) →
    List ResultT × List (Str × ResultT)
  | 0, _, _, _, _, a, o => (a, o)
  | fuel + 1, i, count, key, value, a, o =>
    if i < json.length then
      let c := byteAt json i
      if c ≤ 32 then aomLoopF json isObj fuel (i + 1) count key value a o
      else if c = 93 ∨ c = 125 then (a, o)
      else
        let tv : Option ResultT :=
          if c = 123 ∨ c = 91 then
            some { value with
              type := RType.json
              raw := squash (sliceFrom json i) }
          else if c = 110 then
            some { value with
              type := RType.null
              raw := tolit (sliceFrom json i) }
          else if c = 116 then
            some { value with
              type := RType.btrue
              raw := tolit (sliceFrom json i) }
          else if c = 102 then
            some { value with
              type := RType.bfalse
              raw := tolit (sliceFrom json i) }
          else if c = 34 then
            let (rw, sv) := tostr (sliceFrom json i)
            some { value with type := RType.string, raw := rw, str := sv }
          else if (48 ≤ c ∧ c ≤ 57) ∨ c = 45 then
            let (rw, n) := tonum (sliceFrom json i)
            some { value with type := RType.number, raw := rw, num := n }
          else none
        match tv with
        | none => aomLoopF json isObj fuel (i + 1) count key value a o
        | some v' =>
          let i2 := i + max 1 v'.raw.length
          if isObj then
            if count % 2 = 0 then
              aomLoopF json isObj fuel i2 (count + 1) v' v' a o
            else
              aomLoopF json isObj fuel i2 (count + 1) key v' a
                (upsert o key.str v')
          else aomLoopF json isObj fuel i2 count key v' (a ++ [v']) o
    else (a, o)

/-- The element loop of `arrayOrMap` with its fuel supplied. -/
def aomLoop (json : Str) (i : Nat) (isObj : Bool) (count : Nat)
    (key value : ResultT) (a : List ResultT) (o : List (Str × ResultT)) :
    List ResultT × List (Str × ResultT) :=
  aomLoopF json isObj (json.length + 1) i count key value a o

/-- gjson.go `Result.arrayOrMap(vc, false)`: the `valueize` mode feeds
only the deprecated `Value()`/`Unmarshal` surface, which no claim
touches, and is omitted.  Returns `(a, o, vc)`. -/
def arrayOrMap (t : ResultT) (vc : Nat) :
    List ResultT × List (Str × ResultT) × Nat :=
  match aomStart t.raw 0 vc with
  | none => ([], [], 0)
  | some (i, vcF) =>
    let (a, o) := aomLoop t.raw i (vcF = 123) 0 {} {} [] []
    (a, o, vcF)

/-- gjson.go `Result.Array()`. -/
def ResultT.array (t : ResultT) : List ResultT :=
  if ¬t.existsRes then []
  else if t.type ≠ RType.json then [t]
  else (arrayOrMap t 91).1

/-- gjson.go `Result.Map()`, as the association list modelling the map. -/
def ResultT.mapRes (t : ResultT) : List (Str × ResultT) :=
  if t.type ≠ RType.json then []
  else (arrayOrMap t 123).2.1

/-- Loop of `Parse` (gjson.go:393). -/
def parseLoopPF (json : Str) : Nat → Nat → ResultT
  | 0, _ => {}
  | fuel + 1, i =>
    if i < json.length then
      let c := byteAt json i
      if c = 123 ∨ c = 91 then
        { type := RType.json, raw := sliceFrom json i }
      else if c ≤ 32 then parseLoopPF json fuel (i + 1)
      else if c = 110 then
        { type := RType.null, raw := tolit (sliceFrom json i) }
      else if c = 116 then
        { type := RType.btrue, raw := tolit (sliceFrom json i) }
      else if c = 102 then
        { type := RType.bfalse, raw := tolit (sliceFrom json i) }
      else if c = 34 then
        let (rw, sv) := tostr (sliceFrom json i)
        { type := RType.string, raw := rw, str := sv }
      else if (48 ≤ c ∧ c ≤ 57) ∨ c = 45 then
        let (rw, n) := tonum (sliceFrom json i)
        { type := RType.number, raw := rw, num := n }
      else {}
    else {}

/-- gjson.go `Parse(json)`. -/
def ParseE (json : Str) : ResultT := parseLoopPF json (json.length + 1) 0

/-- Whitespace in the validity scanner: space, tab, LF, CR. -/
def isVWs (c : Nat) : Bool := c = 32 ∨ c = 9 ∨ c = 10 ∨ c = 13

/-- Hex-digit test of `validstring`'s `\u` case. -/
def isHexDigit (c : Nat) : Bool :=
  (48 ≤ c ∧ c ≤ 57) ∨ (97 ≤ c ∧ c ≤ 102) ∨ (65 ≤ c ∧ c ≤ 70)

/-- The four-hex-digit loop of `validstring` (gjson.go:2291): enters with
`i` at the `u`, returns the index of the last digit on success. -/
def validHex4 (data : Str) (i : Nat) : Nat → Nat × Bool
  | 0 => (i, true)
  | k + 1 =>
    if i + 1 ≥ data.length then (i + 1, false)
    else if isHexDigit (byteAt data (i + 1)) then
      validHex4 data (i + 1) k
    else (i + 1, false)

/-- gjson.go `validstring(data, i)`: `i` is one past the opening quote. -/
def validstringF (data : Str) : Nat → Nat → Nat × Bool
  | 0, i => (i, false)
  | fuel + 1, i =>
    if i < data.length then
      let c := byteAt data i
      if c < 32 then (i, false)
      else if c = 92 then
        if i + 1 = data.length then (i + 1, false)
        else
          let e := byteAt data (i + 1)
          if e = 34 ∨ e = 92 ∨ e = 47 ∨ e = 98 ∨ e = 102 ∨ e = 110 ∨
              e = 114 ∨ e = 116 then
            validstringF data fuel (i + 2)
          else if e = 117 then
            match validHex4 data (i + 1) 4 with
            | (p, true) => validstringF data fuel (max (i + 2) (p + 1))
            | (p, false) => (p, false)
          else (i + 1, false)
      else if c = 34 then (i + 1, true)
      else validstringF data fuel (i + 1)
    else (i, false)

/-- `validstring` with its fuel supplied. -/
def validstring (data : Str) (i : Nat) : Nat × Bool :=
  validstringF data (data.length + 1) i

/-- Digit run used by `validnumber`. -/
def digitRunF (data : Str) : Nat → Nat → Nat
  | 0, i => i
  | fuel + 1, i =>
    if i < data.length then
      if 48 ≤ byteAt data i ∧ byteAt data i ≤ 57 then
        digitRunF data fuel (i + 1)
      else i
    else i

/-- The digit run with its fuel supplied. -/
def digitRun (data : Str) (i : Nat) : Nat :=
  digitRunF data (data.length + 1) i

/-- gjson.go `validnumber(data, i)` (gjson.go:2309): called with `i` one
past the first byte, rewinds with `i--`, and checks sign, integer part
(a lone leading `0` consumes one digit only), fraction and exponent. -/
def validnumber (data : Str) (i0 : Nat) : Nat × Bool :=
  let i1 := i0 - 1
  let i2 := if byteAt data i1 = 45 then i1 + 1 else i1
  if i2 = data.length then (i2, false)
  else
    let i3 := if byteAt data i2 = 48 then i2 + 1 else digitRun data i2
    if i3 = data.length then (i3, true)
    else
      let (i4, ok4) :=
        if byteAt data i3 = 46 then
          if i3 + 1 = data.length then (i3 + 1, false)
          else if 48 ≤ byteAt data (i3 + 1) ∧ byteAt data (i3 + 1) ≤ 57
            then (digitRun data (i3 + 2), true)
          else (i3 + 1, false)
        else (i3, true)
      if ¬ok4 then (i4, false)
      else if i4 = data.length then (i4, true)
      else if byteAt data i4 = 101 ∨ byteAt data i4 = 69 then
        let i5 := i4 + 1
        if i5 = data.length then (i5, false)
        else
          let i6 := if byteAt data i5 = 43 ∨ byteAt data i5 = 45 then
              i5 + 1
            else i5
          if i6 = data.length then (i6, false)
          else if 48 ≤ byteAt data i6 ∧ byteAt data i6 ≤ 57 then
            (digitRun data (i6 + 1), true)
          else (i6, false)
      else (i4, true)

/-- gjson.go `validcolon(data, i)`. -/
def validcolonF (data : Str) : Nat → Nat → Nat × Bool
  | 0, i => (i, false)
  | fuel + 1, i =>
    if i < data.length then
      let c := byteAt data i
      if isVWs c then validcolonF data fuel (i + 1)
      else if c = 58 then (i + 1, true)
      else (i, false)
    else (i, false)

/-- `validcolon` with its fuel supplied. -/
def validcolon (data : Str) (i : Nat) : Nat × Bool :=
  validcolonF data (data.length + 1) i

/-- gjson.go `validcomma(data, i, end)`: rests at the comma or the
closing bracket without consuming it. -/
def validcommaF (data : Str) (close : Nat) : Nat → Nat → Nat × Bool
  | 0, i => (i, false)
  | fuel + 1, i =>
    if i < data.length then
      let c := byteAt data i
      if isVWs c then validcommaF data close fuel (i + 1)
      else if c = 44 then (i, true)
      else if c = close then (i, true)
      else (i, false)
    else (i, false)

/-- `validcomma` with its fuel supplied. -/
def validcomma (data : Str) (i : Nat) (close : Nat) : Nat × Bool :=
  validcommaF data close (data.length + 1) i

/-- gjson.go `validtrue(data, i)`. -/
def validtrue (data : Str) (i : Nat) : Nat × Bool :=
  if i + 3 ≤ data.length ∧ byteAt data i = 114 ∧
      byteAt data (i + 1) = 117 ∧ byteAt data (i + 2) = 101 then
    (i + 3, true)
  else (i, false)

/-- gjson.go `validfalse(data, i)`. -/
def validfalse (data : Str) (i : Nat) : Nat × Bool :=
  if i + 4 ≤ data.length ∧ byteAt data i = 97 ∧
      byteAt data (i + 1) = 108 ∧ byteAt data (i + 2) = 115 ∧
      byteAt data (i + 3) = 101 then
    (i + 4, true)
  else (i, false)

/-- gjson.go `validnull(data, i)`. -/
def validnull (data : Str) (i : Nat) : Nat × Bool :=
  if i + 3 ≤ data.length ∧ byteAt data i = 117 ∧
      byteAt data (i + 1) = 108 ∧ byteAt data (i + 2) = 108 then
    (i + 3, true)
  else (i, false)

mutual

/-- gjson.go `validany(data, i)`, with fuel bounding the recursion (the
Go recursion is bounded by the input's nesting depth; `validpayload`
supplies an over-approximate budget). -/
def validany (data : Str) : Nat → Nat → Nat × Bool
  | 0, i => (i, false)
  | fuel + 1, i =>
    if i < data.length then
      let c := byteAt data i
      if isVWs c then validany data fuel (i + 1)
      else if c = 123 then validobject data fuel (i + 1)
      else if c = 91 then validarray data fuel (i + 1)
      else if c = 34 then validstring data (i + 1)
      else if c = 45 ∨ (48 ≤ c ∧ c ≤ 57) then validnumber data (i + 1)
      else if c = 116 then validtrue data (i + 1)
      else if c = 102 then validfalse data (i + 1)
      else if c = 110 then validnull data (i + 1)
      else (i, false)
    else (i, false)
termination_by structural fuel => fuel

/-- gjson.go `validobject(data, i)` (gjson.go:2190): leading loop over
whitespace, `}` or the first key. -/
def validobject (data : Str) : Nat → Nat → Nat × Bool
  | 0, i => (i, false)
  | fuel + 1, i =>
    if i < data.length then
      let c := byteAt data i
      if isVWs c then validobject data fuel (i + 1)
      else if c = 125 then (i + 1, true)
      else if c = 34 then voKey data fuel i
      else (i, false)
    else (i, false)
termination_by structural fuel => fuel

/-- The `key:` block of `validobject`: `i` is at the key's opening
quote.  After the member and its comma check, the source scans forward
to the next `"` without restricting the skipped bytes (gjson.go:2216)
and jumps back to `key:`. -/
def voKey (data : Str) : Nat → Nat → Nat × Bool
  | 0, i => (i, false)
  | fuel + 1, i =>
    match validstring data (i + 1) with
    | (i1, false) => (i1, false)
    | (i1, true) =>
      match validcolon data i1 with
      | (i2, false) => (i2, false)
      | (i2, true) =>
        match validany data fuel i2 with
        | (i3, false) => (i3, false)
        | (i3, true) =>
          match validcomma data i3 125 with
          | (i4, false) => (i4, false)
          | (i4, true) =>
            if byteAt data i4 = 125 then (i4 + 1, true)
            else voScan data fuel (max (i + 1) i4)
termination_by structural fuel => fuel

/-- The quote-seeking scan at the end of `validobject`'s `key:` block:
everything up to the next `"` is skipped. -/
def voScan (data : Str) : Nat → Nat → Nat × Bool
  | 0, i => (i, false)
  | fuel + 1, i =>
    if i < data.length then
      if byteAt data i = 34 then voKey data fuel i
      else voScan data fuel (i + 1)
    else (i, false)
termination_by structural fuel => fuel

/-- gjson.go `validarray(data, i)`: leading whitespace, then either `]`
or the element loop. -/
def validarray (data : Str) : Nat → Nat → Nat × Bool
  | 0, i => (i, false)
  | fuel + 1, i =>
    if i < data.length then
      let c := byteAt data i
      if isVWs c then validarray data fuel (i + 1)
      else if c = 93 then (i + 1, true)
      else vaInner data fuel i
    else (i, false)
termination_by structural fuel => fuel

/-- Element loop of `validarray` (gjson.go:2258): value, comma check,
and one byte past the comma for the next element. -/
def vaInner (data : Str) : Nat → Nat → Nat × Bool
  | 0, i => (i, false)
  | fuel + 1, i =>
    if i < data.length then
      match validany data fuel i with
      | (i1, false) => (i1, false)
      | (i1, true) =>
        match validcomma data i1 93 with
        | (i2, false) => (i2, false)
        | (i2, true) =>
          if byteAt data i2 = 93 then (i2 + 1, true)
          else vaInner data fuel (max (i + 1) (i2 + 1))
    else (i, false)
termination_by structural fuel => fuel

end

/-- Trailing scan of `validpayload` (gjson.go:2150): after the single
top-level value only ASCII whitespace may follow. -/
def vpTailF (data : Str) : Nat → Nat → Nat × Bool
  | 0, i => (i, false)
  | fuel + 1, i =>
    if i < data.length then
      if isVWs (byteAt data i) then vpTailF data fuel (i + 1)
      else (i, false)
    else (i, true)

/-- The trailing scan with its fuel supplied. -/
def vpTail (data : Str) (i : Nat) : Nat × Bool :=
  vpTailF data (data.length + 1) i

/-- Leading loop of `validpayload`. -/
def vpLoopF (data : Str) : Nat → Nat → Nat × Bool
  | 0, i => (i, false)
  | fuel + 1, i =>
    if i < data.length then
      if isVWs (byteAt data i) then vpLoopF data fuel (i + 1)
      else
        match validany data ((data.length + 3) * (4 * data.length + 8))
            i with
        | (i1, false) => (i1, false)
        | (i1, true) => vpTail data i1
    else (i, false)

/-- gjson.go `validpayload(data, i)`. -/
def validpayload (data : Str) (i : Nat) : Nat × Bool :=
  vpLoopF data (data.length + 1) i

/-- gjson.go `Valid(json)`. -/
def ValidE (json : Str) : Bool := (validpayload json 0).2

/-- Whitespace skip of the strict grammar checker. -/
def wsSkipSF (data : Str) : Nat → Nat → Nat
  | 0, i => i
  | fuel + 1, i =>
    if i < data.length then
      if isVWs (byteAt data i) then wsSkipSF data fuel (i + 1) else i
    else i

/-- The whitespace skip with its fuel supplied. -/
def wsSkipS (data : Str) (i : Nat) : Nat :=
  wsSkipSF data (data.length + 1) i

/-- Body scan of the strict string rule, after the opening quote. -/
def specStrBodyF (data : Str) : Nat → Nat → Option Nat
  | 0, _ => none
  | fuel + 1, i =>
    if i < data.length then
      let c := byteAt data i
      if c = 34 then some (i + 1)
      else if c = 92 then
        let e := byteAt data (i + 1)
        if i + 1 < data.length ∧ (e = 34 ∨ e = 92 ∨ e = 47 ∨ e = 98 ∨
            e = 102 ∨ e = 110 ∨ e = 114 ∨ e = 116) then
          specStrBodyF data fuel (i + 2)
        else if i + 5 < data.length ∧ e = 117 ∧
            isHexDigit (byteAt data (i + 2)) ∧
            isHexDigit (byteAt data (i + 3)) ∧
            isHexDigit (byteAt data (i + 4)) ∧
            isHexDigit (byteAt data (i + 5)) then
          specStrBodyF data fuel (i + 6)
        else none
      else if c < 32 then none
      else specStrBodyF data fuel (i + 1)
    else none

/-- The strict string body scan with its fuel supplied. -/
def specStrBody (data : Str) (i : Nat) : Option Nat :=
  specStrBodyF data (data.length + 1) i

/-- Modelled from the spec: the string rule of the strict grammar in
spec section 4.5: a quote, then unescaped characters or the RFC escape
set with four hex digits after a `\u`, then a quote.  `i` is at the
opening quote; returns the index after the closing quote. -/
def specString (data : Str) (i : Nat) : Option Nat :=
  if byteAt data i = 34 ∧ i < data.length then specStrBody data (i + 1)
  else none

/-- Modelled from the spec: the number rule of the strict grammar in
spec section 4.5: optional `-`; integer part a lone `0` or
`[1-9][0-9]*`; optional fraction `.` with at least one digit; optional
exponent with optional sign and at least one digit. -/
def specNumber (data : Str) (i : Nat) : Option Nat :=
  let i1 := if byteAt data i = 45 ∧ i < data.length then i + 1 else i
  if ¬(i1 < data.length ∧ 48 ≤ byteAt data i1 ∧ byteAt data i1 ≤ 57) then
    none
  else
    let i2 := if byteAt data i1 = 48 then i1 + 1 else digitRun data i1
    let i3 :=
      if byteAt data i2 = 46 ∧ i2 < data.length then
        if i2 + 1 < data.length ∧ 48 ≤ byteAt data (i2 + 1) ∧
            byteAt data (i2 + 1) ≤ 57 then
          some (digitRun data (i2 + 1))
        else none
      else some i2
    match i3 with
    | none => none
    | some i4 =>
      if (byteAt data i4 = 101 ∨ byteAt data i4 = 69) ∧ i4 < data.length
        then
        let i5 := if (byteAt data (i4 + 1) = 43 ∨
            byteAt data (i4 + 1) = 45) ∧ i4 + 1 < data.length then
            i4 + 2
          else i4 + 1
        if i5 < data.length ∧ 48 ≤ byteAt data i5 ∧ byteAt data i5 ≤ 57
          then some (digitRun data i5)
        else none
      else some i4

mutual

/-- Modelled from the spec: the value rule of the strict grammar of
spec section 4.5 (RFC 8259), used only to state that an input is or is
not in the grammar.  Returns the index one past the value. -/
def specValue (data : Str) : Nat → Nat → Option Nat
  | 0, _ => none
  | fuel + 1, i =>
    let c := byteAt data i
    if ¬(i < data.length) then none
    else if c = 123 then specObject data fuel (i + 1)
    else if c = 91 then specArray data fuel (i + 1)
    else if c = 34 then specString data i
    else if c = 116 then
      if (validtrue data (i + 1)).2 then some (i + 4) else none
    else if c = 102 then
      if (validfalse data (i + 1)).2 then some (i + 5) else none
    else if c = 110 then
      if (validnull data (i + 1)).2 then some (i + 4) else none
    else specNumber data i
termination_by structural fuel => fuel

/-- Modelled from the spec: object members after `{`: an optional list
of `string : value` members separated by exactly one comma each, then
`}`. -/
def specObject (data : Str) : Nat → Nat → Option Nat
  | 0, _ => none
  | fuel + 1, i =>
    let j := wsSkipS data i
    if byteAt data j = 125 ∧ j < data.length then some (j + 1)
    else specMembers data fuel j
termination_by structural fuel => fuel

/-- Modelled from the spec: one `string : value` member then either `}`
or exactly one `,` and the next member. -/
def specMembers (data : Str) : Nat → Nat → Option Nat
  | 0, _ => none
  | fuel + 1, i =>
    match specString data i with
    | none => none
    | some i1 =>
      let i2 := wsSkipS data i1
      if ¬(byteAt data i2 = 58 ∧ i2 < data.length) then none
      else
        let i3 := wsSkipS data (i2 + 1)
        match specValue data fuel i3 with
        | none => none
        | some i4 =>
          let i5 := wsSkipS data i4
          if byteAt data i5 = 125 ∧ i5 < data.length then some (i5 + 1)
          else if byteAt data i5 = 44 ∧ i5 < data.length then
            specMembers data fuel (wsSkipS data (i5 + 1))
          else none
termination_by structural fuel => fuel

/-- Modelled from the spec: array elements after `[`: values separated
by exactly one comma each, then `]`. -/
def specArray (data : Str) : Nat → Nat → Option Nat
  | 0, _ => none
  | fuel + 1, i =>
    let j := wsSkipS data i
    if byteAt data j = 93 ∧ j < data.length then some (j + 1)
    else specElems data fuel j
termination_by structural fuel => fuel

/-- Modelled from the spec: one value then either `]` or exactly one
`,` and the next element. -/
def specElems (data : Str) : Nat → Nat → Option Nat
  | 0, _ => none
  | fuel + 1, i =>
    match specValue data fuel i with
    | none => none
    | some i1 =>
      let i2 := wsSkipS data i1
      if byteAt data i2 = 93 ∧ i2 < data.length then some (i2 + 1)
      else if byteAt data i2 = 44 ∧ i2 < data.length then
        specElems data fuel (wsSkipS data (i2 + 1))
      else none
termination_by structural fuel => fuel

end

/-- Modelled from the spec: the whole-input strict grammar of spec
section 4.5: optional ASCII whitespace, one value, optional ASCII
whitespace, end of input. -/
def validStrictSpec (data : Str) : Bool :=
  match specValue data (4 * data.length + 12) (wsSkipS data 0) with
  | none => false
  | some i => wsSkipS data i = data.length

/-- Decimal digits (big-endian bytes) of a natural number; the fuel is a
digit-count bound, so `30` covers every number below `10^30` and in
particular the whole 64-bit range. -/
def natDecimalAux : Nat → Nat → Str
  | 0, _ => []
  | fuel + 1, m =>
    if m < 10 then [48 + m]
    else natDecimalAux fuel (m / 10) ++ [48 + m % 10]

/-- Decimal byte string of a natural number below `10^30`. -/
def natDecimal (m : Nat) : Str := natDecimalAux 30 m

/-- Decimal byte string of an integer (minus sign for negatives). -/
def intDecimal (z : ℤ) : Str :=
  if z < 0 then 45 :: natDecimal z.natAbs else natDecimal z.natAbs

/-! ## A family of well-formed documents

JSON value trees with a whitespace-free rendering.  Theorems about
whole-document behaviour (duplicate keys, count consistency) are stated
over documents rendered from these trees. -/

mutual

/-- A JSON value tree. -/
inductive Jv where
  | jstr (s : Str)
  | jnum (n : Nat)
  | jtrue
  | jfalse
  | jnull
  | jobj (ms : Jms)
  | jarr (es : Jes)

/-- Object members: a list of key-value pairs (duplicates allowed). -/
inductive Jms where
  | mnil
  | mcons (k : Str) (v : Jv) (rest : Jms)

/-- Array elements. -/
inductive Jes where
  | enil
  | econs (v : Jv) (rest : Jes)

end

mutual

/-- Rendering of a value tree, with no whitespace. -/
def render : Jv → Str
  | Jv.jstr s => 34 :: s ++ [34]
  | Jv.jnum n => natDecimal n
  | Jv.jtrue => [116, 114, 117, 101]
  | Jv.jfalse => [102, 97, 108, 115, 101]
  | Jv.jnull => [110, 117, 108, 108]
  | Jv.jobj ms => 123 :: renderMs ms ++ [125]
  | Jv.jarr es => 91 :: renderEs es ++ [93]

/-- Rendering of members, comma-separated. -/
def renderMs : Jms → Str
  | Jms.mnil => []
  | Jms.mcons k v rest =>
    34 :: k ++ [34] ++ [58] ++ render v ++
      (match rest with
        | Jms.mnil => []
        | Jms.mcons _ _ _ => 44 :: renderMs rest)

/-- Rendering of elements, comma-separated. -/
def renderEs : Jes → Str
  | Jes.enil => []
  | Jes.econs v rest =>
    render v ++
      (match rest with
        | Jes.enil => []
        | Jes.econs _ _ => 44 :: renderEs rest)

end

/-- Key constraint of the family: nonempty, lowercase ASCII letters
only, so a key is a plain one-segment path with no wildcard, dot,
escape or digit. -/
def keyWf (k : Str) : Bool :=
  k ≠ [] ∧ k.all (fun c => 97 ≤ c ∧ c ≤ 122)

/-- String-content constraint of the family: printable (no control
bytes, which `validstring` rejects), no quote, no backslash (so no
escape processing), byte-valued. -/
def strWf (s : Str) : Bool :=
  s.all (fun c => 32 ≤ c ∧ c ≠ 34 ∧ c ≠ 92 ∧ c < 256)

mutual

/-- Well-formedness of a value tree. -/
def jvWf : Jv → Bool
  | Jv.jstr s => strWf s
  | Jv.jnum _ => true
  | Jv.jtrue => true
  | Jv.jfalse => true
  | Jv.jnull => true
  | Jv.jobj ms => jmsWf ms
  | Jv.jarr es => jesWf es

/-- Well-formedness of members. -/
def jmsWf : Jms → Bool
  | Jms.mnil => true
  | Jms.mcons k v rest => keyWf k && jvWf v && jmsWf rest

/-- Well-formedness of elements. -/
def jesWf : Jes → Bool
  | Jes.enil => true
  | Jes.econs v rest => jvWf v && jesWf rest

end

/-- Number of elements. -/
def jesLen : Jes → Nat
  | Jes.enil => 0
  | Jes.econs _ rest => jesLen rest + 1

/-- First value under a key, the occurrence `Get` takes. -/
def firstVal : Jms → Str → Option Jv
  | Jms.mnil, _ => none
  | Jms.mcons k v rest, key =>
    if k = key then some v else firstVal rest key

/-- Last value under a key, the occurrence `Map` keeps. -/
def lastVal : Jms → Str → Option Jv
  | Jms.mnil, _ => none
  | Jms.mcons k v rest, key =>
    match lastVal rest key with
    | some w => some w
    | none => if k = key then some v else none

/-- Number of members with the given key. -/
def countKey : Jms → Str → Nat
  | Jms.mnil, _ => 0
  | Jms.mcons k _ rest, key =>
    (if k = key then 1 else 0) + countKey rest key

/-- The result `parseObject` produces for a hit on the rendered value
`v`, updating the threaded result `w` exactly as the source's partial
assignments do (a JSON `null` value leaves the type field alone). -/
def applyGet (w : ResultT) : Jv → ResultT
  | Jv.jstr s => { w with
      type := RType.string
      raw := 34 :: s ++ [34]
      str := s }
  | Jv.jnum n => { w with
      type := RType.number
      raw := natDecimal n
      num := parseFloatQ (natDecimal n) }
  | Jv.jtrue => { w with type := RType.btrue, raw := render Jv.jtrue }
  | Jv.jfalse => { w with type := RType.bfalse, raw := render Jv.jfalse }
  | Jv.jnull => { w with raw := render Jv.jnull }
  | Jv.jobj ms => { w with
      type := RType.json
      raw := render (Jv.jobj ms) }
  | Jv.jarr es => { w with
      type := RType.json
      raw := render (Jv.jarr es) }

/-- The result a hit on `v` gives starting from the zero result: what
`Get` returns for a one-segment path. -/
def getVal (v : Jv) : ResultT := applyGet {} v

/-- Raw span the `arrayOrMap` token scanner keeps for a rendered value:
as `Get`'s, except that `tolit` cuts `false` at its `a` (gjson.go:514),
leaving raw `f`. -/
def aomRaw : Jv → Str
  | Jv.jfalse => [102]
  | v => (getVal v).raw

/-- Type tag the `arrayOrMap` token scanner assigns. -/
def aomType : Jv → RType
  | Jv.jstr _ => RType.string
  | Jv.jnum _ => RType.number
  | Jv.jtrue => RType.btrue
  | Jv.jfalse => RType.bfalse
  | Jv.jnull => RType.null
  | Jv.jobj _ => RType.json
  | Jv.jarr _ => RType.json

/-- Raw span of an array element as `parseArray` scans it (the threaded
`val` local): the full literal for every case. -/
def elemRaw (v : Jv) : Str := (getVal v).raw

/-- The `val` local of `parseArray` after scanning the elements `es`,
starting from `val0`: the raw of the last element, if any. -/
def lastRawEs : Jes → Str → Str
  | Jes.enil, val0 => val0
  | Jes.econs v rest, _ => lastRawEs rest (elemRaw v)

/-- Number of members. -/
def msCount : Jms → Nat
  | Jms.mnil => 0
  | Jms.mcons _ _ rest => msCount rest + 1

mutual

/-- Exact number of `squashLoopF` iterations spent consuming a rendered
value (a whole string costs one iteration: the in-string scan is a
separate fueled loop). -/
def sqV : Jv → Nat
  | Jv.jstr _ => 1
  | Jv.jnum n => (natDecimal n).length
  | Jv.jtrue => 4
  | Jv.jfalse => 5
  | Jv.jnull => 4
  | Jv.jobj ms => sqMs ms + 2
  | Jv.jarr es => sqEs es + 2

/-- `squashLoopF` iterations over rendered members (key string, colon,
value, comma each cost their own iterations). -/
def sqMs : Jms → Nat
  | Jms.mnil => 0
  | Jms.mcons _ v rest =>
    2 + sqV v +
      (match rest with
        | Jms.mnil => 0
        | Jms.mcons _ _ _ => 1 + sqMs rest)

/-- `squashLoopF` iterations over rendered elements. -/
def sqEs : Jes → Nat
  | Jes.enil => 0
  | Jes.econs v rest =>
    sqV v +
      (match rest with
        | Jes.enil => 0
        | Jes.econs _ _ => 1 + sqEs rest)

end

mutual

/-- Fuel bound for `validany` on a rendered value. -/
def vNeedV : Jv → Nat
  | Jv.jobj ms => vNeedMs ms + 3
  | Jv.jarr es => vNeedEs es + 3
  | _ => 1

/-- Fuel bound for the `voKey`/`voScan` walk over rendered members. -/
def vNeedMs : Jms → Nat
  | Jms.mnil => 0
  | Jms.mcons _ v rest => vNeedV v + vNeedMs rest + 3

/-- Fuel bound for the `vaInner` walk over rendered elements. -/
def vNeedEs : Jes → Nat
  | Jes.enil => 0
  | Jes.econs v rest => vNeedV v + vNeedEs rest + 3

end

/-- `aomLoopF` iterations spent on one rendered value token: one for the
token, plus the four byte-skips over `alse` after `tolit` cut the
`false` literal at its `a`. -/
def aomCost : Jv → Nat
  | Jv.jfalse => 5
  | _ => 1

/-- Fuel bound for `aomLoopF` over rendered elements (token plus comma
per element, one iteration at the closing bracket). -/
def aomNeedEs : Jes → Nat
  | Jes.enil => 1
  | Jes.econs v rest => aomCost v + 1 + aomNeedEs rest

/-- Fuel bound for `aomLoopF` over rendered members (key token, colon
skip, value token, comma per member). -/
def aomNeedMs : Jms → Nat
  | Jms.mnil => 1
  | Jms.mcons _ v rest => 3 + aomCost v + aomNeedMs rest

/-- Bytes that may follow a rendered number without extending the
`validnumber` scan: the in-document separators and the `g` used as the
trailing-garbage byte. -/
def stopAfterNum (c : Nat) : Bool :=
  c = 44 ∨ c = 93 ∨ c = 125 ∨ c = 103

/-- The scenario document of the spec's first-match query (section 2). -/
def friendsDoc : Str :=
  bytes "\x7b\"friends\":[\x7b\"first\":\"Dale\",\"age\":44\x7d,\x7b\"first\":\"Roger\",\"age\":68\x7d]\x7d"

/-- Document of the `!=` query counterexample. -/
def neqDoc : Str :=
  bytes "\x7b\"a\":[\x7b\"age\":44\x7d,\x7b\"age\":45\x7d]\x7d"

/-- Document of the `GetMany` literal-skip divergence: a `true` value
followed by further members. -/
def gmDoc : Str := bytes "\x7b\"a\":true,\"b\":1,\"c\":2,\"d\":3\x7d"

/-- The four simple paths that trigger the shared-scan mode on
`gmDoc`. -/
def gmPaths : List Str := [bytes "b", bytes "c", bytes "d", bytes "x"]

end GJson

namespace GJson

/-- The record the `arrayOrMap` token scanner builds for one rendered
value on top of the loop-carried `value` record (fields a case does not
assign keep their previous, stale content). -/
def aomUpd (value : ResultT) : Jv → ResultT
  | Jv.jstr s => { value with
      type := RType.string
      raw := 34 :: s ++ [34]
      str := s }
  | Jv.jnum n => { value with
      type := RType.number
      raw := natDecimal n
      num := parseFloatQ (natDecimal n) }
  | Jv.jtrue => { value with type := RType.btrue, raw := [116, 114, 117, 101] }
  | Jv.jfalse => { value with type := RType.bfalse, raw := [102] }
  | Jv.jnull => { value with type := RType.null, raw := [110, 117, 108, 108] }
  | Jv.jobj ms => { value with type := RType.json, raw := render (Jv.jobj ms) }
  | Jv.jarr es => { value with type := RType.json, raw := render (Jv.jarr es) }

/-- The slice `arrayOrMap` appends for rendered elements, threading the
loop-carried record. -/
def aomValsEs (value : ResultT) : Jes → List ResultT
  | Jes.enil => []
  | Jes.econs w rest => aomUpd value w :: aomValsEs (aomUpd value w) rest

/-- The map `arrayOrMap` builds for rendered members, threading the
loop-carried record: returns the updated association list and the final
record. -/
def aomObjFold (value : ResultT) (o : List (Str × ResultT)) :
    Jms → List (Str × ResultT)
  | Jms.mnil => o
  | Jms.mcons k w rest =>
    let kv := aomUpd value (Jv.jstr k)
    let vv := aomUpd kv w
    aomObjFold vv (upsert o k vv) rest

/-- The continuation `arrayOrMap`'s element loop takes after reading one
token record (the loop body's three branches, with the token record
already merged into `value`). -/
def aomCont (json : Str) (isObj : Bool) (fuel i count : Nat)
    (key value : ResultT) (a : List ResultT)
    (o : List (Str × ResultT)) : List ResultT × List (Str × ResultT) :=
  if isObj then
    if count % 2 = 0 then
      aomLoopF json isObj fuel i (count + 1) value value a o
    else
      aomLoopF json isObj fuel i (count + 1) key value a
        (upsert o key.str value)
  else aomLoopF json isObj fuel i count key value (a ++ [value]) o

/-- Scalar (non-container) values of the family. -/
def isScalar : Jv → Bool
  | Jv.jobj _ => false
  | Jv.jarr _ => false
  | _ => true

/-- The record `Parse` produces for a rendered scalar document: the
scalar's type and span, except that `tolit` cuts a `false` literal at
its `a` (gjson.go:514), leaving raw `f`. -/
def scalarRes : Jv → ResultT
  | Jv.jstr s => { type := RType.string, raw := 34 :: s ++ [34], str := s }
  | Jv.jnum n => { type := RType.number
                   raw := natDecimal n
                   num := parseFloatQ (natDecimal n) }
  | Jv.jtrue => { type := RType.btrue, raw := [116, 114, 117, 101] }
  | Jv.jfalse => { type := RType.bfalse, raw := [102] }
  | Jv.jnull => { type := RType.null, raw := [110, 117, 108, 108] }
  | v => { type := RType.json, raw := render v }

end GJson

namespace GJson

/-! ## Position kit

Scanner lemmas are stated through `List.drop`: `json.drop i = mid ++ post`
says the scan sits at `i` looking at `mid`.  These lemmas move such facts
one byte or one block at a time. -/

theorem byteAt_drop_zero (s : Str) (i : Nat) :
    byteAt s i = byteAt (s.drop i) 0 := by
  induction s generalizing i with
  | nil => simp [byteAt]
  | cons c rest ih =>
    cases i with
    | zero => simp
    | succ j => simp only [byteAt, List.getD] at ih ⊢; exact ih j

theorem byteAt_of_drop {s : Str} {i c : Nat} {rest : Str}
    (h : s.drop i = c :: rest) : byteAt s i = c := by
  rw [byteAt_drop_zero, h]
  simp [byteAt]

theorem lt_length_of_drop {s : Str} {i c : Nat} {rest : Str}
    (h : s.drop i = c :: rest) : i < s.length := by
  by_contra hle
  rw [List.drop_eq_nil_of_le (by omega)] at h
  exact List.noConfusion h

theorem drop_succ_of_drop {s : Str} {i c : Nat} {rest : Str}
    (h : s.drop i = c :: rest) : s.drop (i + 1) = rest := by
  have h2 : s.drop (i + 1) = (s.drop i).drop 1 := by
    rw [List.drop_drop]
  rw [h2, h]
  rfl

theorem drop_add_of_drop {s : Str} {i : Nat} {mid post : Str}
    (h : s.drop i = mid ++ post) : s.drop (i + mid.length) = post := by
  have h2 : s.drop (i + mid.length) = (s.drop i).drop mid.length := by
    rw [List.drop_drop]
  rw [h2, h, List.drop_left]

theorem slice_of_drop {s : Str} {i : Nat} {mid post : Str}
    (h : s.drop i = mid ++ post) : slice s i (i + mid.length) = mid := by
  unfold slice
  rw [← List.take_drop, h, List.take_left]

theorem length_of_drop {s : Str} {i : Nat} {mid post : Str}
    (hi : i ≤ s.length) (h : s.drop i = mid ++ post) :
    s.length = i + mid.length + post.length := by
  have h2 : (s.drop i).length = s.length - i := List.length_drop i s
  rw [h] at h2
  simp only [List.length_append] at h2
  omega

theorem le_length_of_drop {s : Str} {i : Nat} {mid post : Str}
    (hi : i ≤ s.length) (h : s.drop i = mid ++ post) :
    i + mid.length ≤ s.length := by
  have := length_of_drop hi h
  omega

theorem drop_ge_length {s : Str} {i : Nat} (h : s.drop i = []) :
    s.length ≤ i := List.drop_eq_nil_iff.mp h

theorem byteAt_mem {s : Str} {i : Nat} (h : i < s.length) :
    byteAt s i ∈ s := by
  have h1 : s[i]? = some s[i] := List.getElem?_eq_getElem h
  rw [byteAt, List.getD_eq_getElem?_getD, h1]
  exact List.getElem_mem h

end GJson

namespace GJson

/-! ## Scanner walks

Each fueled scanner gets a lemma walking it over a block of bytes placed
at the scan position by a `drop` fact. -/

theorem mid_length_le {json : Str} {i : Nat} {mid post : Str}
    (h : json.drop i = mid ++ post) : mid.length ≤ json.length := by
  have h2 := congrArg List.length h
  simp only [List.length_drop, List.length_append] at h2
  omega

theorem escScanF_walk {json : Str} {lo : Nat} {s post : Str}
    (hs : ∀ c ∈ s, c ≠ 34 ∧ c ≠ 92) :
    ∀ fuel i, json.drop i = s ++ 34 :: post → s.length < fuel →
      byteAt json (i + s.length - 1) ≠ 92 →
      escScanF json lo fuel i = i + s.length := by
  induction s with
  | nil =>
    intro fuel i h hf hprev
    match fuel, hf with
    | f + 1, hf2 =>
      have hb := byteAt_of_drop h
      have hlt := lt_length_of_drop h
      have hprev2 : ¬(byteAt json (i - 1) = 92 ∧
          nslashAbove json lo (i - 2) % 2 = 0) := by
        intro hcon
        apply hprev
        simpa using hcon.1
      simp [escScanF, hb, hlt, hprev2]
  | cons c s' ih =>
    intro fuel i h hf hprev
    match fuel, hf with
    | f + 1, hf2 =>
      rw [List.cons_append] at h
      have hb := byteAt_of_drop h
      have hlt := lt_length_of_drop h
      have hc := hs c (by simp)
      have hdrop := drop_succ_of_drop h
      have ihres := ih (fun d hd => hs d (by simp [hd])) f (i + 1) hdrop
        (by simp at hf2; omega)
        (by
          have heq : i + 1 + s'.length - 1 = i + (c :: s').length - 1 := by
            simp only [List.length_cons]; omega
          rw [heq]; exact hprev)
      simp only [escScanF, if_pos hlt, hb]
      by_cases hgt : c > 92
      · rw [if_pos hgt, ihres]
        simp; omega
      · rw [if_neg hgt, if_neg hc.1]
        rw [ihres]
        simp; omega

theorem escScan_walk {json : Str} {lo i : Nat} {s post : Str}
    (hs : ∀ c ∈ s, c ≠ 34 ∧ c ≠ 92)
    (h : json.drop i = s ++ 34 :: post)
    (hprev : byteAt json (i + s.length - 1) ≠ 92) :
    escScan json lo i = i + s.length := by
  apply escScanF_walk hs _ _ h _ hprev
  have := mid_length_le h
  omega

end GJson

namespace GJson

theorem psLoopF_walk {json : Str} {s post : Str}
    (hs : ∀ c ∈ s, c ≠ 34 ∧ c ≠ 92) :
    ∀ fuel i, json.drop i = s ++ 34 :: post → s.length < fuel →
      psLoopF json fuel i = (i + s.length + 1, false, true) := by
  induction s with
  | nil =>
    intro fuel i h hf
    match fuel, hf with
    | f + 1, hf2 =>
      have hb := byteAt_of_drop h
      have hlt := lt_length_of_drop h
      simp [psLoopF, hb, hlt]
  | cons c s' ih =>
    intro fuel i h hf
    match fuel, hf with
    | f + 1, hf2 =>
      rw [List.cons_append] at h
      have hb := byteAt_of_drop h
      have hlt := lt_length_of_drop h
      have hc := hs c (by simp)
      have hdrop := drop_succ_of_drop h
      have ihres := ih (fun d hd => hs d (by simp [hd])) f (i + 1) hdrop
        (by simp at hf2; omega)
      simp only [psLoopF, if_pos hlt, hb]
      by_cases hgt : c > 92
      · rw [if_pos hgt, ihres]
        simp only [List.length_cons, Prod.mk.injEq]
        refine ⟨by omega, trivial⟩
      · rw [if_neg hgt, if_neg hc.1, if_neg hc.2, ihres]
        simp only [List.length_cons, Prod.mk.injEq]
        refine ⟨by omega, trivial⟩

theorem parseString_at {json : Str} {q : Nat} {s post : Str}
    (hs : ∀ c ∈ s, c ≠ 34 ∧ c ≠ 92)
    (h : json.drop q = 34 :: (s ++ 34 :: post)) :
    parseString json (q + 1) =
      (q + s.length + 2, 34 :: s ++ [34], false, true) := by
  have hdrop1 := drop_succ_of_drop h
  have hps : psLoop json (q + 1) = (q + 1 + s.length + 1, false, true) := by
    apply psLoopF_walk hs _ _ hdrop1
    have := mid_length_le hdrop1
    omega
  have h2 : json.drop q = (34 :: s ++ [34]) ++ post := by
    simpa using h
  have hsl := slice_of_drop h2
  simp only [List.length_append, List.length_cons,
    List.length_nil] at hsl
  unfold parseString
  rw [hps]
  have e1 : q + 1 + s.length + 1 = q + s.length + 2 := by omega
  have e2 : q + 1 - 1 = q := by omega
  have e3 : q + (s.length + 1 + 0 + 1) = q + s.length + 2 := by omega
  rw [e3] at hsl
  simp only [e1, e2, hsl]

theorem pksLoopF_walk {json : Str} {s0 : Nat} {mid post : Str}
    (hs : ∀ c ∈ mid, c ≠ 34 ∧ c ≠ 92) :
    ∀ fuel i, json.drop i = mid ++ 34 :: post → mid.length < fuel →
      pksLoopF json s0 fuel i =
        (i + mid.length + 1, slice json s0 (i + mid.length), false, true) := by
  induction mid with
  | nil =>
    intro fuel i h hf
    match fuel, hf with
    | f + 1, hf2 =>
      have hb := byteAt_of_drop h
      have hlt := lt_length_of_drop h
      simp [pksLoopF, hb, hlt]
  | cons c s' ih =>
    intro fuel i h hf
    match fuel, hf with
    | f + 1, hf2 =>
      rw [List.cons_append] at h
      have hb := byteAt_of_drop h
      have hlt := lt_length_of_drop h
      have hc := hs c (by simp)
      have hdrop := drop_succ_of_drop h
      have ihres := ih (fun d hd => hs d (by simp [hd])) f (i + 1) hdrop
        (by simp at hf2; omega)
      have e1 : i + 1 + s'.length = i + (c :: s').length := by
        simp only [List.length_cons]; omega
      simp only [pksLoopF, if_pos hlt, hb]
      by_cases hgt : c > 92
      · rw [if_pos hgt, ihres, e1]
      · rw [if_neg hgt, if_neg hc.1, if_neg hc.2, ihres, e1]

theorem pksLoop_at {json : Str} {q : Nat} {k post : Str}
    (hk : ∀ c ∈ k, c ≠ 34 ∧ c ≠ 92)
    (h : json.drop q = 34 :: (k ++ 34 :: post)) :
    pksLoop json (q + 1) (q + 1) = (q + k.length + 2, k, false, true) := by
  have hdrop1 := drop_succ_of_drop h
  have hwalk := @pksLoopF_walk _ (q + 1) _ _ hk (json.length + 1) (q + 1)
    hdrop1 (by have := mid_length_le hdrop1; omega)
  have hk2 : json.drop (q + 1) = k ++ (34 :: post) := hdrop1
  have hsl := slice_of_drop hk2
  unfold pksLoop
  rw [hwalk, hsl]
  have e1 : q + 1 + k.length + 1 = q + k.length + 2 := by omega
  rw [e1]

end GJson

namespace GJson

theorem pnLoopF_walk {json : Str} {ds post : Str}
    (hds : ∀ c ∈ ds, 48 ≤ c ∧ c ≤ 57)
    (hpost : ∀ c r, post = c :: r → c ≤ 32 ∨ c = 44 ∨ c = 93 ∨ c = 125) :
    ∀ fuel i, json.drop i = ds ++ post → ds.length < fuel →
      pnLoopF json fuel i = i + ds.length := by
  induction ds with
  | nil =>
    intro fuel i h hf
    match fuel, hf with
    | f + 1, hf2 =>
      simp only [List.nil_append] at h
      match post, h with
      | [], h =>
        have hge := drop_ge_length h
        simp [pnLoopF, Nat.not_lt.mpr hge]
      | c :: r, h =>
        have hb := byteAt_of_drop h
        have hlt := lt_length_of_drop h
        have hstop := hpost c r rfl
        simp only [pnLoopF, if_pos hlt, hb]
        rw [if_pos (by omega)]
        simp
  | cons c ds' ih =>
    intro fuel i h hf
    match fuel, hf with
    | f + 1, hf2 =>
      rw [List.cons_append] at h
      have hb := byteAt_of_drop h
      have hlt := lt_length_of_drop h
      have hc := hds c (by simp)
      have hdrop := drop_succ_of_drop h
      have ihres := ih (fun d hd => hds d (by simp [hd])) f (i + 1) hdrop
        (by simp at hf2; omega)
      simp only [pnLoopF, if_pos hlt, hb]
      rw [if_neg (by omega), ihres]
      simp only [List.length_cons]
      omega

theorem parseNumber_at {json : Str} {i : Nat} {num post : Str}
    (hne : num ≠ []) (hds : ∀ c ∈ num, 48 ≤ c ∧ c ≤ 57)
    (hpost : ∀ c r, post = c :: r → c ≤ 32 ∨ c = 44 ∨ c = 93 ∨ c = 125)
    (h : json.drop i = num ++ post) :
    parseNumber json i = (i + num.length, num) := by
  match num, hne with
  | c :: cs, _ =>
    rw [List.cons_append] at h
    have hdrop := drop_succ_of_drop h
    have hpn : pnLoop json (i + 1) = i + 1 + cs.length := by
      apply pnLoopF_walk (fun d hd => hds d (by simp [hd])) hpost _ _ hdrop
      have := mid_length_le hdrop
      omega
    have hsl := slice_of_drop (show json.drop i = (c :: cs) ++ post by
      rw [List.cons_append]; exact h)
    unfold parseNumber
    rw [hpn]
    have e1 : i + 1 + cs.length = i + (c :: cs).length := by
      simp only [List.length_cons]; omega
    rw [e1]
    show (i + (c :: cs).length, slice json i (i + (c :: cs).length)) = _
    rw [hsl]

theorem plLoopF_walk {json : Str} {ds post : Str}
    (hds : ∀ c ∈ ds, 97 ≤ c ∧ c ≤ 122)
    (hpost : ∀ c r, post = c :: r → c < 97 ∨ 122 < c) :
    ∀ fuel i, json.drop i = ds ++ post → ds.length < fuel →
      plLoopF json fuel i = i + ds.length := by
  induction ds with
  | nil =>
    intro fuel i h hf
    match fuel, hf with
    | f + 1, hf2 =>
      simp only [List.nil_append] at h
      match post, h with
      | [], h =>
        have hge := drop_ge_length h
        simp [plLoopF, Nat.not_lt.mpr hge]
      | c :: r, h =>
        have hb := byteAt_of_drop h
        have hlt := lt_length_of_drop h
        have hstop := hpost c r rfl
        simp only [plLoopF, if_pos hlt, hb]
        rw [if_pos (by omega)]
        simp
  | cons c ds' ih =>
    intro fuel i h hf
    match fuel, hf with
    | f + 1, hf2 =>
      rw [List.cons_append] at h
      have hb := byteAt_of_drop h
      have hlt := lt_length_of_drop h
      have hc := hds c (by simp)
      have hdrop := drop_succ_of_drop h
      have ihres := ih (fun d hd => hds d (by simp [hd])) f (i + 1) hdrop
        (by simp at hf2; omega)
      simp only [plLoopF, if_pos hlt, hb]
      rw [if_neg (by omega), ihres]
      simp only [List.length_cons]
      omega

theorem parseLiteral_at {json : Str} {i : Nat} {c0 : Nat} {cs post : Str}
    (hds : ∀ c ∈ cs, 97 ≤ c ∧ c ≤ 122)
    (hpost : ∀ c r, post = c :: r → c < 97 ∨ 122 < c)
    (h : json.drop i = (c0 :: cs) ++ post) :
    parseLiteral json i = (i + (c0 :: cs).length, c0 :: cs) := by
  rw [List.cons_append] at h
  have hdrop := drop_succ_of_drop h
  have hpl : plLoop json (i + 1) = i + 1 + cs.length := by
    apply plLoopF_walk hds hpost _ _ hdrop
    have := mid_length_le hdrop
    omega
  have hsl := slice_of_drop (show json.drop i = (c0 :: cs) ++ post by
    rw [List.cons_append]; exact h)
  unfold parseLiteral
  rw [hpl]
  have e1 : i + 1 + cs.length = i + (c0 :: cs).length := by
    simp only [List.length_cons]; omega
  rw [e1]
  show (i + (c0 :: cs).length, slice json i (i + (c0 :: cs).length)) = _
  rw [hsl]

end GJson

namespace GJson

theorem tonumLoopF_walk {json : Str} {ds post : Str}
    (hds : ∀ c ∈ ds, 48 ≤ c ∧ c ≤ 57)
    (hpost : ∀ c r, post = c :: r → c = 44 ∨ c = 93 ∨ c = 125) :
    ∀ fuel i, json.drop i = ds ++ post → ds.length < fuel →
      tonumLoopF json fuel i = i + ds.length := by
  induction ds with
  | nil =>
    intro fuel i h hf
    match fuel, hf with
    | f + 1, hf2 =>
      simp only [List.nil_append] at h
      match post, h with
      | [], h =>
        have hge := drop_ge_length h
        simp [tonumLoopF, Nat.not_lt.mpr hge]
      | c :: r, h =>
        have hb := byteAt_of_drop h
        have hlt := lt_length_of_drop h
        have hstop := hpost c r rfl
        simp only [tonumLoopF, if_pos hlt, hb]
        rcases hstop with h44 | h93 | h125
        · subst h44
          norm_num
        · subst h93
          norm_num
        · subst h125
          norm_num
  | cons c ds' ih =>
    intro fuel i h hf
    match fuel, hf with
    | f + 1, hf2 =>
      rw [List.cons_append] at h
      have hb := byteAt_of_drop h
      have hlt := lt_length_of_drop h
      have hc := hds c (by simp)
      have hdrop := drop_succ_of_drop h
      have ihres := ih (fun d hd => hds d (by simp [hd])) f (i + 1) hdrop
        (by simp at hf2; omega)
      simp only [tonumLoopF, if_pos hlt, hb]
      rw [if_neg (by omega), if_pos (by omega), ihres]
      simp only [List.length_cons]
      omega

theorem tonum_at {num post : Str}
    (hne : num ≠ []) (hds : ∀ c ∈ num, 48 ≤ c ∧ c ≤ 57)
    (hpost : ∀ c r, post = c :: r → c = 44 ∨ c = 93 ∨ c = 125) :
    tonum (num ++ post) = (num, parseFloatQ num) := by
  match num, hne with
  | c :: cs, _ =>
    have hdrop : (c :: cs ++ post).drop 1 = cs ++ post := rfl
    have hrun : tonumLoop (c :: cs ++ post) 1 = 1 + cs.length := by
      apply tonumLoopF_walk (fun d hd => hds d (by simp [hd])) hpost _ _
        hdrop
      have := mid_length_le hdrop
      omega
    unfold tonum
    rw [hrun]
    have ht : (c :: cs ++ post).take (1 + cs.length) = c :: cs := by
      have e1 : (1 : Nat) + cs.length = (c :: cs).length := by
        simp only [List.length_cons]; omega
      rw [e1]
      exact List.take_left _ _
    rw [ht]

theorem tolitLoopF_walk {json : Str} {ds post : Str}
    (hds : ∀ c ∈ ds, 98 ≤ c ∧ c ≤ 121)
    (hpost : ∀ c r, post = c :: r → c ≤ 97 ∨ 122 ≤ c) :
    ∀ fuel i, json.drop i = ds ++ post → ds.length < fuel →
      tolitLoopF json fuel i = i + ds.length := by
  induction ds with
  | nil =>
    intro fuel i h hf
    match fuel, hf with
    | f + 1, hf2 =>
      simp only [List.nil_append] at h
      match post, h with
      | [], h =>
        have hge := drop_ge_length h
        simp [tolitLoopF, Nat.not_lt.mpr hge]
      | c :: r, h =>
        have hb := byteAt_of_drop h
        have hlt := lt_length_of_drop h
        have hstop := hpost c r rfl
        simp only [tolitLoopF, if_pos hlt, hb]
        rw [if_pos (by omega)]
        simp
  | cons c ds' ih =>
    intro fuel i h hf
    match fuel, hf with
    | f + 1, hf2 =>
      rw [List.cons_append] at h
      have hb := byteAt_of_drop h
      have hlt := lt_length_of_drop h
      have hc := hds c (by simp)
      have hdrop := drop_succ_of_drop h
      have ihres := ih (fun d hd => hds d (by simp [hd])) f (i + 1) hdrop
        (by simp at hf2; omega)
      simp only [tolitLoopF, if_pos hlt, hb]
      rw [if_neg (by omega), ihres]
      simp only [List.length_cons]
      omega

theorem tolit_at {c0 : Nat} {run post : Str}
    (hds : ∀ c ∈ run, 98 ≤ c ∧ c ≤ 121)
    (hpost : ∀ c r, post = c :: r → c ≤ 97 ∨ 122 ≤ c) :
    tolit (c0 :: run ++ post) = c0 :: run := by
  have hdrop : (c0 :: run ++ post).drop 1 = run ++ post := rfl
  have hrun : tolitLoop (c0 :: run ++ post) 1 = 1 + run.length := by
    apply tolitLoopF_walk hds hpost _ _ hdrop
    have := mid_length_le hdrop
    omega
  unfold tolit
  rw [hrun]
  have e1 : (1 : Nat) + run.length = (c0 :: run).length := by
    simp only [List.length_cons]; omega
  rw [e1]
  exact List.take_left _ _

theorem tostrLoopF_walk {json : Str} {s post : Str}
    (hs : ∀ c ∈ s, c ≠ 34 ∧ c ≠ 92) :
    ∀ fuel i, json.drop i = s ++ 34 :: post → s.length < fuel →
      tostrLoopF json fuel i =
        (json.take (i + s.length + 1), slice json 1 (i + s.length)) := by
  induction s with
  | nil =>
    intro fuel i h hf
    match fuel, hf with
    | f + 1, hf2 =>
      have hb := byteAt_of_drop h
      have hlt := lt_length_of_drop h
      simp [tostrLoopF, hb, hlt]
  | cons c s' ih =>
    intro fuel i h hf
    match fuel, hf with
    | f + 1, hf2 =>
      rw [List.cons_append] at h
      have hb := byteAt_of_drop h
      have hlt := lt_length_of_drop h
      have hc := hs c (by simp)
      have hdrop := drop_succ_of_drop h
      have ihres := ih (fun d hd => hs d (by simp [hd])) f (i + 1) hdrop
        (by simp at hf2; omega)
      have e1 : i + 1 + s'.length = i + (c :: s').length := by
        simp only [List.length_cons]; omega
      simp only [tostrLoopF, if_pos hlt, hb]
      by_cases hgt : c > 92
      · rw [if_pos hgt, ihres, e1]
      · rw [if_neg hgt, if_neg hc.1, if_neg hc.2, ihres, e1]

theorem tostr_at {s post : Str} (hs : ∀ c ∈ s, c ≠ 34 ∧ c ≠ 92) :
    tostr (34 :: s ++ 34 :: post) = (34 :: s ++ [34], s) := by
  have hdrop : (34 :: s ++ 34 :: post).drop 1 = s ++ 34 :: post := rfl
  have hw := tostrLoopF_walk hs ((34 :: s ++ 34 :: post).length + 1) 1
    hdrop (by have := mid_length_le hdrop; omega)
  unfold tostr
  rw [hw]
  have h1 : (34 :: s ++ 34 :: post).take (1 + s.length + 1) =
      34 :: s ++ [34] := by
    have hassoc : 34 :: s ++ 34 :: post = (34 :: s ++ [34]) ++ post := by
      simp
    rw [hassoc]
    apply List.take_left'
    simp only [List.length_cons, List.length_append, List.length_nil]
    omega
  have h2 : slice (34 :: s ++ 34 :: post) 1 (1 + s.length) = s :=
    slice_of_drop hdrop
  rw [h1, h2]

end GJson

namespace GJson

theorem kscan_at_quote {json : Str} {i : Nat} {rest : Str}
    (h : json.drop i = 34 :: rest) : kscan json i = KScan.quote i := by
  have hb := byteAt_of_drop h
  have hlt := lt_length_of_drop h
  simp [kscan, kscanF, hb, hlt]

theorem kscan_at_close {json : Str} {i : Nat} {rest : Str}
    (h : json.drop i = 125 :: rest) : kscan json i = KScan.close i := by
  have hb := byteAt_of_drop h
  have hlt := lt_length_of_drop h
  simp [kscan, kscanF, hb, hlt]

theorem kscan_comma_quote {json : Str} {i : Nat} {rest : Str}
    (h : json.drop i = 44 :: 34 :: rest) :
    kscan json i = KScan.quote (i + 1) := by
  have hb := byteAt_of_drop h
  have hlt := lt_length_of_drop h
  have hdrop := drop_succ_of_drop h
  have hb2 := byteAt_of_drop hdrop
  have hlt2 := lt_length_of_drop hdrop
  unfold kscan
  have hlen : json.length + 1 = (json.length - 1) + 1 + 1 := by omega
  rw [hlen]
  simp [kscanF, hb, hlt, hb2, hlt2]

theorem getStartF_none {json : Str}
    (hall : ∀ c ∈ json, c ≠ 123 ∧ c ≠ 91) :
    ∀ fuel i, getStartF json fuel i = none := by
  intro fuel
  induction fuel with
  | zero => intro i; rfl
  | succ f ih =>
    intro i
    by_cases hlt : i < json.length
    · have hmem := byteAt_mem hlt
      have hc := hall _ hmem
      simp [getStartF, hlt, hc.1, hc.2, ih]
    · simp [getStartF, hlt]

/-- `Get` on a document with no object or array opener is the zero
result, whatever the path. -/
theorem GetE_no_opener {json path : Str}
    (hall : ∀ c ∈ json, c ≠ 123 ∧ c ≠ 91) : GetE json path = {} := by
  unfold GetE
  generalize (json.length + path.length + 4) *
    (json.length + path.length + 4) *
    (json.length + path.length + 4) = fuel
  match fuel with
  | 0 => rfl
  | f + 1 =>
    have hg : getStart json 0 = none := getStartF_none hall _ _
    simp [getF, hg]

theorem getStart_at_obj {json : Str} {rest : Str}
    (h : json.drop 0 = 123 :: rest) : getStart json 0 = some (0, true) := by
  have hb := byteAt_of_drop h
  have hlt := lt_length_of_drop h
  simp [getStart, getStartF, hb, hlt]

end GJson

namespace GJson

theorem byteAt_append_left {mid post : Str} {j : Nat}
    (hj : j < mid.length) : byteAt (mid ++ post) j = byteAt mid j := by
  simp [byteAt, List.getD, List.getElem?_append_left hj]

theorem byteAt_of_drop_mid {s : Str} {i : Nat} {mid post : Str}
    (h : s.drop i = mid ++ post) {j : Nat} (hj : j < mid.length) :
    byteAt s (i + j) = byteAt mid j := by
  have h1 : s.drop (i + j) = (s.drop i).drop j := by
    rw [List.drop_drop]
  rw [byteAt_drop_zero s (i + j), h1, h, ← byteAt_drop_zero (mid ++ post) j,
    byteAt_append_left hj]

theorem escScan_str {json : Str} {q lo : Nat} {s post : Str}
    (hs : ∀ c ∈ s, c ≠ 34 ∧ c ≠ 92)
    (h : json.drop q = 34 :: (s ++ 34 :: post)) :
    escScan json lo (q + 1) = q + 1 + s.length := by
  have hdrop := drop_succ_of_drop h
  apply escScan_walk hs hdrop
  match s, hs with
  | [], _ =>
    have hb := byteAt_of_drop h
    simp only [List.length_nil, Nat.add_zero, Nat.add_sub_cancel, hb]
    omega
  | c :: s2, hs2 =>
    have hlast : byteAt json (q + 1 + ((c :: s2).length - 1)) =
        byteAt (c :: s2) ((c :: s2).length - 1) :=
      byteAt_of_drop_mid hdrop (by simp)
    have hmem : byteAt (c :: s2) ((c :: s2).length - 1) ∈ c :: s2 :=
      byteAt_mem (by simp)
    have hne := (hs2 _ hmem).2
    have e1 : q + 1 + (c :: s2).length - 1 =
        q + 1 + ((c :: s2).length - 1) := by
      simp only [List.length_cons]; omega
    rw [e1, hlast]
    exact hne

end GJson

namespace GJson

/-! ## Family byte facts -/

theorem strWf_bytes {s : Str} (h : strWf s = true) :
    ∀ c ∈ s, 32 ≤ c ∧ c ≠ 34 ∧ c ≠ 92 := by
  intro c hc
  have := (List.all_eq_true.mp h) c hc
  simp only [decide_eq_true_eq] at this
  exact ⟨this.1, this.2.1, this.2.2.1⟩

theorem strWf_noquote {s : Str} (h : strWf s = true) :
    ∀ c ∈ s, c ≠ 34 ∧ c ≠ 92 := by
  intro c hc
  exact (strWf_bytes h c hc).2

theorem keyWf_bytes {k : Str} (h : keyWf k = true) :
    ∀ c ∈ k, 97 ≤ c ∧ c ≤ 122 := by
  intro c hc
  have h2 := (of_decide_eq_true h).2
  have := (List.all_eq_true.mp h2) c hc
  simpa using this

theorem keyWf_ne_nil {k : Str} (h : keyWf k = true) : k ≠ [] :=
  (of_decide_eq_true h).1

theorem keyWf_noquote {k : Str} (h : keyWf k = true) :
    ∀ c ∈ k, c ≠ 34 ∧ c ≠ 92 := by
  intro c hc
  have := keyWf_bytes h c hc
  omega

theorem natDecimalAux_digits :
    ∀ fuel m, ∀ c ∈ natDecimalAux fuel m, 48 ≤ c ∧ c ≤ 57 := by
  intro fuel
  induction fuel with
  | zero => intro m c hc; simp [natDecimalAux] at hc
  | succ f ih =>
    intro m c hc
    by_cases hm : m < 10
    · simp [natDecimalAux, hm] at hc
      omega
    · simp only [natDecimalAux, if_neg hm, List.mem_append,
        List.mem_singleton] at hc
      rcases hc with hc | hc
      · exact ih _ c hc
      · subst hc
        have := Nat.mod_lt m (show 0 < 10 by omega)
        omega

theorem natDecimal_digits (m : Nat) :
    ∀ c ∈ natDecimal m, 48 ≤ c ∧ c ≤ 57 :=
  natDecimalAux_digits 30 m

theorem natDecimalAux_ne_nil :
    ∀ fuel m, 0 < fuel → natDecimalAux fuel m ≠ [] := by
  intro fuel m hf
  match fuel, hf with
  | f + 1, _ =>
    by_cases hm : m < 10
    · simp [natDecimalAux, hm]
    · simp [natDecimalAux, hm]

theorem natDecimal_ne_nil (m : Nat) : natDecimal m ≠ [] :=
  natDecimalAux_ne_nil 30 m (by omega)

/-- Bytes skipped one-per-iteration by the squash loop: everything but
quotes and brackets. -/
theorem squashLoopF_run {json : Str} {run post : Str}
    (hrun : ∀ c ∈ run, c ≠ 34 ∧ c ≠ 123 ∧ c ≠ 91 ∧ c ≠ 125 ∧ c ≠ 93) :
    ∀ fuel i depth, json.drop i = run ++ post →
      squashLoopF json (fuel + run.length) i depth =
        squashLoopF json fuel (i + run.length) depth := by
  induction run with
  | nil => intro fuel i depth h; rfl
  | cons c run' ih =>
    intro fuel i depth h
    rw [List.cons_append] at h
    have hb := byteAt_of_drop h
    have hlt := lt_length_of_drop h
    have hc := hrun c (by simp)
    have hdrop := drop_succ_of_drop h
    have e1 : fuel + (c :: run').length = (fuel + run'.length) + 1 := by
      simp only [List.length_cons]; omega
    rw [e1]
    simp only [squashLoopF, if_pos hlt, hb]
    have ihres := ih (fun d hd => hrun d (by simp [hd])) fuel (i + 1)
      depth hdrop
    have e2 : i + 1 + run'.length = i + (c :: run').length := by
      simp only [List.length_cons]; omega
    by_cases hin : 34 ≤ c ∧ c ≤ 125
    · rw [if_pos hin, if_neg hc.1, if_neg (by omega),
        if_neg (by omega), ihres, e2]
    · rw [if_neg hin, ihres, e2]

end GJson

namespace GJson

/-! ## Squash-loop step lemmas -/

theorem squash_step_quote {json : Str} {i : Nat} {rest : Str}
    (h : json.drop i = 34 :: rest) (fuel depth : Nat) :
    squashLoopF json (fuel + 1) i depth =
      squashLoopF json fuel (max (i + 1) (escScan json i (i + 1) + 1))
        depth := by
  have hb := byteAt_of_drop h
  have hlt := lt_length_of_drop h
  rw [squashLoopF]
  simp only [hb]
  rw [if_pos hlt, if_pos (by omega), if_pos trivial]

theorem squash_step_open {json : Str} {i c : Nat} {rest : Str}
    (h : json.drop i = c :: rest) (hc : c = 123 ∨ c = 91)
    (fuel depth : Nat) :
    squashLoopF json (fuel + 1) i depth =
      squashLoopF json fuel (i + 1) (depth + 1) := by
  have hb := byteAt_of_drop h
  have hlt := lt_length_of_drop h
  rw [squashLoopF]
  simp only [hb]
  rw [if_pos hlt, if_pos (by omega), if_neg (by omega), if_pos hc]

theorem squash_step_close {json : Str} {i c : Nat} {rest : Str}
    (h : json.drop i = c :: rest) (hc : c = 125 ∨ c = 93)
    {depth : Nat} (hd : depth ≠ 1) (fuel : Nat) :
    squashLoopF json (fuel + 1) i depth =
      squashLoopF json fuel (i + 1) (depth - 1) := by
  have hb := byteAt_of_drop h
  have hlt := lt_length_of_drop h
  rw [squashLoopF]
  simp only [hb]
  rw [if_pos hlt, if_pos (by omega), if_neg (by omega),
    if_neg (by omega), if_pos hc, if_neg hd]

theorem squash_step_close_hit {json : Str} {i c : Nat} {rest : Str}
    (h : json.drop i = c :: rest) (hc : c = 125 ∨ c = 93) (fuel : Nat) :
    squashLoopF json (fuel + 1) i 1 = some i := by
  have hb := byteAt_of_drop h
  have hlt := lt_length_of_drop h
  rw [squashLoopF]
  simp only [hb]
  rw [if_pos hlt, if_pos (by omega), if_neg (by omega),
    if_neg (by omega), if_pos hc, if_pos trivial]

end GJson

namespace GJson

mutual

/-- The squash loop consumes a rendered value in exactly `sqV v`
iterations, leaving the depth unchanged. -/
theorem sq_consume_v (v : Jv) (hwf : jvWf v = true) (json : Str)
    (fuel i depth : Nat) (post : Str)
    (h : json.drop i = render v ++ post) (hd : 1 ≤ depth) :
    squashLoopF json (fuel + sqV v) i depth =
      squashLoopF json fuel (i + (render v).length) depth := by
  cases v with
  | jstr str =>
    simp only [jvWf] at hwf
    have hre : render (Jv.jstr str) ++ post =
        34 :: (str ++ 34 :: post) := by
      simp [render]
    rw [hre] at h
    have hesc := @escScan_str _ _ i _ _ (strWf_noquote hwf) h
    have e1 : fuel + sqV (Jv.jstr str) = fuel + 1 := by simp [sqV]
    rw [e1, squash_step_quote h, hesc]
    have e2 : max (i + 1) (i + 1 + str.length + 1) =
        i + (render (Jv.jstr str)).length := by
      simp [render]
      omega
    rw [e2]
  | jnum n =>
    have hrun := @squashLoopF_run json (natDecimal n) post
      (fun c hc => by have := natDecimal_digits n c hc; omega)
      fuel i depth (by simpa [render] using h)
    simpa [sqV, render] using hrun
  | jtrue =>
    have hrun := @squashLoopF_run json [116, 114, 117, 101] post
      (by decide)
      fuel i depth (by simpa [render] using h)
    simpa [sqV, render] using hrun
  | jfalse =>
    have hrun := @squashLoopF_run json [102, 97, 108, 115, 101] post
      (by decide)
      fuel i depth (by simpa [render] using h)
    simpa [sqV, render] using hrun
  | jnull =>
    have hrun := @squashLoopF_run json [110, 117, 108, 108] post
      (by decide)
      fuel i depth (by simpa [render] using h)
    simpa [sqV, render] using hrun
  | jobj ms =>
    simp only [jvWf] at hwf
    have hre : render (Jv.jobj ms) ++ post =
        123 :: (renderMs ms ++ 125 :: post) := by
      simp [render]
    rw [hre] at h
    have hdrop := drop_succ_of_drop h
    have e1 : fuel + sqV (Jv.jobj ms) = ((fuel + 1) + sqMs ms) + 1 := by
      simp [sqV]; omega
    rw [e1, squash_step_open h (Or.inl rfl)]
    rw [sq_consume_ms ms hwf json (fuel + 1) (i + 1) (depth + 1)
      (125 :: post) hdrop (by omega)]
    have hdrop2 := drop_add_of_drop hdrop
    rw [squash_step_close hdrop2 (Or.inl rfl) (by omega)]
    have e3 : i + 1 + (renderMs ms).length + 1 =
        i + (render (Jv.jobj ms)).length := by
      simp only [render, List.length_cons, List.length_append,
        List.length_nil]
      omega
    have e4 : depth + 1 - 1 = depth := by omega
    rw [e3, e4]
  | jarr es =>
    simp only [jvWf] at hwf
    have hre : render (Jv.jarr es) ++ post =
        91 :: (renderEs es ++ 93 :: post) := by
      simp [render]
    rw [hre] at h
    have hdrop := drop_succ_of_drop h
    have e1 : fuel + sqV (Jv.jarr es) = ((fuel + 1) + sqEs es) + 1 := by
      simp [sqV]; omega
    rw [e1, squash_step_open h (Or.inr rfl)]
    rw [sq_consume_es es hwf json (fuel + 1) (i + 1) (depth + 1)
      (93 :: post) hdrop (by omega)]
    have hdrop2 := drop_add_of_drop hdrop
    rw [squash_step_close hdrop2 (Or.inr rfl) (by omega)]
    have e3 : i + 1 + (renderEs es).length + 1 =
        i + (render (Jv.jarr es)).length := by
      simp only [render, List.length_cons, List.length_append,
        List.length_nil]
      omega
    have e4 : depth + 1 - 1 = depth := by omega
    rw [e3, e4]

/-- The squash loop consumes rendered members in exactly `sqMs ms`
iterations. -/
theorem sq_consume_ms (ms : Jms) (hwf : jmsWf ms = true) (json : Str)
    (fuel i depth : Nat) (post : Str)
    (h : json.drop i = renderMs ms ++ post) (hd : 1 ≤ depth) :
    squashLoopF json (fuel + sqMs ms) i depth =
      squashLoopF json fuel (i + (renderMs ms).length) depth := by
  cases ms with
  | mnil => simp [sqMs, renderMs]
  | mcons k v rest =>
    simp only [jmsWf, Bool.and_eq_true] at hwf
    obtain ⟨⟨hkwf, hvwf⟩, hrest⟩ := hwf
    cases rest with
    | mnil =>
      have hre : renderMs (Jms.mcons k v Jms.mnil) ++ post =
          34 :: (k ++ 34 :: (58 :: (render v ++ post))) := by
        simp [renderMs]
      rw [hre] at h
      have hesc := @escScan_str _ _ i _ _ (keyWf_noquote hkwf) h
      have e1 : fuel + sqMs (Jms.mcons k v Jms.mnil) =
          ((fuel + sqV v) + 1) + 1 := by
        simp [sqMs]; omega
      rw [e1, squash_step_quote h, hesc]
      have e2 : max (i + 1) (i + 1 + k.length + 1) = i + (k.length + 2) :=
        by omega
      rw [e2]
      have hdropc : json.drop (i + (k.length + 2)) =
          58 :: (render v ++ post) := by
        have h2 : json.drop i = (34 :: k ++ [34]) ++
            (58 :: (render v ++ post)) := by
          simpa using h
        have h3 := drop_add_of_drop h2
        simpa using h3
      have hcol := @squashLoopF_run json [58]
        (render v ++ post) (by decide)
        (fuel + sqV v) (i + (k.length + 2)) depth hdropc
      simp only [List.length_cons, List.length_nil] at hcol
      rw [hcol]
      have hdropv := drop_succ_of_drop hdropc
      rw [sq_consume_v v hvwf json fuel (i + (k.length + 2) + 1)
        depth post hdropv hd]
      congr 1
      simp [renderMs]
      omega
    | mcons k2 v2 rest2 =>
      have hre : renderMs (Jms.mcons k v (Jms.mcons k2 v2 rest2)) ++
          post = 34 :: (k ++ 34 :: (58 :: (render v ++
            (44 :: (renderMs (Jms.mcons k2 v2 rest2) ++ post))))) := by
        simp [renderMs]
      rw [hre] at h
      have hesc := @escScan_str _ _ i _ _ (keyWf_noquote hkwf) h
      have e1 : fuel + sqMs (Jms.mcons k v (Jms.mcons k2 v2 rest2)) =
          (((((fuel + sqMs (Jms.mcons k2 v2 rest2)) + 1) + sqV v) + 1) +
            1) := by
        simp [sqMs]; omega
      rw [e1, squash_step_quote h, hesc]
      have e2 : max (i + 1) (i + 1 + k.length + 1) = i + (k.length + 2) :=
        by omega
      rw [e2]
      have hdropc : json.drop (i + (k.length + 2)) =
          58 :: (render v ++ (44 :: (renderMs (Jms.mcons k2 v2 rest2) ++
            post))) := by
        have h2 : json.drop i = (34 :: k ++ [34]) ++
            (58 :: (render v ++ (44 :: (renderMs (Jms.mcons k2 v2 rest2)
              ++ post)))) := by
          simpa using h
        have h3 := drop_add_of_drop h2
        simpa using h3
      have hcol := @squashLoopF_run json [58]
        (render v ++ (44 :: (renderMs (Jms.mcons k2 v2 rest2) ++
          post))) (by decide)
        (((fuel + sqMs (Jms.mcons k2 v2 rest2)) + 1) + sqV v)
        (i + (k.length + 2)) depth hdropc
      simp only [List.length_cons, List.length_nil] at hcol
      rw [hcol]
      have hdropv := drop_succ_of_drop hdropc
      rw [sq_consume_v v hvwf json
        ((fuel + sqMs (Jms.mcons k2 v2 rest2)) + 1)
        (i + (k.length + 2) + 1) depth _ hdropv hd]
      have hdropcm := drop_add_of_drop hdropv
      have hcom := @squashLoopF_run json [44]
        (renderMs (Jms.mcons k2 v2 rest2) ++ post)
        (by decide)
        (fuel + sqMs (Jms.mcons k2 v2 rest2))
        (i + (k.length + 2) + 1 + (render v).length) depth hdropcm
      simp only [List.length_cons, List.length_nil] at hcom
      rw [hcom]
      have hdroprest := drop_succ_of_drop hdropcm
      rw [sq_consume_ms (Jms.mcons k2 v2 rest2)
        (by simpa [jmsWf] using hrest) json fuel
        (i + (k.length + 2) + 1 + (render v).length + 1) depth post
        hdroprest hd]
      congr 1
      simp [renderMs]
      omega

/-- The squash loop consumes rendered elements in exactly `sqEs es`
iterations. -/
theorem sq_consume_es (es : Jes) (hwf : jesWf es = true) (json : Str)
    (fuel i depth : Nat) (post : Str)
    (h : json.drop i = renderEs es ++ post) (hd : 1 ≤ depth) :
    squashLoopF json (fuel + sqEs es) i depth =
      squashLoopF json fuel (i + (renderEs es).length) depth := by
  cases es with
  | enil => simp [sqEs, renderEs]
  | econs v rest =>
    simp only [jesWf, Bool.and_eq_true] at hwf
    obtain ⟨hvwf, hrest⟩ := hwf
    cases rest with
    | enil =>
      have hre : renderEs (Jes.econs v Jes.enil) ++ post =
          render v ++ post := by
        simp [renderEs]
      rw [hre] at h
      have e1 : fuel + sqEs (Jes.econs v Jes.enil) = fuel + sqV v := by
        simp [sqEs]
      rw [e1, sq_consume_v v hvwf json fuel i depth post h hd]
      congr 1
      simp [renderEs]
    | econs v2 rest2 =>
      have hre : renderEs (Jes.econs v (Jes.econs v2 rest2)) ++ post =
          render v ++ (44 :: (renderEs (Jes.econs v2 rest2) ++ post)) :=
        by simp [renderEs]
      rw [hre] at h
      have e1 : fuel + sqEs (Jes.econs v (Jes.econs v2 rest2)) =
          ((fuel + sqEs (Jes.econs v2 rest2)) + 1) + sqV v := by
        simp [sqEs]; omega
      rw [e1, sq_consume_v v hvwf json _ i depth _ h hd]
      have hdropcm := drop_add_of_drop h
      have hcom := @squashLoopF_run json [44]
        (renderEs (Jes.econs v2 rest2) ++ post)
        (by decide)
        (fuel + sqEs (Jes.econs v2 rest2)) (i + (render v).length) depth
        hdropcm
      simp only [List.length_cons, List.length_nil] at hcom
      rw [hcom]
      have hdroprest := drop_succ_of_drop hdropcm
      rw [sq_consume_es (Jes.econs v2 rest2)
        (by simpa [jesWf] using hrest) json fuel
        (i + (render v).length + 1) depth post hdroprest hd]
      congr 1
      simp [renderEs]
      omega

end

end GJson

namespace GJson

mutual

/-- The squash step count never exceeds the rendered length. -/
theorem sqV_le (v : Jv) : sqV v ≤ (render v).length := by
  cases v with
  | jstr str => simp [sqV, render]
  | jnum n => simp [sqV, render]
  | jtrue => simp [sqV, render]
  | jfalse => simp [sqV, render]
  | jnull => simp [sqV, render]
  | jobj ms =>
    have := sqMs_le ms
    simp only [sqV, render, List.length_cons, List.length_append,
      List.length_nil]
    omega
  | jarr es =>
    have := sqEs_le es
    simp only [sqV, render, List.length_cons, List.length_append,
      List.length_nil]
    omega

theorem sqMs_le (ms : Jms) : sqMs ms ≤ (renderMs ms).length := by
  cases ms with
  | mnil => simp [sqMs, renderMs]
  | mcons k v rest =>
    have hv := sqV_le v
    cases rest with
    | mnil =>
      simp only [sqMs, renderMs, List.length_cons, List.length_append,
        List.length_nil]
      omega
    | mcons k2 v2 rest2 =>
      have hr := sqMs_le (Jms.mcons k2 v2 rest2)
      simp only [sqMs, renderMs, List.length_cons, List.length_append,
        List.length_nil] at hr ⊢
      omega

theorem sqEs_le (es : Jes) : sqEs es ≤ (renderEs es).length := by
  cases es with
  | enil => simp [sqEs, renderEs]
  | econs v rest =>
    have hv := sqV_le v
    cases rest with
    | enil =>
      simp only [sqEs, renderEs, List.length_append, List.length_nil]
      omega
    | econs v2 rest2 =>
      have hr := sqEs_le (Jes.econs v2 rest2)
      simp only [sqEs, renderEs, List.length_cons, List.length_append,
        List.length_nil] at hr ⊢
      omega

end

/-- `parseSquash` at a rendered object: consumes it exactly. -/
theorem parseSquash_obj {json : Str} {i : Nat} {ms : Jms} {post : Str}
    (hwf : jmsWf ms = true)
    (h : json.drop i = render (Jv.jobj ms) ++ post) :
    parseSquash json i =
      (i + (render (Jv.jobj ms)).length, render (Jv.jobj ms)) := by
  have hre : render (Jv.jobj ms) ++ post =
      123 :: (renderMs ms ++ 125 :: post) := by
    simp [render]
  rw [hre] at h
  have hdrop := drop_succ_of_drop h
  have hlt := lt_length_of_drop h
  have hbound : sqMs ms ≤ json.length := by
    have h1 := sqMs_le ms
    have h2 := mid_length_le hdrop
    omega
  have hsq : squashLoop json (i + 1) 1 =
      some (i + 1 + (renderMs ms).length) := by
    unfold squashLoop
    have e1 : json.length + 1 =
        ((json.length - sqMs ms) + sqMs ms) + 1 := by omega
    rw [e1]
    have e2 : (json.length - sqMs ms) + sqMs ms + 1 =
        ((json.length - sqMs ms) + 1) + sqMs ms := by omega
    rw [e2, sq_consume_ms ms hwf json _ (i + 1) 1 (125 :: post) hdrop
      (by omega)]
    have hdrop2 := drop_add_of_drop hdrop
    exact squash_step_close_hit hdrop2 (Or.inl rfl) _
  unfold parseSquash
  rw [hsq]
  have h2 : json.drop i = (render (Jv.jobj ms)) ++ post := by
    rw [hre]; exact h
  have hsl := slice_of_drop h2
  have e3 : i + 1 + (renderMs ms).length + 1 =
      i + (render (Jv.jobj ms)).length := by
    simp only [render, List.length_cons, List.length_append,
      List.length_nil]
    omega
  show (i + 1 + (renderMs ms).length + 1,
    slice json i (i + 1 + (renderMs ms).length + 1)) = _
  rw [e3, hsl]

/-- `parseSquash` at a rendered array: consumes it exactly. -/
theorem parseSquash_arr {json : Str} {i : Nat} {es : Jes} {post : Str}
    (hwf : jesWf es = true)
    (h : json.drop i = render (Jv.jarr es) ++ post) :
    parseSquash json i =
      (i + (render (Jv.jarr es)).length, render (Jv.jarr es)) := by
  have hre : render (Jv.jarr es) ++ post =
      91 :: (renderEs es ++ 93 :: post) := by
    simp [render]
  rw [hre] at h
  have hdrop := drop_succ_of_drop h
  have hlt := lt_length_of_drop h
  have hbound : sqEs es ≤ json.length := by
    have h1 := sqEs_le es
    have h2 := mid_length_le hdrop
    omega
  have hsq : squashLoop json (i + 1) 1 =
      some (i + 1 + (renderEs es).length) := by
    unfold squashLoop
    have e1 : json.length + 1 =
        ((json.length - sqEs es) + sqEs es) + 1 := by omega
    rw [e1]
    have e2 : (json.length - sqEs es) + sqEs es + 1 =
        ((json.length - sqEs es) + 1) + sqEs es := by omega
    rw [e2, sq_consume_es es hwf json _ (i + 1) 1 (93 :: post) hdrop
      (by omega)]
    have hdrop2 := drop_add_of_drop hdrop
    exact squash_step_close_hit hdrop2 (Or.inr rfl) _
  unfold parseSquash
  rw [hsq]
  have h2 : json.drop i = (render (Jv.jarr es)) ++ post := by
    rw [hre]; exact h
  have hsl := slice_of_drop h2
  have e3 : i + 1 + (renderEs es).length + 1 =
      i + (render (Jv.jarr es)).length := by
    simp only [render, List.length_cons, List.length_append,
      List.length_nil]
    omega
  show (i + 1 + (renderEs es).length + 1,
    slice json i (i + 1 + (renderEs es).length + 1)) = _
  rw [e3, hsl]

end GJson

namespace GJson

/-- The inner squash walk, resting on the closing bracket. -/
theorem squashLoop_obj {json : Str} {i : Nat} {ms : Jms} {post : Str}
    (hwf : jmsWf ms = true)
    (h : json.drop i = render (Jv.jobj ms) ++ post) :
    squashLoop json (i + 1) 1 =
      some (i + 1 + (renderMs ms).length) := by
  have hre : render (Jv.jobj ms) ++ post =
      123 :: (renderMs ms ++ 125 :: post) := by
    simp [render]
  rw [hre] at h
  have hdrop := drop_succ_of_drop h
  have hbound : sqMs ms ≤ json.length := by
    have h1 := sqMs_le ms
    have h2 := mid_length_le hdrop
    omega
  unfold squashLoop
  have e1 : json.length + 1 =
      (((json.length - sqMs ms) + 1) + sqMs ms) := by omega
  rw [e1, sq_consume_ms ms hwf json _ (i + 1) 1 (125 :: post) hdrop
    (by omega)]
  have hdrop2 := drop_add_of_drop hdrop
  exact squash_step_close_hit hdrop2 (Or.inl rfl) _

theorem squashLoop_arr {json : Str} {i : Nat} {es : Jes} {post : Str}
    (hwf : jesWf es = true)
    (h : json.drop i = render (Jv.jarr es) ++ post) :
    squashLoop json (i + 1) 1 =
      some (i + 1 + (renderEs es).length) := by
  have hre : render (Jv.jarr es) ++ post =
      91 :: (renderEs es ++ 93 :: post) := by
    simp [render]
  rw [hre] at h
  have hdrop := drop_succ_of_drop h
  have hbound : sqEs es ≤ json.length := by
    have h1 := sqEs_le es
    have h2 := mid_length_le hdrop
    omega
  unfold squashLoop
  have e1 : json.length + 1 =
      (((json.length - sqEs es) + 1) + sqEs es) := by omega
  rw [e1, sq_consume_es es hwf json _ (i + 1) 1 (93 :: post) hdrop
    (by omega)]
  have hdrop2 := drop_add_of_drop hdrop
  exact squash_step_close_hit hdrop2 (Or.inr rfl) _

/-- `squash` of a suffix beginning with a rendered object. -/
theorem squash_obj_at {ms : Jms} {post : Str} (hwf : jmsWf ms = true) :
    squash (render (Jv.jobj ms) ++ post) = render (Jv.jobj ms) := by
  have h : (render (Jv.jobj ms) ++ post).drop 0 =
      render (Jv.jobj ms) ++ post := rfl
  have hsq := squashLoop_obj hwf h
  unfold squash
  rw [show (0 : Nat) + 1 = 1 from rfl] at hsq
  rw [hsq]
  have e1 : 0 + 1 + (renderMs ms).length + 1 =
      (render (Jv.jobj ms)).length := by
    simp only [render, List.length_cons, List.length_append,
      List.length_nil]
    omega
  show (render (Jv.jobj ms) ++ post).take
    (0 + 1 + (renderMs ms).length + 1) = _
  rw [e1, List.take_left]

/-- `squash` of a suffix beginning with a rendered array. -/
theorem squash_arr_at {es : Jes} {post : Str} (hwf : jesWf es = true) :
    squash (render (Jv.jarr es) ++ post) = render (Jv.jarr es) := by
  have h : (render (Jv.jarr es) ++ post).drop 0 =
      render (Jv.jarr es) ++ post := rfl
  have hsq := squashLoop_arr hwf h
  unfold squash
  rw [show (0 : Nat) + 1 = 1 from rfl] at hsq
  rw [hsq]
  have e1 : 0 + 1 + (renderEs es).length + 1 =
      (render (Jv.jarr es)).length := by
    simp only [render, List.length_cons, List.length_append,
      List.length_nil]
    omega
  show (render (Jv.jarr es) ++ post).take
    (0 + 1 + (renderEs es).length + 1) = _
  rw [e1, List.take_left]

end GJson

namespace GJson

/-! ## parseObject / parseArray step lemmas -/

/-- The value loop of `parseObject` steps over a byte that starts no
token (the colon after a key). -/
theorem poValLoop_colon {json : Str} {i : Nat} {rest : Str}
    (h : json.drop i = 58 :: rest) (fuel : Nat) (v : ResultT)
    (calcd : Bool) (rp : ObjectPathResult) (pm hit : Bool) :
    poValLoop (fuel + 1) json v calcd i rp pm hit =
      poValLoop fuel json v calcd (i + 1) rp pm hit := by
  have hb := byteAt_of_drop h
  have hlt := lt_length_of_drop h
  rw [poValLoop]
  simp only [hb]
  rw [if_pos hlt, if_neg (by omega), if_neg (by omega),
    if_neg (by omega), if_neg (by omega), if_neg (by omega)]

end GJson

namespace GJson

theorem natDecimal_head (n : Nat) :
    ∃ c cs, natDecimal n = c :: cs ∧ 48 ≤ c ∧ c ≤ 57 := by
  cases hnd : natDecimal n with
  | nil => exact absurd hnd (natDecimal_ne_nil n)
  | cons c cs =>
    have hc := natDecimal_digits n c (by rw [hnd]; simp)
    exact ⟨c, cs, rfl, hc⟩

/-- The value loop of `parseObject` passes over a non-matching member's
rendered value (`pmatch` and `hit` both false), leaving the threaded
state untouched. -/
theorem poValLoop_value_skip (w : Jv) (hwf : jvWf w = true) {json : Str}
    {i : Nat} {post : Str}
    (h : json.drop i = render w ++ post)
    (hpost : ∀ c r, post = c :: r → c = 44 ∨ c = 93 ∨ c = 125)
    (fuel : Nat) (v : ResultT) (calcd : Bool) (rp : ObjectPathResult) :
    poValLoop (fuel + 1) json v calcd i rp false false =
      (v, calcd, i + (render w).length, POStep.cont) := by
  cases w with
  | jstr str =>
    simp only [jvWf] at hwf
    have hre : render (Jv.jstr str) ++ post =
        34 :: (str ++ 34 :: post) := by
      simp [render]
    rw [hre] at h
    have hb := byteAt_of_drop h
    have hlt := lt_length_of_drop h
    have hps := parseString_at (strWf_noquote hwf) h
    have e1 : i + str.length + 2 = i + (render (Jv.jstr str)).length := by
      simp only [render, List.length_cons, List.length_append,
        List.length_nil]
      omega
    rw [poValLoop]
    simp only [hb]
    rw [if_pos hlt, if_pos trivial, hps]
    simp [e1]
  | jnum n =>
    obtain ⟨c, cs, hsplit, hc1, hc2⟩ := natDecimal_head n
    have hdig := natDecimal_digits n
    have h2 : json.drop i = natDecimal n ++ post := by
      simpa [render] using h
    have hre : render (Jv.jnum n) ++ post = c :: (cs ++ post) := by
      simp [render, hsplit]
    rw [hre] at h
    have hb := byteAt_of_drop h
    have hlt := lt_length_of_drop h
    have hpn := parseNumber_at (natDecimal_ne_nil n) hdig
      (fun c r hcr => by
        have := hpost c r hcr
        omega) h2
    rw [poValLoop]
    simp only [hb]
    rw [if_pos hlt, if_neg (by omega), if_neg (by omega),
      if_neg (by omega), if_pos (by omega), hpn]
    simp [render]
  | jtrue =>
    have hre : render Jv.jtrue ++ post =
        116 :: ([114, 117, 101] ++ post) := by
      simp [render]
    rw [hre] at h
    have hb := byteAt_of_drop h
    have hlt := lt_length_of_drop h
    have hpl := parseLiteral_at (by decide)
      (fun c r hcr => by
        have := hpost c r hcr
        omega) h
    rw [poValLoop]
    simp [hb, hlt, hpl, render]
  | jfalse =>
    have hre : render Jv.jfalse ++ post =
        102 :: ([97, 108, 115, 101] ++ post) := by
      simp [render]
    rw [hre] at h
    have hb := byteAt_of_drop h
    have hlt := lt_length_of_drop h
    have hpl := parseLiteral_at (by decide)
      (fun c r hcr => by
        have := hpost c r hcr
        omega) h
    rw [poValLoop]
    simp [hb, hlt, hpl, render]
  | jnull =>
    have hre : render Jv.jnull ++ post =
        110 :: ([117, 108, 108] ++ post) := by
      simp [render]
    rw [hre] at h
    have hb := byteAt_of_drop h
    have hlt := lt_length_of_drop h
    have hpl := parseLiteral_at (by decide)
      (fun c r hcr => by
        have := hpost c r hcr
        omega) h
    rw [poValLoop]
    simp [hb, hlt, hpl, render]
  | jobj ms =>
    simp only [jvWf] at hwf
    have hb : byteAt json i = 123 := by
      have hre : render (Jv.jobj ms) ++ post =
          123 :: (renderMs ms ++ 125 :: post) := by
        simp [render]
      rw [hre] at h
      exact byteAt_of_drop h
    have hlt : i < json.length := by
      have hre : render (Jv.jobj ms) ++ post =
          123 :: (renderMs ms ++ 125 :: post) := by
        simp [render]
      rw [hre] at h
      exact lt_length_of_drop h
    have hsq := parseSquash_obj hwf h
    rw [poValLoop]
    simp [hb, hlt, hsq]
  | jarr es =>
    simp only [jvWf] at hwf
    have hb : byteAt json i = 91 := by
      have hre : render (Jv.jarr es) ++ post =
          91 :: (renderEs es ++ 93 :: post) := by
        simp [render]
      rw [hre] at h
      exact byteAt_of_drop h
    have hlt : i < json.length := by
      have hre : render (Jv.jarr es) ++ post =
          91 :: (renderEs es ++ 93 :: post) := by
        simp [render]
      rw [hre] at h
      exact lt_length_of_drop h
    have hsq := parseSquash_arr hwf h
    rw [poValLoop]
    simp [hb, hlt, hsq]

end GJson

namespace GJson

theorem slice_inner_str (s post : Str) :
    slice (34 :: s ++ [34] ++ post) 1 (s.length + 1) = s := by
  unfold slice
  have h1 : (34 :: s ++ [34] ++ post).take (s.length + 1) =
      34 :: s.take s.length := by
    simp [List.take_succ_cons]
  rw [h1]
  simp

/-- The value loop of `parseObject` at the matched member's rendered
value (`pmatch` and `hit` both true): assigns the fields exactly as
`applyGet` describes and returns. -/
theorem poValLoop_value_hit (w : Jv) (hwf : jvWf w = true) {json : Str}
    {i : Nat} {post : Str}
    (h : json.drop i = render w ++ post)
    (hpost : ∀ c r, post = c :: r → c = 44 ∨ c = 93 ∨ c = 125)
    (fuel : Nat) (v : ResultT) (calcd : Bool) (rp : ObjectPathResult) :
    poValLoop (fuel + 1) json v calcd i rp true true =
      (applyGet v w, calcd, i + (render w).length, POStep.ret true) := by
  cases w with
  | jstr str =>
    simp only [jvWf] at hwf
    have hre : render (Jv.jstr str) ++ post =
        34 :: (str ++ 34 :: post) := by
      simp [render]
    rw [hre] at h
    have hb := byteAt_of_drop h
    have hlt := lt_length_of_drop h
    have hps := parseString_at (strWf_noquote hwf) h
    have hsl : slice (34 :: (str ++ [34])) 1 (str.length + 1) = str := by
      have h3 := slice_inner_str str []
      simpa using h3
    rw [poValLoop]
    simp [hb, hlt, hps, setStrVal, applyGet, render, hsl]
    omega
  | jnum n =>
    obtain ⟨c, cs, hsplit, hc1, hc2⟩ := natDecimal_head n
    have hdig := natDecimal_digits n
    have h2 : json.drop i = natDecimal n ++ post := by
      simpa [render] using h
    have hre : render (Jv.jnum n) ++ post = c :: (cs ++ post) := by
      simp [render, hsplit]
    rw [hre] at h
    have hb := byteAt_of_drop h
    have hlt := lt_length_of_drop h
    have hpn := parseNumber_at (natDecimal_ne_nil n) hdig
      (fun c r hcr => by
        have := hpost c r hcr
        omega) h2
    rw [poValLoop]
    simp only [hb]
    rw [if_pos hlt, if_neg (by omega), if_neg (by omega),
      if_neg (by omega), if_pos (by omega), hpn]
    simp [render, applyGet]
  | jtrue =>
    have hre : render Jv.jtrue ++ post =
        116 :: ([114, 117, 101] ++ post) := by
      simp [render]
    rw [hre] at h
    have hb := byteAt_of_drop h
    have hlt := lt_length_of_drop h
    have hpl := parseLiteral_at (by decide)
      (fun c r hcr => by
        have := hpost c r hcr
        omega) h
    rw [poValLoop]
    simp [hb, hlt, hpl, render, applyGet]
  | jfalse =>
    have hre : render Jv.jfalse ++ post =
        102 :: ([97, 108, 115, 101] ++ post) := by
      simp [render]
    rw [hre] at h
    have hb := byteAt_of_drop h
    have hlt := lt_length_of_drop h
    have hpl := parseLiteral_at (by decide)
      (fun c r hcr => by
        have := hpost c r hcr
        omega) h
    rw [poValLoop]
    simp [hb, hlt, hpl, render, applyGet]
  | jnull =>
    have hre : render Jv.jnull ++ post =
        110 :: ([117, 108, 108] ++ post) := by
      simp [render]
    rw [hre] at h
    have hb := byteAt_of_drop h
    have hlt := lt_length_of_drop h
    have hpl := parseLiteral_at (by decide)
      (fun c r hcr => by
        have := hpost c r hcr
        omega) h
    rw [poValLoop]
    simp [hb, hlt, hpl, render, applyGet]
  | jobj ms =>
    simp only [jvWf] at hwf
    have hre : render (Jv.jobj ms) ++ post =
        123 :: (renderMs ms ++ 125 :: post) := by
      simp [render]
    have hb : byteAt json i = 123 := by
      rw [hre] at h
      exact byteAt_of_drop h
    have hlt : i < json.length := by
      rw [hre] at h
      exact lt_length_of_drop h
    have hsq := parseSquash_obj hwf h
    rw [poValLoop]
    simp [hb, hlt, hsq, applyGet]
  | jarr es =>
    simp only [jvWf] at hwf
    have hre : render (Jv.jarr es) ++ post =
        91 :: (renderEs es ++ 93 :: post) := by
      simp [render]
    have hb : byteAt json i = 91 := by
      rw [hre] at h
      exact byteAt_of_drop h
    have hlt : i < json.length := by
      rw [hre] at h
      exact lt_length_of_drop h
    have hsq := parseSquash_arr hwf h
    rw [poValLoop]
    simp [hb, hlt, hsq, applyGet]

end GJson

namespace GJson

theorem kscan_comma_close {json : Str} {i : Nat} {rest : Str}
    (h : json.drop i = 44 :: 125 :: rest) :
    kscan json i = KScan.close (i + 1) := by
  have hb := byteAt_of_drop h
  have hlt := lt_length_of_drop h
  have hdrop := drop_succ_of_drop h
  have hb2 := byteAt_of_drop hdrop
  have hlt2 := lt_length_of_drop hdrop
  unfold kscan
  have hlen : json.length + 1 = (json.length - 1) + 1 + 1 := by omega
  rw [hlen]
  simp [kscanF, hb, hlt, hb2, hlt2]

/-- The key loop of `parseObject` over rendered members with a plain
one-segment path: a hit returns the first occurrence's value through
`applyGet`; no hit falls off the closing brace. -/
theorem poLoop_walk_c8 (ms : Jms) (hwf : jmsWf ms = true) {k : Str}
    (hk : keyWf k = true) {json : Str} :
    ∀ fuel i (lead : Bool) (v : ResultT) (calcd : Bool) (post : Str),
      json.drop i = (cond lead [44] []) ++ (renderMs ms ++ 125 :: post) →
      2 * msCount ms + 3 ≤ fuel →
      (match firstVal ms k with
        | some w => ∃ j, poLoop fuel json v calcd i { part := k } =
            (applyGet v w, calcd, j, true)
        | none => poLoop fuel json v calcd i { part := k } =
            (v, calcd, i + (cond lead 1 0) + (renderMs ms).length + 1,
              false)) := by
  cases ms with
  | mnil =>
    intro fuel i lead v calcd post h hfuel
    obtain ⟨f, rfl⟩ : ∃ f, fuel = f + 1 := ⟨fuel - 1, by omega⟩
    simp only [firstVal]
    cases lead with
    | false =>
      simp only [cond, renderMs, List.nil_append] at h
      have hlt := lt_length_of_drop h
      rw [poLoop, if_pos hlt, kscan_at_close h]
      simp [renderMs]
    | true =>
      simp only [cond, renderMs, List.nil_append, List.cons_append] at h
      have hlt := lt_length_of_drop h
      rw [poLoop, if_pos hlt, kscan_comma_close h]
      simp [renderMs]
  | mcons k2 w rest =>
    intro fuel i lead v calcd post h hfuel
    simp only [jmsWf, Bool.and_eq_true] at hwf
    obtain ⟨⟨hk2wf, hwwf⟩, hrest⟩ := hwf
    obtain ⟨f, rfl⟩ : ∃ f, fuel = f + 1 := ⟨fuel - 1, by omega⟩
    obtain ⟨f2, rfl⟩ : ∃ f2, f = f2 + 1 := ⟨f - 1, by omega⟩
    obtain ⟨f3, rfl⟩ : ∃ f3, f2 = f3 + 1 := ⟨f2 - 1, by omega⟩
    have hsep : ∃ sep : Str,
        (renderMs (Jms.mcons k2 w rest) ++ 125 :: post) =
          (34 :: k2 ++ [34]) ++ 58 :: (render w ++ (sep ++ 125 :: post)) ∧
        ((rest = Jms.mnil ∧ sep = []) ∨
          (rest ≠ Jms.mnil ∧ sep = 44 :: renderMs rest)) := by
      cases rest with
      | mnil =>
        refine ⟨[], by simp [renderMs], Or.inl ⟨rfl, rfl⟩⟩
      | mcons k3 v3 r3 =>
        refine ⟨44 :: renderMs (Jms.mcons k3 v3 r3), by simp [renderMs],
          Or.inr ⟨by intro hcon; exact Jms.noConfusion hcon, rfl⟩⟩
    obtain ⟨sep, hre, hsepcase⟩ := hsep
    rw [hre] at h
    have hq : json.drop (i + (cond lead 1 0)) =
        34 :: (k2 ++ 34 :: (58 :: (render w ++ (sep ++ 125 :: post)))) := by
      cases lead with
      | false => simpa using h
      | true =>
        simp only [cond] at h ⊢
        have h2 := drop_succ_of_drop h
        simpa using h2
    have hlt : i < json.length := by
      cases lead <;> simpa using lt_length_of_drop h
    have hkscan : kscan json i = KScan.quote (i + (cond lead 1 0)) := by
      cases lead with
      | false =>
        simp only [cond, Nat.add_zero]
        exact kscan_at_quote (by simpa using h)
      | true =>
        simp only [cond]
        apply kscan_comma_quote
        simp only [cond] at h
        simpa using h
    set q := i + (cond lead 1 0) with hqdef
    have hpks := pksLoop_at (keyWf_noquote hk2wf) hq
    have hdropc : json.drop (q + k2.length + 2) =
        58 :: (render w ++ (sep ++ 125 :: post)) := by
      have h2 : json.drop q = (34 :: k2 ++ [34]) ++
          (58 :: (render w ++ (sep ++ 125 :: post))) := by
        simpa using hq
      have h3 := drop_add_of_drop h2
      have e1 : q + (34 :: k2 ++ [34] : Str).length = q + k2.length + 2 :=
        by simp; omega
      rw [e1] at h3
      exact h3
    have hdropv := drop_succ_of_drop hdropc
    have hpostv : ∀ c r, sep ++ 125 :: post = c :: r →
        c = 44 ∨ c = 93 ∨ c = 125 := by
      intro c r hcr
      rcases hsepcase with ⟨_, hsepn⟩ | ⟨_, hsepc⟩
      · subst hsepn
        simp at hcr
        omega
      · subst hsepc
        simp at hcr
        omega
    rw [poLoop, if_pos hlt, hkscan]
    have hmax1 : max (i + 1) (q + k2.length + 2) = q + k2.length + 2 := by
      simp only [hqdef]
      cases lead <;> simp <;> omega
    have hcol := poValLoop_colon hdropc (f3 + 1) v calcd
      { part := k }
    by_cases hkk : k = k2
    · subst hkk
      have hfv : firstVal (Jms.mcons k w rest) k = some w := by
        simp [firstVal]
      rw [hfv]
      have hhit := poValLoop_value_hit w hwwf hdropv hpostv f3 v calcd
        { part := k }
      refine ⟨q + k.length + 2 + 1 + (render w).length, ?_⟩
      simp only [hpks, hmax1]
      simp [hcol, hhit]
    · have hk2k : ¬(k2 = k) := fun hcon => hkk hcon.symm
      have hfv : firstVal (Jms.mcons k2 w rest) k = firstVal rest k := by
        simp [firstVal, hk2k]
      rw [hfv]
      have hskip := poValLoop_value_skip w hwwf hdropv hpostv f3 v calcd
        { part := k }
      have hpm : decide (k = k2) = false := by
        simp [hkk]
      have hmax2 : max (i + 1)
          (q + k2.length + 2 + 1 + (render w).length) =
          q + k2.length + 2 + 1 + (render w).length := by
        simp only [hqdef]
        cases lead <;> simp <;> omega
      simp only [hpks, hmax1]
      simp only [Bool.not_true, Bool.false_eq_true, if_false,
        ObjectPathResult.wild, ObjectPathResult.more, ObjectPathResult.part,
        Bool.not_false, Bool.and_true, hpm, hcol, hskip, hmax2]
      have hlen := congrArg List.length hre
      simp only [List.length_append, List.length_cons,
        List.length_nil] at hlen
      have hdroprec : json.drop (q + k2.length + 2 + 1 +
          (render w).length) = sep ++ 125 :: post :=
        drop_add_of_drop hdropv
      rcases hsepcase with ⟨hrn, hsn⟩ | ⟨hrn, hsn⟩
      · subst hrn
        subst hsn
        have hrec := poLoop_walk_c8 Jms.mnil rfl hk (f3 + 2)
          (q + k2.length + 2 + 1 + (render w).length) false v calcd post
          (by simpa using hdroprec)
          (by
            have h5 : msCount (Jms.mcons k2 w Jms.mnil) = 1 := rfl
            have h6 : msCount Jms.mnil = 0 := rfl
            omega)
        simp only [firstVal] at hrec ⊢
        rw [hrec]
        have e4 : q + k2.length + 2 + 1 + (render w).length +
            (cond false 1 0) + (renderMs Jms.mnil).length + 1 =
            q + (renderMs (Jms.mcons k2 w Jms.mnil)).length + 1 := by
          simp only [cond, renderMs, List.length_append, List.length_cons,
            List.length_nil]
          omega
        rw [e4]
      · subst hsn
        have hrec := poLoop_walk_c8 rest hrest hk (f3 + 2)
          (q + k2.length + 2 + 1 + (render w).length) true v calcd post
          (by simpa using hdroprec)
          (by
            have h5 : msCount (Jms.mcons k2 w rest) = msCount rest + 1 :=
              rfl
            omega)
        cases hfvr : firstVal rest k with
        | some w2 =>
          simp only [hfvr] at hrec
          obtain ⟨j, hj⟩ := hrec
          exact ⟨j, hj⟩
        | none =>
          simp only [hfvr] at hrec
          rw [hrec]
          have e4 : q + k2.length + 2 + 1 + (render w).length +
              (cond true 1 0) + (renderMs rest).length + 1 =
              q + (renderMs (Jms.mcons k2 w rest)).length + 1 := by
            simp only [List.length_cons] at hlen
            simp only [cond]
            omega
          rw [e4]
termination_by sizeOf ms

end GJson

namespace GJson

/-! ## Path-parser lemmas -/

theorem popLoopF_run {path : Str} {run post2 : Str}
    (hrun : ∀ c ∈ run, 97 ≤ c ∧ c ≤ 122) :
    ∀ fuel i wild, path.drop i = run ++ post2 →
      popLoopF path (fuel + run.length) i wild =
        popLoopF path fuel (i + run.length) wild := by
  induction run with
  | nil => intro fuel i wild h; rfl
  | cons c run2 ih =>
    intro fuel i wild h
    rw [List.cons_append] at h
    have hb := byteAt_of_drop h
    have hlt := lt_length_of_drop h
    have hc := hrun c (by simp)
    have hdrop := drop_succ_of_drop h
    have e1 : fuel + (c :: run2).length = (fuel + run2.length) + 1 := by
      simp only [List.length_cons]; omega
    rw [e1, popLoopF]
    simp only [hb]
    rw [if_pos hlt, if_neg (by omega), if_neg (by omega),
      if_neg (by omega)]
    rw [ih (fun d hd => hrun d (by simp [hd])) fuel (i + 1) wild hdrop]
    congr 1
    simp only [List.length_cons]
    omega

theorem popLoopF_end {path : Str} {j : Nat} (h : path.drop j = []) :
    ∀ fuel wild, popLoopF path fuel j wild =
      { part := path, wild := wild } := by
  intro fuel wild
  have hge := drop_ge_length h
  cases fuel with
  | zero => rfl
  | succ f =>
    rw [popLoopF, if_neg (by omega)]

theorem popLoopF_dot {path : Str} {j : Nat} {rest : Str}
    (h : path.drop j = 46 :: rest) :
    ∀ fuel wild, popLoopF path (fuel + 1) j wild =
      { part := path.take j
        path := path.drop (j + 1)
        wild := wild
        more := true } := by
  intro fuel wild
  have hb := byteAt_of_drop h
  have hlt := lt_length_of_drop h
  rw [popLoopF]
  simp only [hb]
  rw [if_pos hlt, if_pos trivial]

/-- A plain lowercase path parses to itself as the single part. -/
theorem parseObjectPath_plain {k : Str} (hk : keyWf k = true) :
    parseObjectPath k = { part := k } := by
  unfold parseObjectPath popLoop
  have h0 : k.drop 0 = k ++ [] := by simp
  have hlen : k.length + 1 = 1 + k.length := by omega
  rw [hlen, popLoopF_run (keyWf_bytes hk) 1 0 false h0]
  have hend : k.drop (0 + k.length) = [] := by simp
  rw [popLoopF_end hend]

/-- `key.#` parses to the key part with more set and path `#`. -/
theorem parseObjectPath_hash {k : Str} (hk : keyWf k = true) :
    parseObjectPath (k ++ [46, 35]) =
      { part := k, path := [35], more := true } := by
  unfold parseObjectPath popLoop
  have h0 : (k ++ [46, 35]).drop 0 = k ++ [46, 35] := by simp
  have hlen : (k ++ [46, 35] : Str).length + 1 = (k.length + 3 - k.length) + k.length := by
    simp
    omega
  rw [hlen, popLoopF_run (keyWf_bytes hk) (k.length + 3 - k.length) 0
    false h0]
  have hdot : (k ++ [46, 35]).drop (0 + k.length) = 46 :: [35] := by
    simp [List.drop_left]
  have e2 : k.length + 3 - k.length = 2 + 1 := by omega
  rw [e2, popLoopF_dot hdot]
  have ht : (k ++ [46, 35]).take (0 + k.length) = k := by
    simp [List.take_left]
  have hd : (k ++ [46, 35]).drop (0 + k.length + 1) = [35] := by
    have h2 : (k ++ [46, 35]).drop (0 + k.length) = [46] ++ [35] := by
      simpa using hdot
    have := drop_add_of_drop h2
    simpa using this
  rw [ht, hd]

end GJson

namespace GJson

/-! ## parseArray count walk -/

/-- The value loop of `parseArray` steps over a comma. -/
theorem paValLoop_comma {json : Str} {i : Nat} {rest : Str}
    (h : json.drop i = 44 :: rest) (fuel : Nat) (v : ResultT)
    (calcd : Bool) (rp : ArrayPathResult) (h0 : Nat) (alog : List Nat)
    (m val : Str) (pm hit : Bool) :
    paValLoop (fuel + 1) json v calcd i rp h0 alog m val pm hit =
      paValLoop fuel json v calcd (i + 1) rp h0 alog m val pm hit := by
  have hb := byteAt_of_drop h
  have hlt := lt_length_of_drop h
  rw [paValLoop]
  simp only [hb]
  rw [if_pos hlt, if_neg (by omega), if_neg (by omega),
    if_neg (by omega), if_neg (by omega), if_neg (by omega),
    if_neg (by omega)]

/-- The value loop of `parseArray` passes over one rendered element
(`pmatch`, `hit` false, no query, no log). -/
theorem paValLoop_value_skip (w : Jv) (hwf : jvWf w = true) {json : Str}
    {i : Nat} {post : Str}
    (h : json.drop i = render w ++ post)
    (hpost : ∀ c r, post = c :: r → c = 44 ∨ c = 93 ∨ c = 125)
    {rp : ArrayPathResult} (hq : rp.query.qon = false)
    (halog : rp.alogok = false)
    (fuel : Nat) (v : ResultT) (calcd : Bool) (h0 : Nat)
    (alog : List Nat) (m val : Str) :
    paValLoop (fuel + 1) json v calcd i rp h0 alog m val false false =
      (v, calcd, i + (render w).length,
        PAStep.cont m (render w)) := by
  cases w with
  | jstr str =>
    simp only [jvWf] at hwf
    have hre : render (Jv.jstr str) ++ post =
        34 :: (str ++ 34 :: post) := by
      simp [render]
    rw [hre] at h
    have hb := byteAt_of_drop h
    have hlt := lt_length_of_drop h
    have hps := parseString_at (strWf_noquote hwf) h
    rw [paValLoop]
    simp [hb, hlt, hps, halog, render]
    omega
  | jnum n =>
    obtain ⟨c, cs, hsplit, hc1, hc2⟩ := natDecimal_head n
    have hdig := natDecimal_digits n
    have h2 : json.drop i = natDecimal n ++ post := by
      simpa [render] using h
    have hre : render (Jv.jnum n) ++ post = c :: (cs ++ post) := by
      simp [render, hsplit]
    rw [hre] at h
    have hb := byteAt_of_drop h
    have hlt := lt_length_of_drop h
    have hpn := parseNumber_at (natDecimal_ne_nil n) hdig
      (fun c r hcr => by
        have := hpost c r hcr
        omega) h2
    rw [paValLoop]
    simp only [hb]
    rw [if_pos hlt, if_neg (by omega), if_neg (by omega),
      if_neg (by omega), if_pos (by omega), hpn]
    simp [halog, render]
  | jtrue =>
    have hre : render Jv.jtrue ++ post =
        116 :: ([114, 117, 101] ++ post) := by
      simp [render]
    rw [hre] at h
    have hb := byteAt_of_drop h
    have hlt := lt_length_of_drop h
    have hpl := parseLiteral_at (by decide)
      (fun c r hcr => by
        have := hpost c r hcr
        omega) h
    rw [paValLoop]
    simp [hb, hlt, hpl, halog, render]
  | jfalse =>
    have hre : render Jv.jfalse ++ post =
        102 :: ([97, 108, 115, 101] ++ post) := by
      simp [render]
    rw [hre] at h
    have hb := byteAt_of_drop h
    have hlt := lt_length_of_drop h
    have hpl := parseLiteral_at (by decide)
      (fun c r hcr => by
        have := hpost c r hcr
        omega) h
    rw [paValLoop]
    simp [hb, hlt, hpl, halog, render]
  | jnull =>
    have hre : render Jv.jnull ++ post =
        110 :: ([117, 108, 108] ++ post) := by
      simp [render]
    rw [hre] at h
    have hb := byteAt_of_drop h
    have hlt := lt_length_of_drop h
    have hpl := parseLiteral_at (by decide)
      (fun c r hcr => by
        have := hpost c r hcr
        omega) h
    rw [paValLoop]
    simp [hb, hlt, hpl, halog, render]
  | jobj ms =>
    simp only [jvWf] at hwf
    have hre : render (Jv.jobj ms) ++ post =
        123 :: (renderMs ms ++ 125 :: post) := by
      simp [render]
    have hb : byteAt json i = 123 := by
      rw [hre] at h
      exact byteAt_of_drop h
    have hlt : i < json.length := by
      rw [hre] at h
      exact lt_length_of_drop h
    have hsq := parseSquash_obj hwf h
    rw [paValLoop]
    simp [hb, hlt, hsq, hq, halog]
  | jarr es =>
    simp only [jvWf] at hwf
    have hre : render (Jv.jarr es) ++ post =
        91 :: (renderEs es ++ 93 :: post) := by
      simp [render]
    have hb : byteAt json i = 91 := by
      rw [hre] at h
      exact byteAt_of_drop h
    have hlt : i < json.length := by
      rw [hre] at h
      exact lt_length_of_drop h
    have hsq := parseSquash_arr hwf h
    rw [paValLoop]
    simp [hb, hlt, hsq, halog]

/-- The value loop of `parseArray` at the closing bracket of a `#`
count path: rests the count into `Num` and sets `calcd`. -/
theorem paValLoop_close {json : Str} {i : Nat} {rest : Str}
    (h : json.drop i = 93 :: rest) {rp : ArrayPathResult}
    (harr : rp.arrch = true) (hpart : rp.part = [35])
    (halog : rp.alogok = false)
    (fuel : Nat) (v : ResultT) (calcd : Bool) (h0 : Nat)
    (alog : List Nat) (m val : Str) (pm hit : Bool) :
    paValLoop (fuel + 1) json v calcd i rp h0 alog m val pm hit =
      ({ v with
          raw := val
          type := RType.number
          num := ((h0 - 1 : Nat) : ℚ) }, true, i + 1,
        PAStep.ret true) := by
  have hb := byteAt_of_drop h
  have hlt := lt_length_of_drop h
  rw [paValLoop]
  simp only [hb]
  rw [if_pos hlt, if_neg (by omega), if_neg (by omega),
    if_neg (by omega), if_neg (by omega), if_neg (by omega),
    if_pos trivial]
  simp [harr, hpart, halog]

end GJson

namespace GJson

theorem getVal_raw (w : Jv) : (getVal w).raw = render w := by
  cases w <;> simp [getVal, applyGet, render]

theorem render_ne_nil (w : Jv) : render w ≠ [] := by
  cases w with
  | jnum n => simpa [render] using natDecimal_ne_nil n
  | _ => simp [render]

theorem render_length_pos (w : Jv) : 1 ≤ (render w).length := by
  have := render_ne_nil w
  cases hx : render w with
  | nil => exact absurd hx this
  | cons c cs => simp

/-- The element loop of `parseArray` under a `#` count path: counts the
rendered elements and rests the count into `Num` at the bracket. -/
theorem paLoop_walk_count (es : Jes) (hwf : jesWf es = true)
    {json : Str} {rp : ArrayPathResult}
    (harr : rp.arrch = true) (hpart : rp.part = [35])
    (halog : rp.alogok = false) (hq : rp.query.qon = false)
    (partidx : Option Nat) :
    ∀ fuel i (lead : Bool) (v : ResultT) (calcd : Bool) (h0 : Nat)
      (alog : List Nat) (m val0 : Str) (post : Str),
      json.drop i = (cond lead [44] []) ++ (renderEs es ++ 93 :: post) →
      2 * jesLen es + 4 ≤ fuel →
      paLoop fuel json v calcd i rp partidx h0 alog m val0 =
        ({ v with
            raw := lastRawEs es val0
            type := RType.number
            num := ((h0 + jesLen es : Nat) : ℚ) }, true,
          i + (cond lead 1 0) + (renderEs es).length + 1, true) := by
  cases es with
  | enil =>
    intro fuel i lead v calcd h0 alog m val0 post h hfuel
    obtain ⟨f, rfl⟩ : ∃ f, fuel = f + 1 := ⟨fuel - 1, by omega⟩
    obtain ⟨f2, rfl⟩ : ∃ f2, f = f2 + 1 := ⟨f - 1, by omega⟩
    obtain ⟨f3, rfl⟩ : ∃ f3, f2 = f3 + 1 := ⟨f2 - 1, by omega⟩
    cases lead with
    | false =>
      simp only [cond, renderEs, List.nil_append] at h
      have hlt := lt_length_of_drop h
      rw [paLoop, if_pos hlt]
      simp only [harr, Bool.not_true, Bool.false_and, halog]
      rw [paValLoop_close h harr hpart halog]
      simp [renderEs, lastRawEs, jesLen]
    | true =>
      simp only [cond, renderEs, List.nil_append, List.cons_append] at h
      have hlt := lt_length_of_drop h
      have hdrop := drop_succ_of_drop h
      rw [paLoop, if_pos hlt]
      simp only [harr, Bool.not_true, Bool.false_and, halog]
      rw [paValLoop_comma h, paValLoop_close hdrop harr hpart halog]
      simp [renderEs, lastRawEs, jesLen]
  | econs w rest =>
    intro fuel i lead v calcd h0 alog m val0 post h hfuel
    simp only [jesWf, Bool.and_eq_true] at hwf
    obtain ⟨hwwf, hrest⟩ := hwf
    obtain ⟨f, rfl⟩ : ∃ f, fuel = f + 1 := ⟨fuel - 1, by omega⟩
    obtain ⟨f2, rfl⟩ : ∃ f2, f = f2 + 1 := ⟨f - 1, by omega⟩
    have hsep : ∃ sep : Str,
        (renderEs (Jes.econs w rest) ++ 93 :: post) =
          render w ++ (sep ++ 93 :: post) ∧
        ((rest = Jes.enil ∧ sep = []) ∨
          (rest ≠ Jes.enil ∧ sep = 44 :: renderEs rest)) := by
      cases rest with
      | enil => exact ⟨[], by simp [renderEs], Or.inl ⟨rfl, rfl⟩⟩
      | econs w2 r2 =>
        exact ⟨44 :: renderEs (Jes.econs w2 r2), by simp [renderEs],
          Or.inr ⟨by intro hcon; exact Jes.noConfusion hcon, rfl⟩⟩
    obtain ⟨sep, hre, hsepcase⟩ := hsep
    rw [hre] at h
    have hlen := congrArg List.length hre
    simp only [List.length_append, List.length_cons] at hlen
    have hval : json.drop (i + (cond lead 1 0)) =
        render w ++ (sep ++ 93 :: post) := by
      cases lead with
      | false => simpa using h
      | true =>
        simp only [cond] at h ⊢
        have h2 := drop_succ_of_drop h
        simpa using h2
    have hlt2 : i + (cond lead 1 0) < json.length := by
      cases hx : render w with
      | nil => exact absurd hx (render_ne_nil w)
      | cons c cs =>
        rw [hx, List.cons_append] at hval
        exact lt_length_of_drop hval
    have hlt : i < json.length := by
      cases lead <;> simp only [cond] at hlt2 <;> omega
    have hpostv : ∀ c r, sep ++ 93 :: post = c :: r →
        c = 44 ∨ c = 93 ∨ c = 125 := by
      intro c r hcr
      rcases hsepcase with ⟨_, hsn⟩ | ⟨_, hsn⟩ <;> subst hsn <;>
        simp at hcr <;> omega
    have hwpos := render_length_pos w
    have hdroprec : json.drop (i + (cond lead 1 0) + (render w).length) =
        sep ++ 93 :: post := drop_add_of_drop hval
    have hrec := fun (lead2 : Bool) (val1 : Str) (h2 : json.drop
        (i + (cond lead 1 0) + (render w).length) =
          (cond lead2 [44] []) ++ (renderEs rest ++ 93 :: post)) =>
      paLoop_walk_count rest hrest harr hpart halog hq partidx (f2 + 1)
        (i + (cond lead 1 0) + (render w).length) lead2 v calcd (h0 + 1)
        alog m val1 post h2
        (by
          have h5 : jesLen (Jes.econs w rest) = jesLen rest + 1 := rfl
          omega)
    rw [paLoop, if_pos hlt]
    simp only [harr, Bool.not_true, Bool.false_and, halog,
      Bool.false_eq_true, if_false]
    cases lead with
    | false =>
      simp only [cond, Nat.add_zero] at hval hdroprec hrec ⊢
      obtain ⟨f3, rfl⟩ : ∃ f3, f2 = f3 + 1 := ⟨f2 - 1, by omega⟩
      have hskip := paValLoop_value_skip w hwwf hval hpostv hq halog
        (f3 + 1) v calcd (h0 + 1) alog m val0
      rw [hskip]
      have hmax : max (i + 1) (i + (render w).length) =
          i + (render w).length := by omega
      simp only [hmax]
      rcases hsepcase with ⟨hrn, hsn⟩ | ⟨hrn, hsn⟩
      · subst hrn
        subst hsn
        have hr := hrec false (render w) (by simpa using hdroprec)
        simp only [cond, Nat.add_zero] at hr
        rw [hr]
        have e4 : i + (render w).length + (renderEs Jes.enil).length + 1 =
            i + (renderEs (Jes.econs w Jes.enil)).length + 1 := by
          simp only [renderEs, List.length_nil] at hlen ⊢
          omega
        have e5 : h0 + 1 + jesLen Jes.enil = h0 + jesLen
            (Jes.econs w Jes.enil) := by
          simp [jesLen]
        rw [e4, e5]
        have e6 : lastRawEs Jes.enil (render w) =
            lastRawEs (Jes.econs w Jes.enil) val0 := by
          simp [lastRawEs, elemRaw, getVal_raw]
        rw [e6]
      · subst hsn
        have hr := hrec true (render w) (by simpa using hdroprec)
        simp only [cond] at hr
        rw [hr]
        have e4 : i + (render w).length + 1 + (renderEs rest).length + 1 =
            i + (renderEs (Jes.econs w rest)).length + 1 := by
          simp only [List.length_cons] at hlen
          omega
        have e5 : h0 + 1 + jesLen rest = h0 + jesLen (Jes.econs w rest) :=
          by simp [jesLen]; omega
        have e6 : lastRawEs rest (render w) =
            lastRawEs (Jes.econs w rest) val0 := by
          simp [lastRawEs, elemRaw, getVal_raw]
        rw [e4, e5, e6]
    | true =>
      simp only [cond] at hval hdroprec hrec ⊢
      obtain ⟨f3, rfl⟩ : ∃ f3, f2 = f3 + 1 := ⟨f2 - 1, by omega⟩
      obtain ⟨f4, rfl⟩ : ∃ f4, f3 = f4 + 1 := ⟨f3 - 1, by omega⟩
      have hcomma : json.drop i = 44 :: (render w ++ (sep ++ 93 :: post))
        := by
        have h2 : json.drop i = [44] ++ (render w ++ (sep ++ 93 :: post))
          := by simpa using h
        simpa using h2
      rw [paValLoop_comma hcomma]
      have hskip := paValLoop_value_skip w hwwf hval hpostv hq halog
        (f4 + 1) v calcd (h0 + 1) alog m val0
      rw [hskip]
      have hmax : max (i + 1) (i + 1 + (render w).length) =
          i + 1 + (render w).length := by omega
      simp only [hmax]
      rcases hsepcase with ⟨hrn, hsn⟩ | ⟨hrn, hsn⟩
      · subst hrn
        subst hsn
        have hr := hrec false (render w) (by simpa using hdroprec)
        simp only [cond, Nat.add_zero] at hr
        rw [hr]
        have e4 : i + 1 + (render w).length +
            (renderEs Jes.enil).length + 1 =
            i + 1 + (renderEs (Jes.econs w Jes.enil)).length + 1 := by
          simp only [renderEs, List.length_nil] at hlen ⊢
          omega
        have e5 : h0 + 1 + jesLen Jes.enil = h0 + jesLen
            (Jes.econs w Jes.enil) := by
          simp [jesLen]
        have e6 : lastRawEs Jes.enil (render w) =
            lastRawEs (Jes.econs w Jes.enil) val0 := by
          simp [lastRawEs, elemRaw, getVal_raw]
        rw [e4, e5, e6]
      · subst hsn
        have hr := hrec true (render w) (by simpa using hdroprec)
        simp only [cond] at hr
        rw [hr]
        have e4 : i + 1 + (render w).length + 1 +
            (renderEs rest).length + 1 =
            i + 1 + (renderEs (Jes.econs w rest)).length + 1 := by
          simp only [List.length_cons] at hlen
          omega
        have e5 : h0 + 1 + jesLen rest = h0 + jesLen (Jes.econs w rest) :=
          by simp [jesLen]; omega
        have e6 : lastRawEs rest (render w) =
            lastRawEs (Jes.econs w rest) val0 := by
          simp [lastRawEs, elemRaw, getVal_raw]
        rw [e4, e5, e6]
termination_by sizeOf es

end GJson

namespace GJson

/-- `parseArrayPath` of the bare `#`. -/
theorem parseArrayPath_hash :
    parseArrayPath [35] =
      { part := [35]
        path := []
        more := false
        alogok := false
        arrch := true
        alogkey := []
        query := {} } := by
  decide

/-- The value loop of `parseObject` descending into the matched member's
rendered array under remaining path `#`: returns the element count. -/
theorem poValLoop_value_hit_arr (es : Jes) (hes : jesWf es = true)
    {json : Str} {i : Nat} {post : Str}
    (h : json.drop i = render (Jv.jarr es) ++ post)
    {rp : ObjectPathResult} (hpath : rp.path = [35])
    (fuel : Nat) (hfuel : 2 * jesLen es + 5 ≤ fuel)
    (v : ResultT) (calcd : Bool) :
    poValLoop (fuel + 1) json v calcd i rp true false =
      ({ v with
          raw := lastRawEs es []
          type := RType.number
          num := ((jesLen es : Nat) : ℚ) }, true,
        i + (render (Jv.jarr es)).length, POStep.ret true) := by
  have hre : render (Jv.jarr es) ++ post =
      91 :: (renderEs es ++ 93 :: post) := by
    simp [render]
  rw [hre] at h
  have hb := byteAt_of_drop h
  have hlt := lt_length_of_drop h
  have hdrop := drop_succ_of_drop h
  obtain ⟨f2, rfl⟩ : ∃ f2, fuel = f2 + 1 := ⟨fuel - 1, by omega⟩
  have hpa : parseArrayF (f2 + 1) json v calcd (i + 1) rp.path =
      ({ v with
          raw := lastRawEs es []
          type := RType.number
          num := ((jesLen es : Nat) : ℚ) }, true,
        i + 1 + (renderEs es).length + 1, true) := by
    rw [hpath, parseArrayF, parseArrayPath_hash]
    have harr0 : (⟨[35], [], false, false, true, [], {}⟩ :
        ArrayPathResult).arrch = true := rfl
    have hwalk := paLoop_walk_count es hes harr0 rfl rfl rfl
      none f2 (i + 1) false v calcd 0 [] [] [] post
      (by simpa using hdrop) (by omega)
    simp only [cond, Nat.add_zero] at hwalk
    simp only [Bool.not_true, Bool.false_eq_true, if_false]
    rw [hwalk]
    norm_num
  rw [poValLoop]
  simp only [hb]
  rw [if_pos hlt, if_neg (by omega), if_neg (by omega), if_pos trivial]
  simp only [Bool.and_true, Bool.not_false, if_pos rfl]
  rw [hpa]
  simp [render]
  omega

end GJson

namespace GJson

/-- The key loop of `parseObject` under path `key.#` when the first
`key` member holds an array: descends and returns its element count. -/
theorem poLoop_walk_c6 (ms : Jms) (hwf : jmsWf ms = true) {k : Str}
    (hk : keyWf k = true) {es : Jes} (hes : jesWf es = true)
    {json : Str} :
    ∀ fuel i (lead : Bool) (v : ResultT) (calcd : Bool) (post : Str),
      json.drop i = (cond lead [44] []) ++ (renderMs ms ++ 125 :: post) →
      firstVal ms k = some (Jv.jarr es) →
      2 * msCount ms + 2 * jesLen es + 9 ≤ fuel →
      ∃ j, poLoop fuel json v calcd i ⟨k, [35], false, true⟩ =
        ({ v with
            raw := lastRawEs es []
            type := RType.number
            num := ((jesLen es : Nat) : ℚ) }, true, j, true) := by
  cases ms with
  | mnil =>
    intro fuel i lead v calcd post h hfv hfuel
    simp [firstVal] at hfv
  | mcons k2 w rest =>
    intro fuel i lead v calcd post h hfv hfuel
    simp only [jmsWf, Bool.and_eq_true] at hwf
    obtain ⟨⟨hk2wf, hwwf⟩, hrest⟩ := hwf
    obtain ⟨f, rfl⟩ : ∃ f, fuel = f + 1 := ⟨fuel - 1, by omega⟩
    obtain ⟨f2, rfl⟩ : ∃ f2, f = f2 + 1 := ⟨f - 1, by omega⟩
    obtain ⟨f3, rfl⟩ : ∃ f3, f2 = f3 + 1 := ⟨f2 - 1, by omega⟩
    have hsep : ∃ sep : Str,
        (renderMs (Jms.mcons k2 w rest) ++ 125 :: post) =
          (34 :: k2 ++ [34]) ++ 58 :: (render w ++ (sep ++ 125 :: post)) ∧
        ((rest = Jms.mnil ∧ sep = []) ∨
          (rest ≠ Jms.mnil ∧ sep = 44 :: renderMs rest)) := by
      cases rest with
      | mnil =>
        refine ⟨[], by simp [renderMs], Or.inl ⟨rfl, rfl⟩⟩
      | mcons k3 v3 r3 =>
        refine ⟨44 :: renderMs (Jms.mcons k3 v3 r3), by simp [renderMs],
          Or.inr ⟨by intro hcon; exact Jms.noConfusion hcon, rfl⟩⟩
    obtain ⟨sep, hre, hsepcase⟩ := hsep
    rw [hre] at h
    have hq : json.drop (i + (cond lead 1 0)) =
        34 :: (k2 ++ 34 :: (58 :: (render w ++ (sep ++ 125 :: post)))) := by
      cases lead with
      | false => simpa using h
      | true =>
        simp only [cond] at h ⊢
        have h2 := drop_succ_of_drop h
        simpa using h2
    have hlt : i < json.length := by
      cases lead <;> simpa using lt_length_of_drop h
    have hkscan : kscan json i = KScan.quote (i + (cond lead 1 0)) := by
      cases lead with
      | false =>
        simp only [cond, Nat.add_zero]
        exact kscan_at_quote (by simpa using h)
      | true =>
        simp only [cond]
        apply kscan_comma_quote
        simp only [cond] at h
        simpa using h
    set q := i + (cond lead 1 0) with hqdef
    have hpks := pksLoop_at (keyWf_noquote hk2wf) hq
    have hdropc : json.drop (q + k2.length + 2) =
        58 :: (render w ++ (sep ++ 125 :: post)) := by
      have h2 : json.drop q = (34 :: k2 ++ [34]) ++
          (58 :: (render w ++ (sep ++ 125 :: post))) := by
        simpa using hq
      have h3 := drop_add_of_drop h2
      have e1 : q + (34 :: k2 ++ [34] : Str).length = q + k2.length + 2 :=
        by simp; omega
      rw [e1] at h3
      exact h3
    have hdropv := drop_succ_of_drop hdropc
    have hpostv : ∀ c r, sep ++ 125 :: post = c :: r →
        c = 44 ∨ c = 93 ∨ c = 125 := by
      intro c r hcr
      rcases hsepcase with ⟨_, hsn⟩ | ⟨_, hsn⟩ <;> subst hsn <;>
        simp at hcr <;> omega
    rw [poLoop, if_pos hlt, hkscan]
    have hmax1 : max (i + 1) (q + k2.length + 2) = q + k2.length + 2 := by
      simp only [hqdef]
      cases lead <;> simp <;> omega
    have hcol := poValLoop_colon hdropc (f3 + 1) v calcd
      ⟨k, [35], false, true⟩
    by_cases hkk : k = k2
    · subst hkk
      have hw : w = Jv.jarr es := by
        simp [firstVal] at hfv
        exact hfv
      subst hw
      simp only [jvWf] at hwwf
      have hrp6 : (⟨k, [35], false, true⟩ :
          ObjectPathResult).path = [35] := rfl
      have hhit := poValLoop_value_hit_arr es hwwf hdropv
        hrp6 f3 (by omega) v calcd
      refine ⟨q + k.length + 2 + 1 + (render (Jv.jarr es)).length, ?_⟩
      simp only [hpks, hmax1]
      simp [hcol, hhit]
    · have hk2k : ¬(k2 = k) := fun hcon => hkk hcon.symm
      have hfv2 : firstVal rest k = some (Jv.jarr es) := by
        simpa [firstVal, hk2k] using hfv
      have hskip := poValLoop_value_skip w hwwf hdropv hpostv f3 v calcd
        ⟨k, [35], false, true⟩
      have hpm : decide (k = k2) = false := by
        simp [hkk]
      have hmax2 : max (i + 1)
          (q + k2.length + 2 + 1 + (render w).length) =
          q + k2.length + 2 + 1 + (render w).length := by
        simp only [hqdef]
        cases lead <;> simp <;> omega
      simp only [hpks, hmax1]
      simp only [Bool.not_true, Bool.false_eq_true, if_false,
        ObjectPathResult.wild, ObjectPathResult.more, ObjectPathResult.part,
        Bool.not_false, Bool.and_true, Bool.and_false, hpm, hcol, hskip,
        hmax2]
      have hdroprec : json.drop (q + k2.length + 2 + 1 +
          (render w).length) = sep ++ 125 :: post :=
        drop_add_of_drop hdropv
      rcases hsepcase with ⟨hrn, hsn⟩ | ⟨hrn, hsn⟩
      · subst hrn
        simp [firstVal] at hfv2
      · subst hsn
        have hrec := poLoop_walk_c6 rest hrest hk hes (f3 + 2)
          (q + k2.length + 2 + 1 + (render w).length) true v calcd post
          (by simpa using hdroprec) hfv2
          (by
            have h5 : msCount (Jms.mcons k2 w rest) = msCount rest + 1 :=
              rfl
            omega)
        obtain ⟨j, hj⟩ := hrec
        exact ⟨j, hj⟩
termination_by sizeOf ms

end GJson

namespace GJson

theorem renderMs_mcons_len (k : Str) (v : Jv) (rest : Jms) :
    (renderMs (Jms.mcons k v rest)).length =
      k.length + 3 + (render v).length +
        (match rest with
          | Jms.mnil => 0
          | Jms.mcons _ _ _ => 1 + (renderMs rest).length) := by
  cases rest with
  | mnil =>
    conv_lhs => rw [renderMs]
    simp
    omega
  | mcons k3 v3 r3 =>
    conv_lhs => rw [renderMs]
    simp
    omega

theorem renderMs_mcons_mnil_len (k : Str) (v : Jv) :
    (renderMs (Jms.mcons k v Jms.mnil)).length =
      k.length + 3 + (render v).length := by
  have h := renderMs_mcons_len k v Jms.mnil
  simpa using h

theorem renderMs_mcons_mcons_len (k : Str) (v : Jv) (k3 : Str) (v3 : Jv)
    (r3 : Jms) :
    (renderMs (Jms.mcons k v (Jms.mcons k3 v3 r3))).length =
      k.length + 3 + (render v).length +
        (1 + (renderMs (Jms.mcons k3 v3 r3)).length) :=
  renderMs_mcons_len k v (Jms.mcons k3 v3 r3)

theorem renderEs_econs_len (v : Jv) (rest : Jes) :
    (renderEs (Jes.econs v rest)).length =
      (render v).length +
        (match rest with
          | Jes.enil => 0
          | Jes.econs _ _ => 1 + (renderEs rest).length) := by
  cases rest with
  | enil =>
    conv_lhs => rw [renderEs]
    simp
  | econs w r2 =>
    conv_lhs => rw [renderEs]
    simp
    omega

theorem renderEs_econs_enil_len (v : Jv) :
    (renderEs (Jes.econs v Jes.enil)).length = (render v).length := by
  have h := renderEs_econs_len v Jes.enil
  simpa using h

theorem renderEs_econs_econs_len (v w : Jv) (r2 : Jes) :
    (renderEs (Jes.econs v (Jes.econs w r2))).length =
      (render v).length + (1 + (renderEs (Jes.econs w r2)).length) :=
  renderEs_econs_len v (Jes.econs w r2)

theorem msCount_le_renderMs (ms : Jms) : msCount ms ≤ (renderMs ms).length := by
  cases ms with
  | mnil => simp [msCount, renderMs]
  | mcons k v rest =>
    have ih := msCount_le_renderMs rest
    have hm : msCount (Jms.mcons k v rest) = msCount rest + 1 := rfl
    cases rest with
    | mnil =>
      have hlen := renderMs_mcons_mnil_len k v
      have h0 : msCount Jms.mnil = 0 := rfl
      omega
    | mcons k3 v3 r3 =>
      have hlen := renderMs_mcons_mcons_len k v k3 v3 r3
      omega
termination_by sizeOf ms

theorem jesLen_le_renderEs (es : Jes) : jesLen es ≤ (renderEs es).length := by
  cases es with
  | enil => simp [jesLen, renderEs]
  | econs v rest =>
    have ih := jesLen_le_renderEs rest
    have hv := render_length_pos v
    have hj : jesLen (Jes.econs v rest) = jesLen rest + 1 := rfl
    cases rest with
    | enil =>
      have hlen := renderEs_econs_enil_len v
      have h0 : jesLen Jes.enil = 0 := rfl
      omega
    | econs w r2 =>
      have hlen := renderEs_econs_econs_len v w r2
      omega
termination_by sizeOf es

theorem firstVal_render_le {ms : Jms} {k : Str} {w : Jv}
    (h : firstVal ms k = some w) :
    (render w).length ≤ (renderMs ms).length := by
  cases ms with
  | mnil => simp [firstVal] at h
  | mcons k2 v rest =>
    by_cases hkk : k2 = k
    · have hw : v = w := by
        simp [firstVal, hkk] at h
        exact h
      subst hw
      cases rest with
      | mnil =>
        have hlen := renderMs_mcons_mnil_len k2 v
        omega
      | mcons k3 v3 r3 =>
        have hlen := renderMs_mcons_mcons_len k2 v k3 v3 r3
        omega
    · have h2 : firstVal rest k = some w := by
        simpa [firstVal, hkk] using h
      have ih := firstVal_render_le h2
      cases rest with
      | mnil => simp [firstVal] at h2
      | mcons k3 v3 r3 =>
        have hlen := renderMs_mcons_mcons_len k2 v k3 v3 r3
        omega
termination_by sizeOf ms

/-- `Get` on a rendered object with a plain key path returns the first
occurrence of the key. -/
theorem GetE_obj_hit {ms : Jms} (hwf : jmsWf ms = true) {k : Str}
    (hk : keyWf k = true) {w : Jv} (hfv : firstVal ms k = some w) :
    GetE (render (Jv.jobj ms)) k = getVal w := by
  have hdrop0 : (render (Jv.jobj ms)).drop 0 =
      123 :: (renderMs ms ++ 125 :: []) := by
    simp [render]
  have hL : (render (Jv.jobj ms)).length = (renderMs ms).length + 2 := by
    simp [render]
  unfold GetE
  set a := (render (Jv.jobj ms)).length + k.length + 4 with ha
  have h4 : 4 ≤ a := by omega
  have hfuel : 2 * msCount ms + 5 ≤ a * a * a := by
    have hmc := msCount_le_renderMs ms
    have h1 : 4 * a ≤ a * a := Nat.mul_le_mul_right a h4
    have h2 : a * a ≤ a * a * a := by
      have h3 := Nat.mul_le_mul_left (a * a) (show 1 ≤ a by omega)
      simpa using h3
    have h5 : 2 * msCount ms + 5 ≤ 4 * a := by omega
    exact le_trans h5 (le_trans h1 h2)
  obtain ⟨f, hf⟩ : ∃ f, a * a * a = f + 2 :=
    ⟨a * a * a - 2, by omega⟩
  rw [hf]
  rw [show f + 2 = (f + 1) + 1 from rfl]
  rw [getF]
  simp only [getStart_at_obj hdrop0]
  rw [parseObjectF, parseObjectPath_plain hk]
  have hdrop1 : (render (Jv.jobj ms)).drop 1 = renderMs ms ++ 125 :: [] :=
    drop_succ_of_drop hdrop0
  have hwalk := poLoop_walk_c8 ms hwf hk f 1 false {} false []
    (by simpa using hdrop1) (by omega)
  simp only [hfv] at hwalk
  obtain ⟨j, hj⟩ := hwalk
  simp only [Nat.zero_add, hj, getVal]

/-- `Get` on a rendered object with path `key.#`, the key holding an
array, returns the element count. -/
theorem GetE_obj_count {ms : Jms} (hwf : jmsWf ms = true) {k : Str}
    (hk : keyWf k = true) {es : Jes} (hes : jesWf es = true)
    (hfv : firstVal ms k = some (Jv.jarr es)) :
    GetE (render (Jv.jobj ms)) (k ++ [46, 35]) =
      { type := RType.number
        raw := lastRawEs es []
        num := ((jesLen es : Nat) : ℚ) } := by
  have hdrop0 : (render (Jv.jobj ms)).drop 0 =
      123 :: (renderMs ms ++ 125 :: []) := by
    simp [render]
  have hL : (render (Jv.jobj ms)).length = (renderMs ms).length + 2 := by
    simp [render]
  unfold GetE
  set a := (render (Jv.jobj ms)).length + (k ++ [46, 35] : Str).length + 4
    with ha
  have h4 : 4 ≤ a := by omega
  have hja : (render (Jv.jarr es)).length = (renderEs es).length + 2 := by
    simp [render]
  have hfuel : 2 * msCount ms + 2 * jesLen es + 11 ≤ a * a * a := by
    have hmc := msCount_le_renderMs ms
    have hjl := jesLen_le_renderEs es
    have hin := firstVal_render_le hfv
    have h1 : 4 * a ≤ a * a := Nat.mul_le_mul_right a h4
    have h2 : a * a ≤ a * a * a := by
      have h3 := Nat.mul_le_mul_left (a * a) (show 1 ≤ a by omega)
      simpa using h3
    have h5 : 2 * msCount ms + 2 * jesLen es + 11 ≤ 4 * a := by omega
    exact le_trans h5 (le_trans h1 h2)
  obtain ⟨f, hf⟩ : ∃ f, a * a * a = f + 2 :=
    ⟨a * a * a - 2, by omega⟩
  rw [hf]
  rw [show f + 2 = (f + 1) + 1 from rfl]
  rw [getF]
  simp only [getStart_at_obj hdrop0]
  rw [parseObjectF, parseObjectPath_hash hk]
  have hdrop1 : (render (Jv.jobj ms)).drop 1 = renderMs ms ++ 125 :: [] :=
    drop_succ_of_drop hdrop0
  have hwalk := poLoop_walk_c6 ms hwf hk hes f 1 false {} false []
    (by simpa using hdrop1) hfv (by omega)
  obtain ⟨j, hj⟩ := hwalk
  simp only [Nat.zero_add, hj]

end GJson

namespace GJson

/-- `arrayOrMap`'s element loop steps over a byte that starts no token
and closes nothing: the comma and colon separators and the `alse` tail
of a cut `false` literal. -/
theorem aomLoopF_skipbyte (isObj : Bool) {json : Str} {i c : Nat}
    {rest : Str} (hdrop : json.drop i = c :: rest)
    (hc : c = 44 ∨ c = 58 ∨ c = 97 ∨ c = 108 ∨ c = 115 ∨ c = 101) :
    ∀ fuel count (key value : ResultT) (a : List ResultT)
      (o : List (Str × ResultT)),
      aomLoopF json isObj (fuel + 1) i count key value a o =
        aomLoopF json isObj fuel (i + 1) count key value a o := by
  intro fuel count key value a o
  have hb := byteAt_of_drop hdrop
  have hlt := lt_length_of_drop hdrop
  rcases hc with rfl | rfl | rfl | rfl | rfl | rfl <;>
    (rw [aomLoopF]; simp [hb, hlt])

/-- The element loop returns the accumulators at a closing bracket. -/
theorem aomLoopF_close (isObj : Bool) {json : Str} {i c : Nat}
    {rest : Str} (hdrop : json.drop i = c :: rest)
    (hc : c = 93 ∨ c = 125) :
    ∀ fuel count (key value : ResultT) (a : List ResultT)
      (o : List (Str × ResultT)),
      aomLoopF json isObj (fuel + 1) i count key value a o = (a, o) := by
  intro fuel count key value a o
  have hb := byteAt_of_drop hdrop
  have hlt := lt_length_of_drop hdrop
  rcases hc with rfl | rfl <;> (rw [aomLoopF]; simp [hb, hlt])

end GJson

namespace GJson

/-- `arrayOrMap`'s element loop reads one rendered value as a token:
type and raw (and `Str`/`Num` where the case assigns them) are merged
into the loop-carried record, and the scan advances over the value
(through the `alse` byte-skips when `tolit` cut a `false` literal). -/
theorem aomLoopF_token (isObj : Bool) {v : Jv} (hwf : jvWf v = true)
    {json : Str} {i : Nat} {post : Str}
    (hdrop : json.drop i = render v ++ post)
    (hpost : ∀ c r, post = c :: r → c = 44 ∨ c = 93 ∨ c = 125) :
    ∀ fuel count (key value : ResultT) (a : List ResultT)
      (o : List (Str × ResultT)),
      aomLoopF json isObj (fuel + aomCost v) i count key value a o =
        aomCont json isObj fuel (i + (render v).length) count key
          (aomUpd value v) a o := by
  intro fuel count key value a o
  cases v with
  | jstr s =>
    simp only [jvWf] at hwf
    have hre : render (Jv.jstr s) ++ post = 34 :: (s ++ 34 :: post) := by
      simp [render]
    rw [hre] at hdrop
    have hb := byteAt_of_drop hdrop
    have hlt := lt_length_of_drop hdrop
    have hts : tostr (sliceFrom json i) = (34 :: s ++ [34], s) := by
      show tostr (json.drop i) = _
      rw [hdrop]
      exact tostr_at (strWf_noquote hwf)
    have hmax : ∀ m : Nat, max 1 (m + 2) = m + 2 := fun m => by omega
    rw [show fuel + aomCost (Jv.jstr s) = fuel + 1 from rfl, aomLoopF]
    simp [hb, hlt, hts, aomUpd, aomCont, render, hmax]
  | jnum n =>
    obtain ⟨c, cs, hsplit, hc1, hc2⟩ := natDecimal_head n
    have hdig := natDecimal_digits n
    have h2 : json.drop i = natDecimal n ++ post := by
      simpa [render] using hdrop
    have hre : render (Jv.jnum n) ++ post = c :: (cs ++ post) := by
      simp [render, hsplit]
    rw [hre] at hdrop
    have hb := byteAt_of_drop hdrop
    have hlt := lt_length_of_drop hdrop
    have htn : tonum (sliceFrom json i) =
        (natDecimal n, parseFloatQ (natDecimal n)) := by
      show tonum (json.drop i) = _
      rw [h2]
      exact tonum_at (natDecimal_ne_nil n) hdig hpost
    have hl1 : 1 ≤ (natDecimal n).length :=
      List.length_pos.mpr (natDecimal_ne_nil n)
    have hmax : max 1 (natDecimal n).length = (natDecimal n).length :=
      Nat.max_eq_right hl1
    rw [show fuel + aomCost (Jv.jnum n) = fuel + 1 from rfl, aomLoopF]
    simp only [hb]
    rw [if_pos hlt, if_neg (by omega), if_neg (by simp; omega)]
    rw [if_neg (by simp; omega), if_neg (by omega), if_neg (by omega),
      if_neg (by omega), if_neg (by omega), if_pos (by omega)]
    simp [htn, aomUpd, aomCont, render, hmax]
  | jtrue =>
    have hre : render Jv.jtrue ++ post =
        116 :: ([114, 117, 101] ++ post) := by
      simp [render]
    rw [hre] at hdrop
    have hb := byteAt_of_drop hdrop
    have hlt := lt_length_of_drop hdrop
    have hlit : tolit (sliceFrom json i) = [116, 114, 117, 101] := by
      show tolit (json.drop i) = _
      rw [hdrop]
      exact tolit_at (by decide)
        (fun c r hcr => by have := hpost c r hcr; omega)
    rw [show fuel + aomCost Jv.jtrue = fuel + 1 from rfl, aomLoopF]
    simp [hb, hlt, hlit, aomUpd, aomCont, render]
  | jnull =>
    have hre : render Jv.jnull ++ post =
        110 :: ([117, 108, 108] ++ post) := by
      simp [render]
    rw [hre] at hdrop
    have hb := byteAt_of_drop hdrop
    have hlt := lt_length_of_drop hdrop
    have hlit : tolit (sliceFrom json i) = [110, 117, 108, 108] := by
      show tolit (json.drop i) = _
      rw [hdrop]
      exact tolit_at (by decide)
        (fun c r hcr => by have := hpost c r hcr; omega)
    rw [show fuel + aomCost Jv.jnull = fuel + 1 from rfl, aomLoopF]
    simp [hb, hlt, hlit, aomUpd, aomCont, render]
  | jobj ms =>
    simp only [jvWf] at hwf
    have hre : render (Jv.jobj ms) ++ post =
        123 :: (renderMs ms ++ 125 :: post) := by
      simp [render]
    have hb : byteAt json i = 123 := by
      rw [hre] at hdrop
      exact byteAt_of_drop hdrop
    have hlt : i < json.length := by
      rw [hre] at hdrop
      exact lt_length_of_drop hdrop
    have hsq : squash (sliceFrom json i) = render (Jv.jobj ms) := by
      show squash (json.drop i) = _
      rw [hdrop]
      exact squash_obj_at hwf
    have hl1 : 1 ≤ (render (Jv.jobj ms)).length := render_length_pos _
    have hmax : max 1 (render (Jv.jobj ms)).length =
        (render (Jv.jobj ms)).length := Nat.max_eq_right hl1
    rw [show fuel + aomCost (Jv.jobj ms) = fuel + 1 from rfl, aomLoopF]
    simp [hb, hlt, hsq, aomUpd, aomCont, hmax]
  | jarr es =>
    simp only [jvWf] at hwf
    have hre : render (Jv.jarr es) ++ post =
        91 :: (renderEs es ++ 93 :: post) := by
      simp [render]
    have hb : byteAt json i = 91 := by
      rw [hre] at hdrop
      exact byteAt_of_drop hdrop
    have hlt : i < json.length := by
      rw [hre] at hdrop
      exact lt_length_of_drop hdrop
    have hsq : squash (sliceFrom json i) = render (Jv.jarr es) := by
      show squash (json.drop i) = _
      rw [hdrop]
      exact squash_arr_at hwf
    have hl1 : 1 ≤ (render (Jv.jarr es)).length := render_length_pos _
    have hmax : max 1 (render (Jv.jarr es)).length =
        (render (Jv.jarr es)).length := Nat.max_eq_right hl1
    rw [show fuel + aomCost (Jv.jarr es) = fuel + 1 from rfl, aomLoopF]
    simp [hb, hlt, hsq, aomUpd, aomCont, hmax]
  | jfalse =>
    have hre : render Jv.jfalse ++ post =
        102 :: (97 :: 108 :: 115 :: 101 :: post) := by
      simp [render]
    rw [hre] at hdrop
    have hb := byteAt_of_drop hdrop
    have hlt := lt_length_of_drop hdrop
    have hlit : tolit (sliceFrom json i) = [102] := by
      show tolit (json.drop i) = _
      rw [hdrop]
      have h := @tolit_at 102 [] (97 :: 108 :: 115 :: 101 :: post)
        (by simp)
        (fun c r hcr => by
          simp at hcr
          omega)
      simpa using h
    have d1 : json.drop (i + 1) = 97 :: (108 :: 115 :: 101 :: post) :=
      drop_succ_of_drop hdrop
    have d2 : json.drop (i + 1 + 1) = 108 :: (115 :: 101 :: post) :=
      drop_succ_of_drop d1
    have d3 : json.drop (i + 1 + 1 + 1) = 115 :: (101 :: post) :=
      drop_succ_of_drop d2
    have d4 : json.drop (i + 1 + 1 + 1 + 1) = 101 :: post :=
      drop_succ_of_drop d3
    have hskip4 : ∀ count2 (key2 value2 : ResultT) (a2 : List ResultT)
        (o2 : List (Str × ResultT)),
        aomLoopF json isObj (fuel + 4) (i + 1) count2 key2 value2 a2 o2 =
          aomLoopF json isObj fuel (i + 5) count2 key2 value2 a2 o2 := by
      intro count2 key2 value2 a2 o2
      rw [show fuel + 4 = fuel + 3 + 1 from rfl,
        aomLoopF_skipbyte isObj d1 (by omega)]
      rw [show fuel + 3 = fuel + 2 + 1 from rfl,
        aomLoopF_skipbyte isObj d2 (by omega)]
      rw [show fuel + 2 = fuel + 1 + 1 from rfl,
        aomLoopF_skipbyte isObj d3 (by omega)]
      rw [aomLoopF_skipbyte isObj d4 (by omega)]
    rw [show fuel + aomCost Jv.jfalse = fuel + 4 + 1 from rfl, aomLoopF]
    simp [hb, hlt, hlit, aomUpd, aomCont, render, hskip4]

end GJson

namespace GJson

theorem keyWf_strWf {k : Str} (hk : keyWf k = true) : strWf k = true := by
  have hb := keyWf_bytes hk
  simp only [strWf, List.all_eq_true]
  intro c hc
  have h2 := hb c hc
  simp only [decide_eq_true_eq]
  omega

/-- The string-token case of `arrayOrMap`'s element loop, with no
constraint on the following byte (a key token is followed by a colon). -/
theorem aomLoopF_strtoken (isObj : Bool) {s : Str} (hwf : strWf s = true)
    {json : Str} {i : Nat} {post : Str}
    (hdrop : json.drop i = render (Jv.jstr s) ++ post) :
    ∀ fuel count (key value : ResultT) (a : List ResultT)
      (o : List (Str × ResultT)),
      aomLoopF json isObj (fuel + 1) i count key value a o =
        aomCont json isObj fuel (i + (render (Jv.jstr s)).length) count
          key (aomUpd value (Jv.jstr s)) a o := by
  intro fuel count key value a o
  have hre : render (Jv.jstr s) ++ post = 34 :: (s ++ 34 :: post) := by
    simp [render]
  rw [hre] at hdrop
  have hb := byteAt_of_drop hdrop
  have hlt := lt_length_of_drop hdrop
  have hts : tostr (sliceFrom json i) = (34 :: s ++ [34], s) := by
    show tostr (json.drop i) = _
    rw [hdrop]
    exact tostr_at (strWf_noquote hwf)
  have hmax : ∀ m : Nat, max 1 (m + 2) = m + 2 := fun m => by omega
  rw [aomLoopF]
  simp [hb, hlt, hts, aomUpd, aomCont, render, hmax]

theorem aomCost_le_render (v : Jv) : aomCost v ≤ (render v).length := by
  cases v with
  | jstr s => exact render_length_pos (Jv.jstr s)
  | jnum n => exact render_length_pos (Jv.jnum n)
  | jtrue => exact render_length_pos Jv.jtrue
  | jfalse => exact Nat.le_refl 5
  | jnull => exact render_length_pos Jv.jnull
  | jobj ms => exact render_length_pos (Jv.jobj ms)
  | jarr es => exact render_length_pos (Jv.jarr es)

theorem aomNeedEs_le (es : Jes) : aomNeedEs es ≤ (renderEs es).length + 2 := by
  cases es with
  | enil => simp [aomNeedEs, renderEs]
  | econs v rest =>
    have ih := aomNeedEs_le rest
    have hc := aomCost_le_render v
    have hn : aomNeedEs (Jes.econs v rest) =
        aomCost v + 1 + aomNeedEs rest := rfl
    cases rest with
    | enil =>
      have hlen := renderEs_econs_enil_len v
      have h0 : aomNeedEs Jes.enil = 1 := rfl
      omega
    | econs w r2 =>
      have hlen := renderEs_econs_econs_len v w r2
      omega
termination_by sizeOf es

theorem aomNeedMs_le (ms : Jms) : aomNeedMs ms ≤ (renderMs ms).length + 2 := by
  cases ms with
  | mnil => simp [aomNeedMs, renderMs]
  | mcons k w rest =>
    have ih := aomNeedMs_le rest
    have hc := aomCost_le_render w
    have hn : aomNeedMs (Jms.mcons k w rest) =
        3 + aomCost w + aomNeedMs rest := rfl
    cases rest with
    | mnil =>
      have hlen := renderMs_mcons_mnil_len k w
      have h0 : aomNeedMs Jms.mnil = 1 := rfl
      omega
    | mcons k3 v3 r3 =>
      have hlen := renderMs_mcons_mcons_len k w k3 v3 r3
      omega
termination_by sizeOf ms

/-- `arrayOrMap`'s element loop in array mode over rendered elements:
appends each element's token record to the accumulator, threading the
loop-carried record through stale fields. -/
theorem aomLoop_walk_es (es : Jes) (hwf : jesWf es = true) {json : Str} :
    ∀ i (lead : Bool) (post : Str) fuel count (key value : ResultT)
      (a : List ResultT) (o : List (Str × ResultT)),
      json.drop i = (cond lead [44] []) ++ (renderEs es ++ 93 :: post) →
      aomNeedEs es + (cond lead 1 0) ≤ fuel →
      aomLoopF json false fuel i count key value a o =
        (a ++ aomValsEs value es, o) := by
  cases es with
  | enil =>
    intro i lead post fuel count key value a o h hfuel
    cases lead with
    | false =>
      obtain ⟨f, rfl⟩ : ∃ f, fuel = f + 1 := ⟨fuel - 1, by
        simp only [cond] at hfuel
        have : aomNeedEs Jes.enil = 1 := rfl
        omega⟩
      have h93 : json.drop i = 93 :: post := by
        simpa [renderEs] using h
      rw [aomLoopF_close false h93 (by omega)]
      simp [aomValsEs]
    | true =>
      obtain ⟨f, rfl⟩ : ∃ f, fuel = f + 1 + 1 := ⟨fuel - 2, by
        simp only [cond] at hfuel
        have : aomNeedEs Jes.enil = 1 := rfl
        omega⟩
      have h44 : json.drop i = 44 :: (93 :: post) := by
        simpa [renderEs] using h
      rw [aomLoopF_skipbyte false h44 (by omega)]
      have h93 : json.drop (i + 1) = 93 :: post := drop_succ_of_drop h44
      rw [aomLoopF_close false h93 (by omega)]
      simp [aomValsEs]
  | econs v rest =>
    intro i lead post fuel count key value a o h hfuel
    simp only [jesWf, Bool.and_eq_true] at hwf
    obtain ⟨hv, hrest⟩ := hwf
    have hne : aomNeedEs (Jes.econs v rest) =
        aomCost v + 1 + aomNeedEs rest := rfl
    have hsep : ∃ sep : Str,
        (renderEs (Jes.econs v rest) ++ 93 :: post) =
          render v ++ (sep ++ 93 :: post) ∧
        ((rest = Jes.enil ∧ sep = []) ∨
          (rest ≠ Jes.enil ∧ sep = 44 :: renderEs rest)) := by
      cases rest with
      | enil => exact ⟨[], by simp [renderEs], Or.inl ⟨rfl, rfl⟩⟩
      | econs w r2 =>
        exact ⟨44 :: renderEs (Jes.econs w r2), by simp [renderEs],
          Or.inr ⟨by intro hcon; exact Jes.noConfusion hcon, rfl⟩⟩
    obtain ⟨sep, hre, hsepcase⟩ := hsep
    rw [hre] at h
    have hq : json.drop (i + (cond lead 1 0)) =
        render v ++ (sep ++ 93 :: post) := by
      cases lead with
      | false => simpa using h
      | true =>
        have h1 : json.drop i =
            44 :: (render v ++ (sep ++ 93 :: post)) := by simpa using h
        have h2 := drop_succ_of_drop h1
        simpa using h2
    have hpost : ∀ c r, sep ++ 93 :: post = c :: r →
        c = 44 ∨ c = 93 ∨ c = 125 := by
      intro c r hcr
      rcases hsepcase with ⟨_, hsn⟩ | ⟨_, hsn⟩ <;> subst hsn <;>
        simp at hcr <;> omega
    obtain ⟨f1, rfl⟩ : ∃ f1, fuel = f1 + (cond lead 1 0) :=
      ⟨fuel - cond lead 1 0, by cases lead <;> simp <;> omega⟩
    have hstep1 : aomLoopF json false (f1 + cond lead 1 0) i count key
        value a o = aomLoopF json false f1 (i + cond lead 1 0) count key
        value a o := by
      cases lead with
      | false => simp
      | true =>
        have h1 : json.drop i =
            44 :: (render v ++ (sep ++ 93 :: post)) := by simpa using h
        simpa using aomLoopF_skipbyte false h1 (by omega) f1 count key
          value a o
    rw [hstep1]
    obtain ⟨f2, rfl⟩ : ∃ f2, f1 = f2 + aomCost v :=
      ⟨f1 - aomCost v, by cases lead <;> simp at hfuel <;> omega⟩
    rw [aomLoopF_token false hv hq hpost f2 count key value a o]
    simp only [aomCont, if_neg (by simp : ¬(false : Bool) = true)]
    have hdroprec : json.drop (i + cond lead 1 0 + (render v).length) =
        sep ++ 93 :: post := drop_add_of_drop hq
    have hvals : aomValsEs value (Jes.econs v rest) =
        aomUpd value v :: aomValsEs (aomUpd value v) rest := rfl
    rcases hsepcase with ⟨hrn, hsn⟩ | ⟨hrn, hsn⟩
    · subst hrn hsn
      have hrec := aomLoop_walk_es Jes.enil rfl
        (i + cond lead 1 0 + (render v).length) false post f2 count key
        (aomUpd value v) (a ++ [aomUpd value v]) o
        (by simpa using hdroprec)
        (by
          have : aomNeedEs Jes.enil = 1 := rfl
          cases lead <;> simp at hfuel <;> simp <;> omega)
      rw [hrec, hvals]
      simp [aomValsEs]
    · subst hsn
      have hrec := aomLoop_walk_es rest hrest
        (i + cond lead 1 0 + (render v).length) true post f2 count key
        (aomUpd value v) (a ++ [aomUpd value v]) o
        (by simpa using hdroprec)
        (by cases lead <;> simp at hfuel <;> simp <;> omega)
      rw [hrec, hvals]
      simp
termination_by sizeOf es

end GJson

namespace GJson

/-- `arrayOrMap`'s element loop in object mode over rendered members:
each key-value pair upserts the value's token record under the key, as
`aomObjFold` folds. -/
theorem aomLoop_walk_ms (ms : Jms) (hwf : jmsWf ms = true) {json : Str} :
    ∀ i (lead : Bool) (post : Str) fuel count (key value : ResultT)
      (a : List ResultT) (o : List (Str × ResultT)),
      json.drop i = (cond lead [44] []) ++ (renderMs ms ++ 125 :: post) →
      aomNeedMs ms + (cond lead 1 0) ≤ fuel →
      count % 2 = 0 →
      aomLoopF json true fuel i count key value a o =
        (a, aomObjFold value o ms) := by
  cases ms with
  | mnil =>
    intro i lead post fuel count key value a o h hfuel hcount
    cases lead with
    | false =>
      obtain ⟨f, rfl⟩ : ∃ f, fuel = f + 1 := ⟨fuel - 1, by
        simp only [cond] at hfuel
        have : aomNeedMs Jms.mnil = 1 := rfl
        omega⟩
      have h125 : json.drop i = 125 :: post := by
        simpa [renderMs] using h
      rw [aomLoopF_close true h125 (by omega)]
      simp [aomObjFold]
    | true =>
      obtain ⟨f, rfl⟩ : ∃ f, fuel = f + 1 + 1 := ⟨fuel - 2, by
        simp only [cond] at hfuel
        have : aomNeedMs Jms.mnil = 1 := rfl
        omega⟩
      have h44 : json.drop i = 44 :: (125 :: post) := by
        simpa [renderMs] using h
      rw [aomLoopF_skipbyte true h44 (by omega)]
      have h125 : json.drop (i + 1) = 125 :: post := drop_succ_of_drop h44
      rw [aomLoopF_close true h125 (by omega)]
      simp [aomObjFold]
  | mcons k w rest =>
    intro i lead post fuel count key value a o h hfuel hcount
    simp only [jmsWf, Bool.and_eq_true] at hwf
    obtain ⟨⟨hkwf, hwwf⟩, hrest⟩ := hwf
    have hne : aomNeedMs (Jms.mcons k w rest) =
        3 + aomCost w + aomNeedMs rest := rfl
    have hsep : ∃ sep : Str,
        (renderMs (Jms.mcons k w rest) ++ 125 :: post) =
          (34 :: k ++ [34]) ++ 58 :: (render w ++ (sep ++ 125 :: post)) ∧
        ((rest = Jms.mnil ∧ sep = []) ∨
          (rest ≠ Jms.mnil ∧ sep = 44 :: renderMs rest)) := by
      cases rest with
      | mnil =>
        refine ⟨[], by simp [renderMs], Or.inl ⟨rfl, rfl⟩⟩
      | mcons k3 v3 r3 =>
        refine ⟨44 :: renderMs (Jms.mcons k3 v3 r3), by simp [renderMs],
          Or.inr ⟨by intro hcon; exact Jms.noConfusion hcon, rfl⟩⟩
    obtain ⟨sep, hre, hsepcase⟩ := hsep
    rw [hre] at h
    have hq : json.drop (i + (cond lead 1 0)) =
        render (Jv.jstr k) ++
          (58 :: (render w ++ (sep ++ 125 :: post))) := by
      cases lead with
      | false =>
        simp only [cond, Nat.add_zero, List.nil_append] at h ⊢
        simpa [render] using h
      | true =>
        have h1 : json.drop i =
            44 :: ((34 :: k ++ [34]) ++
              58 :: (render w ++ (sep ++ 125 :: post))) := by
          simpa using h
        have h2 := drop_succ_of_drop h1
        simp only [cond]
        simpa [render] using h2
    obtain ⟨f1, rfl⟩ : ∃ f1, fuel = f1 + (cond lead 1 0) :=
      ⟨fuel - cond lead 1 0, by cases lead <;> simp <;> omega⟩
    have hstep1 : aomLoopF json true (f1 + cond lead 1 0) i count key
        value a o = aomLoopF json true f1 (i + cond lead 1 0) count key
        value a o := by
      cases lead with
      | false => simp
      | true =>
        have h1 : json.drop i =
            44 :: ((34 :: k ++ [34]) ++
              58 :: (render w ++ (sep ++ 125 :: post))) := by
          simpa using h
        simpa using aomLoopF_skipbyte true h1 (by omega) f1 count key
          value a o
    rw [hstep1]
    obtain ⟨f2, rfl⟩ : ∃ f2, f1 = f2 + 1 :=
      ⟨f1 - 1, by cases lead <;> simp at hfuel <;> omega⟩
    rw [aomLoopF_strtoken true (keyWf_strWf hkwf) hq f2 count key value
      a o]
    simp only [aomCont, if_pos rfl, if_pos hcount]
    have hlenk : (render (Jv.jstr k)).length = k.length + 2 := by
      simp [render]
    have hdropc : json.drop
        (i + cond lead 1 0 + (render (Jv.jstr k)).length) =
        58 :: (render w ++ (sep ++ 125 :: post)) := drop_add_of_drop hq
    obtain ⟨f3, rfl⟩ : ∃ f3, f2 = f3 + 1 :=
      ⟨f2 - 1, by cases lead <;> simp at hfuel <;> omega⟩
    rw [aomLoopF_skipbyte true hdropc (by omega)]
    have hdropv : json.drop
        (i + cond lead 1 0 + (render (Jv.jstr k)).length + 1) =
        render w ++ (sep ++ 125 :: post) := drop_succ_of_drop hdropc
    have hpost : ∀ c r, sep ++ 125 :: post = c :: r →
        c = 44 ∨ c = 93 ∨ c = 125 := by
      intro c r hcr
      rcases hsepcase with ⟨_, hsn⟩ | ⟨_, hsn⟩ <;> subst hsn <;>
        simp at hcr <;> omega
    obtain ⟨f4, rfl⟩ : ∃ f4, f3 = f4 + aomCost w :=
      ⟨f3 - aomCost w, by cases lead <;> simp at hfuel <;> omega⟩
    rw [aomLoopF_token true hwwf hdropv hpost f4 (count + 1)
      (aomUpd value (Jv.jstr k)) (aomUpd value (Jv.jstr k)) a o]
    have hodd : ¬((count + 1) % 2 = 0) := by omega
    simp only [aomCont, if_pos rfl, if_neg hodd]
    have hstr : (aomUpd value (Jv.jstr k)).str = k := rfl
    rw [hstr]
    have hdroprec : json.drop
        (i + cond lead 1 0 + (render (Jv.jstr k)).length + 1 +
          (render w).length) = sep ++ 125 :: post :=
      drop_add_of_drop hdropv
    have hfold : aomObjFold value o (Jms.mcons k w rest) =
        aomObjFold (aomUpd (aomUpd value (Jv.jstr k)) w)
          (upsert o k (aomUpd (aomUpd value (Jv.jstr k)) w)) rest := rfl
    rcases hsepcase with ⟨hrn, hsn⟩ | ⟨hrn, hsn⟩
    · subst hrn hsn
      have hrec := aomLoop_walk_ms Jms.mnil rfl
        (i + cond lead 1 0 + (render (Jv.jstr k)).length + 1 +
          (render w).length) false post f4 (count + 2)
        (aomUpd value (Jv.jstr k))
        (aomUpd (aomUpd value (Jv.jstr k)) w) a
        (upsert o k (aomUpd (aomUpd value (Jv.jstr k)) w))
        (by simpa using hdroprec)
        (by
          have : aomNeedMs Jms.mnil = 1 := rfl
          cases lead <;> simp at hfuel <;> simp <;> omega)
        (by omega)
      rw [hrec, hfold]
      simp
    · subst hsn
      have hrec := aomLoop_walk_ms rest hrest
        (i + cond lead 1 0 + (render (Jv.jstr k)).length + 1 +
          (render w).length) true post f4 (count + 2)
        (aomUpd value (Jv.jstr k))
        (aomUpd (aomUpd value (Jv.jstr k)) w) a
        (upsert o k (aomUpd (aomUpd value (Jv.jstr k)) w))
        (by simpa using hdroprec)
        (by cases lead <;> simp at hfuel <;> simp <;> omega)
        (by omega)
      rw [hrec, hfold]
      simp
termination_by sizeOf ms

end GJson

namespace GJson

theorem aomStart_arr (rest : Str) : aomStart (91 :: rest) 0 91 = some (1, 91) := by
  unfold aomStart
  have hlen : (91 :: rest : Str).length + 1 = rest.length + 1 + 1 := by
    simp
  rw [hlen, aomStartF]
  simp [byteAt]

theorem aomStart_obj (rest : Str) : aomStart (123 :: rest) 0 123 = some (1, 123) := by
  unfold aomStart
  have hlen : (123 :: rest : Str).length + 1 = rest.length + 1 + 1 := by
    simp
  rw [hlen, aomStartF]
  simp [byteAt]

/-- `Array()` on the result `Get` returns for a rendered array: the
element token records in order. -/
theorem array_of_getVal_arr {es : Jes} (hwf : jesWf es = true) :
    (getVal (Jv.jarr es)).array = aomValsEs {} es := by
  have hraw : (getVal (Jv.jarr es)).raw = 91 :: (renderEs es ++ [93]) := by
    rw [getVal_raw]
    simp [render]
  have hty : (getVal (Jv.jarr es)).type = RType.json := rfl
  unfold ResultT.array
  rw [if_neg (by simp [ResultT.existsRes, hty]), if_neg (by simp [hty])]
  unfold arrayOrMap
  rw [hraw, aomStart_arr]
  have hdrop : (91 :: (renderEs es ++ [93]) : Str).drop 1 =
      renderEs es ++ 93 :: [] := by simp
  have hlen : (91 :: (renderEs es ++ [93]) : Str).length + 1 =
      (renderEs es).length + 3 := by simp
  unfold aomLoop
  rw [hlen]
  have hneed := aomNeedEs_le es
  have hwalk := aomLoop_walk_es es hwf 1 false [] ((renderEs es).length + 3)
    0 {} {} [] [] hdrop (by simp; omega)
  simp only [show (decide ((91 : Nat) = 123)) = false from rfl] at hwalk ⊢
  rw [hwalk]
  simp

theorem aomValsEs_length (value : ResultT) (es : Jes) :
    (aomValsEs value es).length = jesLen es := by
  cases es with
  | enil => rfl
  | econs v rest =>
    have ih := aomValsEs_length (aomUpd value v) rest
    have h : aomValsEs value (Jes.econs v rest) =
        aomUpd value v :: aomValsEs (aomUpd value v) rest := rfl
    rw [h]
    simp only [List.length_cons, ih]
    rfl
termination_by sizeOf es

theorem lookupA_upsert_self (o : List (Str × ResultT)) (k : Str)
    (v : ResultT) : lookupA (upsert o k v) k = some v := by
  induction o with
  | nil => simp [upsert, lookupA]
  | cons p rest ih =>
    by_cases hk : p.1 = k
    · simp [upsert, hk, lookupA]
    · simp [upsert, hk, lookupA, ih]

theorem lookupA_upsert_other (o : List (Str × ResultT)) {k k2 : Str}
    (hne : k ≠ k2) (v : ResultT) :
    lookupA (upsert o k v) k2 = lookupA o k2 := by
  induction o with
  | nil => simp [upsert, lookupA, hne]
  | cons p rest ih =>
    by_cases hk : p.1 = k
    · simp [upsert, hk, lookupA, hne]
    · simp [upsert, hk, lookupA, ih]

theorem aomUpd_type (value : ResultT) (w : Jv) :
    (aomUpd value w).type = aomType w := by
  cases w <;> rfl

theorem aomUpd_raw (value : ResultT) (w : Jv) :
    (aomUpd value w).raw = aomRaw w := by
  cases w with
  | jstr s => rfl
  | jnum n => rfl
  | jtrue => rfl
  | jfalse => rfl
  | jnull => rfl
  | jobj ms => rfl
  | jarr es => rfl

/-- Looking up a key in the folded object map: the last occurrence's
token record wins; an absent key falls through to the initial map. -/
theorem aomObjFold_lookup (ms : Jms) (k : Str) :
    ∀ (value : ResultT) (o : List (Str × ResultT)),
      (match lastVal ms k with
        | some w => ∃ r, lookupA (aomObjFold value o ms) k = some r ∧
            r.type = aomType w ∧ r.raw = aomRaw w
        | none => lookupA (aomObjFold value o ms) k = lookupA o k) := by
  cases ms with
  | mnil =>
    intro value o
    simp [lastVal, aomObjFold]
  | mcons k2 w rest =>
    intro value o
    have hfold : aomObjFold value o (Jms.mcons k2 w rest) =
        aomObjFold (aomUpd (aomUpd value (Jv.jstr k2)) w)
          (upsert o k2 (aomUpd (aomUpd value (Jv.jstr k2)) w)) rest := rfl
    have hrec := aomObjFold_lookup rest k
      (aomUpd (aomUpd value (Jv.jstr k2)) w)
      (upsert o k2 (aomUpd (aomUpd value (Jv.jstr k2)) w))
    have hlv : lastVal (Jms.mcons k2 w rest) k =
        (match lastVal rest k with
          | some w2 => some w2
          | none => if k2 = k then some w else none) := rfl
    rw [hfold, hlv]
    match hrk : lastVal rest k with
    | some w2 =>
      simp only [hrk] at hrec ⊢
      exact hrec
    | none =>
      simp only [hrk] at hrec ⊢
      by_cases hk2 : k2 = k
      · subst hk2
        simp only [if_pos rfl]
        refine ⟨aomUpd (aomUpd value (Jv.jstr k2)) w, ?_, ?_, ?_⟩
        · rw [hrec, lookupA_upsert_self]
        · exact aomUpd_type _ w
        · exact aomUpd_raw _ w
      · simp only [if_neg hk2]
        rw [hrec, lookupA_upsert_other _ hk2]
termination_by sizeOf ms

/-- `Parse` of a rendered object: the whole document as a json-typed
raw. -/
theorem ParseE_obj (ms : Jms) :
    ParseE (render (Jv.jobj ms)) =
      { type := RType.json, raw := render (Jv.jobj ms) } := by
  have hb : byteAt (render (Jv.jobj ms)) 0 = 123 := by
    simp [render, byteAt]
  have hlt : 0 < (render (Jv.jobj ms)).length := by
    simp [render]
  unfold ParseE
  obtain ⟨f, hf⟩ : ∃ f, (render (Jv.jobj ms)).length + 1 = f + 1 :=
    ⟨(render (Jv.jobj ms)).length, rfl⟩
  rw [hf, parseLoopPF]
  simp [hb, hlt, sliceFrom]

/-- `Map()` on the result `Parse` returns for a rendered object: the
fold of upserts over the members. -/
theorem mapRes_of_ParseE_obj {ms : Jms} (hwf : jmsWf ms = true) :
    (ParseE (render (Jv.jobj ms))).mapRes = aomObjFold {} [] ms := by
  rw [ParseE_obj]
  unfold ResultT.mapRes
  rw [if_neg (by simp)]
  unfold arrayOrMap
  have hraw : ({ type := RType.json, raw := render (Jv.jobj ms) } :
      ResultT).raw = 123 :: (renderMs ms ++ [125]) := by
    simp [render]
  rw [hraw, aomStart_obj]
  have hdrop : (123 :: (renderMs ms ++ [125]) : Str).drop 1 =
      renderMs ms ++ 125 :: [] := by simp
  have hlen : (123 :: (renderMs ms ++ [125]) : Str).length + 1 =
      (renderMs ms).length + 3 := by simp
  unfold aomLoop
  rw [hlen]
  have hneed := aomNeedMs_le ms
  have hwalk := aomLoop_walk_ms ms hwf 1 false [] ((renderMs ms).length + 3)
    0 {} {} [] [] hdrop (by simp; omega) (by omega)
  simp only [decide_True]
  rw [hwalk]

end GJson

namespace GJson

theorem digitsVal_foldl_init (ds : List Nat) :
    ∀ a : Nat, ds.foldl (fun a d => a * 10 + d) a =
      a * 10 ^ ds.length + digitsVal ds := by
  induction ds with
  | nil => intro a; simp [digitsVal]
  | cons d rest ih =>
    intro a
    have hd : digitsVal (d :: rest) =
        d * 10 ^ rest.length + digitsVal rest := by
      have h : digitsVal (d :: rest) =
          List.foldl (fun a d => a * 10 + d) (0 * 10 + d) rest := rfl
      rw [h, ih (0 * 10 + d)]
      norm_num
    simp only [List.foldl_cons, List.length_cons]
    rw [ih (a * 10 + d), hd]
    ring

theorem digitsVal_concat (ds : List Nat) (d : Nat) :
    digitsVal (ds ++ [d]) = digitsVal ds * 10 + d := by
  simp only [digitsVal, List.foldl_append, List.foldl_cons,
    List.foldl_nil]

theorem digitsVal_cons (d : Nat) (ds : List Nat) :
    digitsVal (d :: ds) = d * 10 ^ ds.length + digitsVal ds := by
  have h : digitsVal (d :: ds) =
      List.foldl (fun a d => a * 10 + d) (0 * 10 + d) ds := rfl
  rw [h, digitsVal_foldl_init ds (0 * 10 + d)]
  norm_num

theorem digitsVal_lt (ds : List Nat) (h : ∀ d ∈ ds, d < 10) :
    digitsVal ds < 10 ^ ds.length := by
  induction ds with
  | nil => simp [digitsVal]
  | cons d rest ih =>
    have hd := h d (by simp)
    have hr := ih (fun d hd => h d (by simp [hd]))
    rw [digitsVal_cons]
    simp only [List.length_cons, pow_succ]
    have h1 : d * 10 ^ rest.length ≤ 9 * 10 ^ rest.length :=
      Nat.mul_le_mul_right _ (by omega)
    omega

theorem takeDigits_all {s : Str} (hds : ∀ c ∈ s, 48 ≤ c ∧ c ≤ 57) :
    takeDigits s = (s.map (fun c => c - 48), []) := by
  induction s with
  | nil => rfl
  | cons c rest ih =>
    have hc := hds c (by simp)
    have hdv : digitVal c = some (c - 48) := by
      unfold digitVal
      rw [if_pos ⟨hc.1, hc.2⟩]
    have ih2 := ih (fun d hd => hds d (by simp [hd]))
    simp [takeDigits, hdv, ih2]

theorem natDecimalAux_val :
    ∀ fuel m, m < 10 ^ fuel →
      digitsVal ((natDecimalAux fuel m).map (fun c => c - 48)) = m := by
  intro fuel
  induction fuel with
  | zero =>
    intro m hm
    have h0 : m = 0 := by simpa using hm
    subst h0
    simp [natDecimalAux, digitsVal]
  | succ f ih =>
    intro m hm
    by_cases h10 : m < 10
    · simp [natDecimalAux, h10, digitsVal]
    · have hdiv : m / 10 < 10 ^ f := by
        have hp : 10 ^ (f + 1) = 10 ^ f * 10 := pow_succ 10 f
        rw [hp] at hm
        omega
      have ihv := ih (m / 10) hdiv
      simp only [natDecimalAux, if_neg h10, List.map_append,
        List.map_cons, List.map_nil]
      rw [digitsVal_concat, ihv]
      omega

theorem natDecimal_val {m : Nat} (hm : m < 10 ^ 30) :
    digitsVal ((natDecimal m).map (fun c => c - 48)) = m :=
  natDecimalAux_val 30 m hm

end GJson

namespace GJson

/-- `ParseFloat` on a bare digit string is the digits' value. -/
theorem parseFloatQ_digits {c : Nat} {cs : Str}
    (hds : ∀ d ∈ c :: cs, 48 ≤ d ∧ d ≤ 57) :
    parseFloatQ (c :: cs) =
      (digitsVal ((c :: cs).map (fun d => d - 48)) : ℚ) := by
  have htd := takeDigits_all hds
  have hc1 := (hds c (by simp)).1
  have hc2 := (hds c (by simp)).2
  interval_cases c <;>
    simp [parseFloatQ, takeDigits_all hds]

/-- `ParseFloat` on a minus sign and digits is the negated value. -/
theorem parseFloatQ_neg_digits {c : Nat} {cs : Str}
    (hds : ∀ d ∈ c :: cs, 48 ≤ d ∧ d ≤ 57) :
    parseFloatQ (45 :: c :: cs) =
      -(digitsVal ((c :: cs).map (fun d => d - 48)) : ℚ) := by
  have htd := takeDigits_all hds
  have hc1 := (hds c (by simp)).1
  have hc2 := (hds c (by simp)).2
  interval_cases c <;>
    simp [parseFloatQ, takeDigits_all hds]

theorem parseFloatQ_natDecimal {m : Nat} (hm : m < 10 ^ 30) :
    parseFloatQ (natDecimal m) = (m : ℚ) := by
  obtain ⟨c, cs, hsplit, hc1, hc2⟩ := natDecimal_head m
  have hds : ∀ d ∈ c :: cs, 48 ≤ d ∧ d ≤ 57 := by
    rw [← hsplit]
    exact natDecimal_digits m
  rw [hsplit, parseFloatQ_digits hds, ← hsplit, natDecimal_val hm]

theorem parseFloatQ_neg_natDecimal {m : Nat} (hm : m < 10 ^ 30) :
    parseFloatQ (45 :: natDecimal m) = -(m : ℚ) := by
  obtain ⟨c, cs, hsplit, hc1, hc2⟩ := natDecimal_head m
  have hds : ∀ d ∈ c :: cs, 48 ≤ d ∧ d ≤ 57 := by
    rw [← hsplit]
    exact natDecimal_digits m
  rw [hsplit, parseFloatQ_neg_digits hds, ← hsplit, natDecimal_val hm]

theorem w64_id {z : ℤ} (h1 : -(2 ^ 63) ≤ z) (h2 : z < 2 ^ 63) :
    w64 z = z := by
  have e63 : (2 : ℤ) ^ 63 = 9223372036854775808 := by norm_num
  have e64 : (2 : ℤ) ^ 64 = 18446744073709551616 := by norm_num
  unfold w64
  rw [e63, e64]
  rw [e63] at h1 h2
  omega

theorem ratTrunc_intCast (z : ℤ) : ratTrunc ((z : ℚ)) = z := by
  unfold ratTrunc
  simp [Rat.num_intCast, Rat.den_intCast]

end GJson

namespace GJson

/-- The digit loop of `parseUint`: within the 64-bit range every wrap is
the identity and the result is the digits' value. -/
theorem parseUintAux_digits :
    ∀ (ds : Str) (n : Nat), (∀ c ∈ ds, 48 ≤ c ∧ c ≤ 57) →
      n * 10 ^ ds.length + digitsVal (ds.map (fun c => c - 48)) ≤
        2 ^ 64 - 1 →
      parseUintGo.parseUintAux ds n =
        some (n * 10 ^ ds.length + digitsVal (ds.map (fun c => c - 48))) := by
  intro ds
  induction ds with
  | nil =>
    intro n hds hb
    simp [parseUintGo.parseUintAux, digitsVal]
  | cons c rest ih =>
    intro n hds hb
    have hc := hds c (by simp)
    have hone : 1 ≤ 10 ^ rest.length := Nat.one_le_pow _ _ (by omega)
    have hdec : n * 10 ^ (c :: rest).length +
        digitsVal ((c :: rest).map (fun d => d - 48)) =
        (n * 10 + (c - 48)) * 10 ^ rest.length +
          digitsVal (rest.map (fun d => d - 48)) := by
      simp only [List.map_cons, List.length_cons, digitsVal_cons,
        List.length_map, pow_succ]
      ring
    rw [hdec] at hb ⊢
    have h1 : (n * 10 + (c - 48)) * 1 ≤
        (n * 10 + (c - 48)) * 10 ^ rest.length :=
      Nat.mul_le_mul_left _ hone
    have h2 : n * 10 + (c - 48) ≤ 2 ^ 64 - 1 :=
      le_trans (by simpa using h1)
        (le_trans (Nat.le_add_right _ _) hb)
    have hmod : (n * 10 + (c - 48)) % 2 ^ 64 = n * 10 + (c - 48) :=
      Nat.mod_eq_of_lt (by omega)
    rw [parseUintGo.parseUintAux]
    rw [if_pos ⟨hc.1, hc.2⟩, hmod]
    exact ih (n * 10 + (c - 48)) (fun d hd => hds d (by simp [hd])) hb

/-- The digit loop of `parseInt`: below `2^63` every two's-complement
wrap is the identity and the result is the digits' value. -/
theorem parseIntAux_digits :
    ∀ (ds : Str) (n : ℤ), (∀ c ∈ ds, 48 ≤ c ∧ c ≤ 57) → 0 ≤ n →
      n * 10 ^ ds.length + (digitsVal (ds.map (fun c => c - 48)) : ℤ) ≤
        2 ^ 63 - 1 →
      parseIntGo.parseIntAux ds n =
        some (n * 10 ^ ds.length +
          (digitsVal (ds.map (fun c => c - 48)) : ℤ)) := by
  intro ds
  induction ds with
  | nil =>
    intro n hds hn hb
    simp [parseIntGo.parseIntAux, digitsVal]
  | cons c rest ih =>
    intro n hds hn hb
    have hc := hds c (by simp)
    have hone : (1 : ℤ) ≤ 10 ^ rest.length := by
      have hp := pow_pos (show (0 : ℤ) < 10 by omega) rest.length
      omega
    have hdec : n * 10 ^ (c :: rest).length +
        (digitsVal ((c :: rest).map (fun d => d - 48)) : ℤ) =
        (n * 10 + ((c - 48 : Nat) : ℤ)) * 10 ^ rest.length +
          (digitsVal (rest.map (fun d => d - 48)) : ℤ) := by
      simp only [List.map_cons, List.length_cons, digitsVal_cons,
        List.length_map, pow_succ]
      push_cast
      ring
    rw [hdec] at hb ⊢
    have hA : (0 : ℤ) ≤ n * 10 + ((c - 48 : Nat) : ℤ) := by positivity
    have h1 : (n * 10 + ((c - 48 : Nat) : ℤ)) * 1 ≤
        (n * 10 + ((c - 48 : Nat) : ℤ)) * 10 ^ rest.length :=
      mul_le_mul_of_nonneg_left hone hA
    have hv : (0 : ℤ) ≤ (digitsVal (rest.map (fun d => d - 48)) : ℤ) := by
      positivity
    have h2 : n * 10 + ((c - 48 : Nat) : ℤ) ≤ 2 ^ 63 - 1 :=
      le_trans (by simpa using h1)
        (le_trans (le_add_of_nonneg_right hv) hb)
    have hw : w64 (n * 10 + ((c - 48 : Nat) : ℤ)) =
        n * 10 + ((c - 48 : Nat) : ℤ) :=
      w64_id (by omega) (by omega)
    rw [parseIntGo.parseIntAux]
    rw [if_pos ⟨hc.1, hc.2⟩, hw]
    exact ih (n * 10 + ((c - 48 : Nat) : ℤ))
      (fun d hd => hds d (by simp [hd])) hA hb

end GJson

namespace GJson

theorem parseUintGo_natDecimal {m : Nat} (hm : m < 2 ^ 64) :
    parseUintGo (natDecimal m) = some m := by
  obtain ⟨c, cs, hsplit, hc1, hc2⟩ := natDecimal_head m
  have hds : ∀ d ∈ c :: cs, 48 ≤ d ∧ d ≤ 57 := by
    rw [← hsplit]
    exact natDecimal_digits m
  have hval : digitsVal ((c :: cs).map (fun d => d - 48)) = m := by
    rw [← hsplit]
    exact natDecimal_val (by omega)
  have haux := parseUintAux_digits (c :: cs) 0 hds
    (by simp only [Nat.zero_mul, Nat.zero_add, hval]; omega)
  unfold parseUintGo
  rw [hsplit, if_neg (by simp), haux]
  simp only [Nat.zero_mul, Nat.zero_add, hval]

theorem parseIntGo_digits {c : Nat} {cs : Str}
    (hds : ∀ d ∈ c :: cs, 48 ≤ d ∧ d ≤ 57)
    (hb : (digitsVal ((c :: cs).map (fun d => d - 48)) : ℤ) ≤
      2 ^ 63 - 1) :
    parseIntGo (c :: cs) =
      some (digitsVal ((c :: cs).map (fun d => d - 48)) : ℤ) := by
  have haux := parseIntAux_digits (c :: cs) 0 hds le_rfl
    (by simpa using hb)
  have hc1 := (hds c (by simp)).1
  have hc2 := (hds c (by simp)).2
  interval_cases c <;> simp [parseIntGo, haux]

theorem parseIntGo_neg_digits {c : Nat} {cs : Str}
    (hds : ∀ d ∈ c :: cs, 48 ≤ d ∧ d ≤ 57)
    (hb : (digitsVal ((c :: cs).map (fun d => d - 48)) : ℤ) ≤
      2 ^ 63 - 1) :
    parseIntGo (45 :: c :: cs) =
      some (-(digitsVal ((c :: cs).map (fun d => d - 48)) : ℤ)) := by
  have haux := parseIntAux_digits (c :: cs) 0 hds le_rfl
    (by simpa using hb)
  have hb2 : (digitsVal ((c - 48) :: cs.map (fun c => c - 48)) : ℤ) ≤
      2 ^ 63 - 1 := by simpa using hb
  have hv2 : (0 : ℤ) ≤
      (digitsVal ((c - 48) :: cs.map (fun c => c - 48)) : ℤ) := by
    positivity
  simp [parseIntGo, haux]
  exact w64_id (by omega) (by omega)

theorem parseIntGo_natDecimal {m : Nat}
    (hm : (m : ℤ) ≤ 2 ^ 63 - 1) :
    parseIntGo (natDecimal m) = some (m : ℤ) := by
  obtain ⟨c, cs, hsplit, hc1, hc2⟩ := natDecimal_head m
  have hds : ∀ d ∈ c :: cs, 48 ≤ d ∧ d ≤ 57 := by
    rw [← hsplit]
    exact natDecimal_digits m
  have hval : digitsVal ((c :: cs).map (fun d => d - 48)) = m := by
    rw [← hsplit]
    exact natDecimal_val (by
      have : (m : ℤ) < 10 ^ 30 := by
        calc (m : ℤ) ≤ 2 ^ 63 - 1 := hm
          _ < 10 ^ 30 := by norm_num
      exact_mod_cast this)
  rw [hsplit, parseIntGo_digits hds (by rw [hval]; exact hm)]
  rw [hval]

theorem parseIntGo_neg_natDecimal {m : Nat}
    (hm : (m : ℤ) ≤ 2 ^ 63 - 1) :
    parseIntGo (45 :: natDecimal m) = some (-(m : ℤ)) := by
  obtain ⟨c, cs, hsplit, hc1, hc2⟩ := natDecimal_head m
  have hds : ∀ d ∈ c :: cs, 48 ≤ d ∧ d ≤ 57 := by
    rw [← hsplit]
    exact natDecimal_digits m
  have hval : digitsVal ((c :: cs).map (fun d => d - 48)) = m := by
    rw [← hsplit]
    exact natDecimal_val (by
      have : (m : ℤ) < 10 ^ 30 := by
        calc (m : ℤ) ≤ 2 ^ 63 - 1 := hm
          _ < 10 ^ 30 := by norm_num
      exact_mod_cast this)
  rw [hsplit, parseIntGo_neg_digits hds (by rw [hval]; exact hm)]
  rw [hval]

end GJson

namespace GJson

set_option maxRecDepth 100000 in
/-- `parseInt` on the rendered most-negative `int64`: the final
accumulation wraps `2^63` to `-2^63` and the wrapping negation returns
it unchanged. -/
theorem parseIntGo_min :
    parseIntGo (45 :: natDecimal 9223372036854775808) =
      some (-9223372036854775808) := by decide

/-- `Uint()` recovers any unsigned-64-bit integer from its exact
decimal raw, through the float path when exact and small, through the
decimal re-parse otherwise. -/
theorem toUint_natDecimal {m : Nat} (hm : m < 2 ^ 64) (str0 : Str) :
    ResultT.toUint
      { type := RType.number
        raw := natDecimal m
        str := str0
        num := parseFloatQ (natDecimal m) } = m := by
  have hq : parseFloatQ (natDecimal m) = (m : ℚ) :=
    parseFloatQ_natDecimal (by omega)
  have hr : ratTrunc ((m : Nat) : ℚ) = (m : ℤ) := by
    have h := ratTrunc_intCast (m : ℤ)
    have e : (((m : ℤ) : ℚ)) = ((m : Nat) : ℚ) := by push_cast; ring
    rw [e] at h
    exact h
  have hemod2 : ((m : ℤ).emod (2 ^ 64)) = (m : ℤ) := by
    rw [show ((m : ℤ).emod (2 ^ 64)) = (m : ℤ) % (2 ^ 64) from rfl]
    exact Int.emod_eq_of_lt (Int.natCast_nonneg m) (by exact_mod_cast hm)
  have hemod3 : ((m : ℤ).emod 18446744073709551616) = (m : ℤ) := by
    have e : (18446744073709551616 : ℤ) = 2 ^ 64 := by norm_num
    rw [e]
    exact hemod2
  unfold ResultT.toUint
  simp only [hq]
  by_cases hsm : m ≤ 4503599627370495
  · simp [floatToUint, hr, hemod2, hemod3, hsm]
  · simp only [floatToUint, hr, hemod2, hemod3, Int.toNat_natCast]
    rw [if_neg (by simp [hsm])]
    simp [parseUintGo_natDecimal hm]

end GJson

namespace GJson

/-- `Int()` recovers any signed-64-bit integer from its exact decimal
raw, through the float path when exact and small, through the decimal
re-parse otherwise. -/
theorem toInt_intDecimal {z : ℤ} (h1 : -(2 ^ 63) ≤ z) (h2 : z < 2 ^ 63)
    (str0 : Str) :
    ResultT.toInt
      { type := RType.number
        raw := intDecimal z
        str := str0
        num := parseFloatQ (intDecimal z) } = z := by
  have hq : parseFloatQ (intDecimal z) = (z : ℚ) := by
    by_cases hzn : z < 0
    · have hiv : intDecimal z = 45 :: natDecimal z.natAbs := by
        unfold intDecimal
        rw [if_pos hzn]
      have hm30 : z.natAbs < 10 ^ 30 := by omega
      rw [hiv, parseFloatQ_neg_natDecimal hm30]
      have hcast : (z.natAbs : ℤ) = -z := by omega
      calc -((z.natAbs : Nat) : ℚ) = -(((z.natAbs : ℤ)) : ℚ) := by
            rw [Int.cast_natCast]
        _ = -(((-z : ℤ)) : ℚ) := by rw [hcast]
        _ = (z : ℚ) := by push_cast; ring
    · have hiv : intDecimal z = natDecimal z.natAbs := by
        unfold intDecimal
        rw [if_neg hzn]
      have hm30 : z.natAbs < 10 ^ 30 := by omega
      rw [hiv, parseFloatQ_natDecimal hm30]
      have hcast : (z.natAbs : ℤ) = z := by omega
      calc ((z.natAbs : Nat) : ℚ) = (((z.natAbs : ℤ)) : ℚ) := by
            rw [Int.cast_natCast]
        _ = (z : ℚ) := by rw [hcast]
  have hr : ratTrunc ((z : ℚ)) = z := ratTrunc_intCast z
  have hw : w64 z = z := w64_id h1 h2
  unfold ResultT.toInt
  simp only [hq]
  by_cases hg : -2251799813685248 ≤ z ∧ z ≤ 2251799813685247
  · simp [floatToInt, hr, hw, hg.1, hg.2]
  · simp only [floatToInt, hr, hw]
    rw [if_neg (by
      intro hcon
      exact hg ⟨hcon.2.1, hcon.2.2⟩)]
    by_cases hzn : z < 0
    · by_cases hmin : z = -9223372036854775808
      · subst hmin
        have hiv : intDecimal (-9223372036854775808 : ℤ) =
            45 :: natDecimal 9223372036854775808 := rfl
        simp [hiv, parseIntGo_min]
      · have hiv : intDecimal z = 45 :: natDecimal z.natAbs := by
          unfold intDecimal
          rw [if_pos hzn]
        have hb : ((z.natAbs : Nat) : ℤ) ≤ 2 ^ 63 - 1 := by omega
        simp only [hiv, parseIntGo_neg_natDecimal hb]
        omega
    · have hiv : intDecimal z = natDecimal z.natAbs := by
        unfold intDecimal
        rw [if_neg hzn]
      have hb : ((z.natAbs : Nat) : ℤ) ≤ 2 ^ 63 - 1 := by omega
      simp only [hiv, parseIntGo_natDecimal hb]
      omega

end GJson

namespace GJson

/-- `Parse` of a rendered scalar document. -/
theorem ParseE_scalar (v : Jv) (hwf : jvWf v = true)
    (hs : isScalar v = true) :
    ParseE (render v) = scalarRes v := by
  cases v with
  | jobj ms => simp [isScalar] at hs
  | jarr es => simp [isScalar] at hs
  | jstr s =>
    simp only [jvWf] at hwf
    have hb : byteAt (render (Jv.jstr s)) 0 = 34 := by
      simp [render, byteAt]
    have hlt : 0 < (render (Jv.jstr s)).length := by simp [render]
    have hts : tostr (sliceFrom (render (Jv.jstr s)) 0) =
        (34 :: s ++ [34], s) := by
      show tostr ((render (Jv.jstr s)).drop 0) = _
      rw [List.drop_zero]
      have hre : render (Jv.jstr s) = 34 :: s ++ 34 :: [] := by
        simp [render]
      rw [hre]
      exact tostr_at (strWf_noquote hwf)
    unfold ParseE
    rw [parseLoopPF]
    simp [hb, hlt, hts, scalarRes]
  | jnum n =>
    obtain ⟨c, cs, hsplit, hc1, hc2⟩ := natDecimal_head n
    have hb : byteAt (render (Jv.jnum n)) 0 = c := by
      rw [show render (Jv.jnum n) = natDecimal n from rfl, hsplit]
      simp [byteAt]
    have hlt : 0 < (render (Jv.jnum n)).length := by
      simp only [render]
      exact List.length_pos.mpr (natDecimal_ne_nil n)
    have htn : tonum (sliceFrom (render (Jv.jnum n)) 0) =
        (natDecimal n, parseFloatQ (natDecimal n)) := by
      show tonum ((natDecimal n).drop 0) = _
      rw [List.drop_zero]
      conv_lhs => rw [show natDecimal n = natDecimal n ++ [] by simp]
      exact tonum_at (natDecimal_ne_nil n) (natDecimal_digits n)
        (by intro c r hcr; simp at hcr)
    unfold ParseE
    rw [parseLoopPF]
    simp only [hb]
    rw [if_pos hlt, if_neg (by omega), if_neg (by omega),
      if_neg (by omega), if_neg (by omega), if_neg (by omega),
      if_neg (by omega), if_pos (by omega)]
    rw [htn]
    rfl
  | jtrue =>
    have hlit : tolit (sliceFrom (render Jv.jtrue) 0) =
        [116, 114, 117, 101] := by
      show tolit ((render Jv.jtrue).drop 0) = _
      rw [List.drop_zero]
      have h := @tolit_at 116 [114, 117, 101] [] (by decide)
        (by intro c r hcr; simp at hcr)
      simpa using h
    unfold ParseE
    rw [parseLoopPF]
    have hb : byteAt (render Jv.jtrue) 0 = 116 := by
      simp [render, byteAt]
    have hlt : 0 < (render Jv.jtrue).length := by simp [render]
    simp [hb, hlt, hlit, scalarRes]
  | jfalse =>
    have hlit : tolit (sliceFrom (render Jv.jfalse) 0) = [102] := by
      show tolit ((render Jv.jfalse).drop 0) = _
      rw [List.drop_zero]
      have h := @tolit_at 102 [] [97, 108, 115, 101] (by decide)
        (by intro c r hcr; simp at hcr; omega)
      simpa using h
    unfold ParseE
    rw [parseLoopPF]
    have hb : byteAt (render Jv.jfalse) 0 = 102 := by
      simp [render, byteAt]
    have hlt : 0 < (render Jv.jfalse).length := by simp [render]
    simp [hb, hlt, hlit, scalarRes]
  | jnull =>
    have hlit : tolit (sliceFrom (render Jv.jnull) 0) =
        [110, 117, 108, 108] := by
      show tolit ((render Jv.jnull).drop 0) = _
      rw [List.drop_zero]
      have h := @tolit_at 110 [117, 108, 108] [] (by decide)
        (by intro c r hcr; simp at hcr)
      simpa using h
    unfold ParseE
    rw [parseLoopPF]
    have hb : byteAt (render Jv.jnull) 0 = 110 := by
      simp [render, byteAt]
    have hlt : 0 < (render Jv.jnull).length := by simp [render]
    simp [hb, hlt, hlit, scalarRes]

end GJson

namespace GJson

/-! ## Claim theorems -/

/-- C1: the claim that `GetMany` equals element-wise `Get` fails on the
shared-scan path.  On the object with a `true` first value (`gmDoc`)
and the four simple paths `b,c,d,x`, the scanner skips the
non-matching `true` through `parseAny` with `hit` false, which does
not return at a literal and desynchronises the key scan: the result
for `b` is the zero Result while `Get` finds the number `1`.  The list
length itself is still right. -/
theorem c1_getMany_shared_scan_diverges :
    (GetManyE gmDoc gmPaths).length = gmPaths.length ∧
    (GetManyE gmDoc gmPaths).head? = some ({} : ResultT) ∧
    (GetE gmDoc (bytes "b")).raw = [49] ∧
    GetManyE gmDoc gmPaths ≠ gmPaths.map (GetE gmDoc) :=
  ⟨by decide, by decide, by decide, by decide⟩

/-- C2: the claim that a `!=` bracket query matches a Number element
exactly when its value differs from the literal fails: `queryMatches`
returns the equality comparison for the `!=` operator on Numbers
(gjson.go:1088), so `a.#[age!=44]` on `neqDoc` returns the raw of the
element whose `age` *equals* 44. -/
theorem c2_neq_query_returns_equal_element :
    (GetE neqDoc (bytes "a.#[age!=44]")).raw =
      bytes "\x7b\"age\":44\x7d" := by
  with_unfolding_all rfl

/-- C4 counterexample: `Valid` accepts a document with two consecutive
commas between members, which the strict member grammar (one comma
between members, modelled from the spec as `validStrictSpec`) rejects:
after a comma, `validobject` scans forward to the next quote and
treats anything before it as skippable (gjson.go:2211). -/
theorem c4_valid_double_comma_counterexample :
    ValidE (bytes "\x7b\"a\":1,,\"b\":2\x7d") = true ∧
    validStrictSpec (bytes "\x7b\"a\":1,,\"b\":2\x7d") = false :=
  ⟨by decide, by decide⟩

/-- C4 amended: `Valid` does reject a leading-zero number, a trailing
comma before the closing brace, and trailing garbage after a complete
value, and accepts a plain strict object; but it is not strict about
what stands between a comma and the next member key, accepting the
double-comma document. -/
theorem c4_valid_strict_cases :
    ValidE (bytes "-00") = false ∧
    ValidE (bytes "\x7b\"a\":\"b\",\x7d") = false ∧
    ValidE (bytes "\x7b\"a\":1\x7d garbage") = false ∧
    ValidE (bytes "\x7b\"a\":1\x7d") = true ∧
    ValidE (bytes "\x7b\"a\":1,,\"b\":2\x7d") = true :=
  ⟨by decide, by decide, by decide, by decide, by decide⟩

/-- C5 counterexample: with the parenthesis form `#(...)` the scenario
query returns the zero Result, not `"Roger"`: `parseArrayPath` only
recognises `#[` as a query opener (gjson.go:699). -/
theorem c5_paren_query_returns_nothing :
    GetE friendsDoc (bytes "friends.#(age>45).first") = {} := by
  decide

/-- C5 amended: the square-bracket form of the scenario query does
return the String `"Roger"`; the parenthesis form is not recognised as
a query. -/
theorem c5_bracket_query_first_match :
    (GetE friendsDoc (bytes "friends.#[age>45].first")).type =
      RType.string ∧
    (GetE friendsDoc (bytes "friends.#[age>45].first")).str =
      bytes "Roger" :=
  ⟨by with_unfolding_all rfl, by with_unfolding_all rfl⟩

/-- C6 counterexample: on the result of a `#.first` projection (a
synthesised array of two strings), appending `.#` does not count the
array: `Get` re-runs the whole path against the document and the
second `#` yields count `0`, while `Array()` on the projection has
length 2. -/
theorem c6_projection_count_zero :
    (GetE friendsDoc (bytes "friends.#.first.#")).num = 0 ∧
    ((GetE friendsDoc (bytes "friends.#.first")).array).length = 2 :=
  ⟨by decide, by decide⟩

/-- C6 amended: for paths addressing a real (non-synthesised) array in
a rendered object document, the `.#` count does equal the length of
`Array()` of the addressed array. -/
theorem c6_count_matches_array_length {ms : Jms}
    (hwf : jmsWf ms = true) {k : Str} (hk : keyWf k = true) {es : Jes}
    (hes : jesWf es = true) (hfv : firstVal ms k = some (Jv.jarr es)) :
    (GetE (render (Jv.jobj ms)) (k ++ [46, 35])).num =
      (((GetE (render (Jv.jobj ms)) k).array).length : ℚ) := by
  rw [GetE_obj_count hwf hk hes hfv, GetE_obj_hit hwf hk hfv]
  rw [array_of_getVal_arr hes, aomValsEs_length]

/-- C6 witness: an object holding the array `[1,2]` under key `a`,
with path `a.#`. -/
theorem c6_count_matches_array_length_witness :
    (GetE (render (Jv.jobj (Jms.mcons [97]
        (Jv.jarr (Jes.econs (Jv.jnum 1)
          (Jes.econs (Jv.jnum 2) Jes.enil))) Jms.mnil)))
      ([97] ++ [46, 35])).num =
      (((GetE (render (Jv.jobj (Jms.mcons [97]
          (Jv.jarr (Jes.econs (Jv.jnum 1)
            (Jes.econs (Jv.jnum 2) Jes.enil))) Jms.mnil)))
        [97]).array).length : ℚ) :=
  c6_count_matches_array_length (by decide) (by decide) (by decide) rfl

/-- C8: in a well-formed rendered object with a duplicated key, `Get`
with the plain key path returns the first occurrence's value, while
`Map()` on the parsed whole document maps the key to the last
occurrence's token record (its type and raw span). -/
theorem c8_get_first_map_last {ms : Jms} (hwf : jmsWf ms = true)
    {k : Str} (hk : keyWf k = true) (hdup : 2 ≤ countKey ms k)
    {w wl : Jv} (hf : firstVal ms k = some w)
    (hl : lastVal ms k = some wl) :
    GetE (render (Jv.jobj ms)) k = getVal w ∧
    ∃ r, lookupA ((ParseE (render (Jv.jobj ms))).mapRes) k = some r ∧
      r.type = aomType wl ∧ r.raw = aomRaw wl := by
  constructor
  · exact GetE_obj_hit hwf hk hf
  · rw [mapRes_of_ParseE_obj hwf]
    have h := aomObjFold_lookup ms k {} []
    simp only [hl] at h
    exact h

/-- C8 witness: an object with the key `a` twice, values `1` then `2`;
`Get` gives `1`, `Map()` keeps `2`. -/
theorem c8_get_first_map_last_witness :
    GetE (render (Jv.jobj (Jms.mcons [97] (Jv.jnum 1)
        (Jms.mcons [97] (Jv.jnum 2) Jms.mnil)))) [97] =
      getVal (Jv.jnum 1) ∧
    ∃ r, lookupA ((ParseE (render (Jv.jobj (Jms.mcons [97] (Jv.jnum 1)
        (Jms.mcons [97] (Jv.jnum 2) Jms.mnil))))).mapRes) [97] =
        some r ∧
      r.type = aomType (Jv.jnum 2) ∧ r.raw = aomRaw (Jv.jnum 2) :=
  c8_get_first_map_last (by decide) (by decide) (by decide) rfl rfl

/-- C9: a Number result whose raw is the exact decimal of an integer
yields that integer back from `Int()` for the whole signed 64-bit
range and from `Uint()` for the whole unsigned 64-bit range — through
the float fast path when the value is small and exactly represented,
through the decimal re-parse of `Raw` otherwise. -/
theorem c9_int_uint_roundtrip (z : ℤ) (n : Nat) (s1 s2 : Str)
    (h1 : -(2 ^ 63) ≤ z) (h2 : z < 2 ^ 63) (h3 : n < 2 ^ 64) :
    ResultT.toInt
      { type := RType.number
        raw := intDecimal z
        str := s1
        num := parseFloatQ (intDecimal z) } = z ∧
    ResultT.toUint
      { type := RType.number
        raw := natDecimal n
        str := s2
        num := parseFloatQ (natDecimal n) } = n :=
  ⟨toInt_intDecimal h1 h2 s1, toUint_natDecimal h3 s2⟩

/-- C9 witness: the integer one above `2^53` (not exactly
representable in binary64) and the largest `uint64`. -/
theorem c9_int_uint_roundtrip_witness :
    ResultT.toInt
      { type := RType.number
        raw := intDecimal 9007199254740993
        str := []
        num := parseFloatQ (intDecimal 9007199254740993) } =
      9007199254740993 ∧
    ResultT.toUint
      { type := RType.number
        raw := natDecimal 18446744073709551615
        str := []
        num := parseFloatQ (natDecimal 18446744073709551615) } =
      18446744073709551615 :=
  c9_int_uint_roundtrip 9007199254740993 18446744073709551615 [] []
    (by decide) (by decide) (by decide)

/-- C10: `Get` returns the zero Result on any document that holds no
opening brace and no opening bracket byte, for every path; `Parse` on
a rendered bare scalar returns the scalar's own record (with the
`false` raw cut at its `a` by `tolit`). -/
theorem c10_no_opener_get_nothing_parse_scalar :
    (∀ json path : Str, (∀ c ∈ json, c ≠ 123 ∧ c ≠ 91) →
      GetE json path = {}) ∧
    (∀ v : Jv, jvWf v = true → isScalar v = true →
      ParseE (render v) = scalarRes v) :=
  ⟨fun _ _ hall => GetE_no_opener hall,
   fun v hwf hs => ParseE_scalar v hwf hs⟩

/-- C10 witness: the bare literal `true` with path `a`. -/
theorem c10_no_opener_witness :
    GetE (bytes "true") (bytes "a") = {} ∧
    ParseE (render Jv.jtrue) = scalarRes Jv.jtrue :=
  ⟨c10_no_opener_get_nothing_parse_scalar.1 (bytes "true") (bytes "a")
      (by decide),
    c10_no_opener_get_nothing_parse_scalar.2 Jv.jtrue rfl rfl⟩

end GJson
